import Mathlib

/-!
# csvgetline2: a shallow embedding of `csvgetline2.c`

Bytes are natural numbers (`0` is NUL, `10` is `\n`, `13` is `\r`, `34` is the
double quote, `44` is the comma).  A C buffer is a `List Nat` whose length is
its allocated size; a `char *` into a buffer is an offset into it, and the string it
points to is read with `cstr`.  `malloc` and `realloc` succeed or fail according to an
allocation oracle `alloc : Nat → Bool` on the requested size; `noFail` is the oracle under
which nothing fails.  An input stream (`FILE *`) is the list of bytes that remain to be
read, and every function that reads returns the stream it leaves.

The `int` counters of the source are natural numbers, for a 32-bit `int` and a 64-bit
`size_t`.  Two of them can leave the range of an `int` on inputs a program can be given:

* `nrow` is incremented by every call of `csvgetline` that does not fail, and is only ever
  tested against `0`; it is kept modulo `2 ^ 32`, the wrap-around of a 32-bit `int` in
  two's complement, so that it is `0` again after `2 ^ 32` calls;
* `maxline` is doubled by the read loop, and `realloc` is asked for the `size_t` its `int`
  value converts to (`sizeOfInt`): `2 ^ 64 - 2 ^ 31` bytes when `maxline` is doubled from
  `2 ^ 30`.  No allocator serves that request: `Serves` asks of an oracle the requests
  below `2 ^ 63` bytes only, and `wordHeap` refuses the others.  Under such an oracle the
  read loop fails there and the session is reset; under `noFail` the doubling goes on in
  the natural numbers.

The other counters (`maxfield`, `maxkey`, `nfield`, `nkey` and the index `i` of the read
loop) grow with the length of one line only: `maxfield` and `maxkey` are below `2 ^ 31`
when the lines are shorter than `2 ^ 30` bytes (`csvgetline_maxptrs_lt`).  The statements
that range over lines or calls without bound carry the bounds under which no `int` leaves
its range, lines shorter than `2 ^ 30` bytes and fewer than `2 ^ 32` calls
(`readLoop_bound`, `reachableIn_caps`), and `readLoop_overflow` and `eof_calls_wrap` say
what happens beyond them.

The loops of the source are recursive functions on a fuel argument.  The callers pass more
fuel than the loop can use (the length of the buffer or of the stream, plus one), and the
lemmas `advquotedLoop_spec`, `splitLoop_spec`, `readLoop_spec` and `readLoop_noFail_done`
give the result of each loop for every such fuel.

The file has three parts: the embedding of the source, then list-level descriptions of
what the loops compute and the definitions the statements need, then the lemmas and the
properties of the specification (`C1`, `C2`, ...).
-/

namespace Csv

/-! ## Memory and libc primitives -/

/-- Read `buf[i]`. -/
def rd (buf : List Nat) (i : Nat) : Nat := buf.getD i 0

/-- Write `buf[i] = v`. -/
def wr (buf : List Nat) (i v : Nat) : List Nat := buf.set i v

/-- The C string that starts at offset `p` of `buf`: the bytes up to the first NUL. -/
def cstr (buf : List Nat) (p : Nat) : List Nat := (buf.drop p).takeWhile (fun c => c != 0)

/-- Store the bytes `cs` at offsets `d`, `d+1`, ... of `buf`. -/
def writeAt : List Nat → Nat → List Nat → List Nat
  | buf, _, [] => buf
  | buf, d, c :: cs => writeAt (wr buf d c) (d + 1) cs

/-- The libc call `strcspn(buf + p, ",")`: the length of the initial segment of the
string at `p` that holds no comma. -/
def strcspn (buf : List Nat) (p : Nat) : Nat :=
  ((buf.drop p).takeWhile (fun c => c != 0 && c != 44)).length

/-- The libc call `strcpy(dst, src)`: copy the string at the start of `src`, with
its NUL, to the start of `dst`. -/
def strcpy (dst src : List Nat) : List Nat := writeAt dst 0 (cstr src 0 ++ [0])

/-- The libc call `memmove(buf + d, buf + s, k)`. -/
def memmove (buf : List Nat) (d s k : Nat) : List Nat := writeAt buf d ((buf.drop s).take k)

/-- A fresh block of `n` cells, as `malloc(n)` returns it. -/
def malloc (n : Nat) : List Nat := List.replicate n 0

/-- The block `buf` resized to `n` cells, as `realloc(buf, n)` returns it: the old
content is kept. -/
def realloc (buf : List Nat) (n : Nat) : List Nat :=
  (buf ++ List.replicate (n - buf.length) 0).take n

/-- The size of a `char *`, the unit of the `field` and `key` arrays. -/
def sizeofPtr : Nat := 8

/-- The allocation oracle under which every `malloc` and `realloc` succeeds. -/
def noFail : Nat → Bool := fun _ => true

/-- The `size_t` that `realloc` receives for the `int` size `n` of the source, for a
32-bit `int` and a 64-bit `size_t`: the value itself while it is below `2 ^ 31`, and
`2 ^ 64 - 2 ^ 32` more than the low 32 bits of `n` once the `int` has wrapped to a negative
value. -/
def sizeOfInt (n : Nat) : Nat :=
  if n % 4294967296 < 2147483648 then n % 4294967296
  else n % 4294967296 + (18446744073709551616 - 4294967296)

/-! ## The session state: the static variables of `csvgetline2.c` -/

/-- The static variables of the source file.  `none` is the `NULL` pointer. -/
structure State where
  /-- input chars -/
  line : Option (List Nat)
  /-- line copy used by split -/
  sline : Option (List Nat)
  /-- line copy used by split to store keys -/
  kline : Option (List Nat)
  /-- size of `line`, `sline` and `kline` -/
  maxline : Nat
  /-- field pointers: offsets into `sline` -/
  field : Option (List Nat)
  /-- key pointers: offsets into `kline` -/
  key : Option (List Nat)
  /-- size of `field` -/
  maxfield : Nat
  /-- size of `key` -/
  maxkey : Nat
  /-- number of fields in `field` -/
  nfield : Nat
  /-- number of keys in `key` -/
  nkey : Nat
  /-- number of rows -/
  nrow : Nat
  deriving DecidableEq

/-- The values the static variables have when the program starts. -/
def State.init : State :=
  { line := none, sline := none, kline := none, maxline := 0, field := none, key := none,
    maxfield := 0, maxkey := 0, nfield := 0, nkey := 0, nrow := 0 }

/-- Function `reset`: set variables back to starting values. -/
def reset (_s : State) : State :=
  { line := none, sline := none, kline := none, field := none, key := none,
    maxline := 0, maxfield := 0, nfield := 0, nrow := 0, nkey := 0, maxkey := 0 }

/-! ## Reading a line -/

/-- The libc call `getc(fin)`: the next byte (`none` is `EOF`) and the stream after it. -/
def getc : List Nat → Option Nat × List Nat
  | [] => (none, [])
  | c :: rest => (some c, rest)

/-- Function `endofline`: check for and consume `\r`, `\n`, `\r\n`.  Returns `eol`
and the stream after the call. -/
def endofline (fin : List Nat) (c : Nat) : Bool × List Nat :=
  let eol := (c == 13 || c == 10)
  if c == 13 then
    match getc fin with
    | (none, fin1) => (eol, fin1)
    | (some c1, fin1) => if c1 != 10 then (eol, c1 :: fin1) else (eol, fin1)
  else (eol, fin)

/-- How the read loop of `csvgetline` ends. -/
inductive ReadExit where
  /-- an allocation failed; the stream is the one left at that point -/
  | nomem (fin : List Nat)
  /-- the loop condition failed with index `i` and last byte `c` (`none` is `EOF`) -/
  | done (s : State) (fin : List Nat) (i : Nat) (c : Option Nat)
  deriving DecidableEq

/-- The growth step inside the read loop: double `maxline` and reallocate `line`,
`sline` and, while `nrow` is `0`, `kline`.  The size passed to `realloc` is the `int`
`maxline` converted to `size_t`.  `none` is an allocation failure. -/
def growLine (alloc : Nat → Bool) (s : State) : Option State :=
  let s1 := { s with maxline := s.maxline * 2 }
  if !alloc (sizeOfInt s1.maxline) then none else
  let s2 := { s1 with line := s1.line.map (fun b => realloc b s1.maxline) }
  if !alloc (sizeOfInt s2.maxline) then none else
  let s3 := { s2 with sline := s2.sline.map (fun b => realloc b s2.maxline) }
  if s3.nrow == 0 then
    if !alloc (sizeOfInt s3.maxline) then none else
    some { s3 with kline := s3.kline.map (fun b => realloc b s3.maxline) }
  else some s3

/-- The loop `for (i=0; (c=getc(fin))!=EOF && !endofline(fin,c); i++)` of `csvgetline`,
entered with index `i`.  Every iteration consumes a byte, so `fuel` above the length
of the stream is never used up. -/
def readLoop (alloc : Nat → Bool) : Nat → State → List Nat → Nat → ReadExit
  | 0, s, fin, i => .done s fin i none
  | fuel + 1, s, fin, i =>
    match getc fin with
    | (none, fin1) => .done s fin1 i none
    | (some c, fin1) =>
      match endofline fin1 c with
      | (true, fin2) => .done s fin2 i (some c)
      | (false, fin2) =>
        if i ≥ s.maxline - 1 then
          match growLine alloc s with
          | none => .nomem fin2
          | some s1 =>
            readLoop alloc fuel { s1 with line := s1.line.map (fun b => wr b i c) } fin2 (i + 1)
        else
          readLoop alloc fuel { s with line := s.line.map (fun b => wr b i c) } fin2 (i + 1)

/-! ## Splitting a line -/

/-- The loop of `advquoted` on the string at offset `p`, entered with write index `i`
and read index `j`; returns the buffer and the final `i` and `j`. -/
def advquotedLoop : Nat → List Nat → Nat → Nat → Nat → List Nat × Nat × Nat
  | 0, buf, _, i, j => (buf, i, j)
  | fuel + 1, buf, p, i, j =>
    if rd buf (p + j) = 0 then (buf, i, j)
    else
      -- `p[j] == '"' && p[++j] != '"'`: the increment happens when the first test holds
      let j1 := if rd buf (p + j) = 34 then j + 1 else j
      if rd buf (p + j) = 34 ∧ rd buf (p + j1) ≠ 34 then
        let k := strcspn buf (p + j1)
        (memmove buf (p + i) (p + j1) k, i + k, j1 + k)
      else
        advquotedLoop fuel (wr buf (p + i) (rd buf (p + j1))) p (i + 1) (j1 + 1)

/-- Function `advquoted`: quoted field; returns the buffer and the pointer to the
next separator. -/
def advquoted (buf : List Nat) (p : Nat) : List Nat × Nat :=
  match advquotedLoop (buf.length + 1) buf p 0 0 with
  | (buf1, i, j) => (wr buf1 (p + i) 0, p + j)

/-- The `if (*p == '"') ... else ...` of the loop of `split`: the buffer, the start `p`
of the field (past an opening quote) and the separator pointer `sepp`. -/
def scanField (l : List Nat) (p : Nat) : List Nat × Nat × Nat :=
  if rd l p = 34 then
    match advquoted l (p + 1) with
    | (l1, sepp) => (l1, p + 1, sepp)
  else (l, p, p + strcspn l p)

/-- The `if (*n >= *max) ...` of the loop of `split`: the new `*max` and `*ap`, or
`none` when `realloc` fails. -/
def growPtrs (alloc : Nat → Bool) (n max : Nat) (ap : List Nat) : Option (Nat × List Nat) :=
  if n ≥ max then
    if !alloc (max * 2 * sizeofPtr) then none else some (max * 2, realloc ap (max * 2))
  else some (max, ap)

/-- The `do ... while (sepc == ',')` loop of `split`, entered with `*n = n`,
`*max = max`, the line copy `l`, the pointer array `ap` and the scan pointer `p`.
`none` is the `NOMEM` return. -/
def splitLoop (alloc : Nat → Bool) :
    Nat → Nat → Nat → List Nat → List Nat → Nat → Option (Nat × Nat × List Nat × List Nat)
  | 0, n, max, l, ap, _ => some (n, max, l, ap)
  | fuel + 1, n, max, l, ap, p =>
    match growPtrs alloc n max ap with
    | none => none
    | some (max1, ap1) =>
      match scanField l p with
      | (l1, p1, sepp) =>
        let sepc := rd l1 sepp
        let l2 := wr l1 sepp 0
        let ap2 := wr ap1 n p1
        if sepc = 44 then splitLoop alloc fuel (n + 1) max1 l2 ap2 (sepp + 1)
        else some (n + 1, max1, l2, ap2)

/-- Function `split`: split the global `line` into fields.  The arguments are the
global `line` and the targets of the pointers `max`, `l` and `ap`; the result is the
new `*n`, `*max`, `*l` and `*ap`, or `none` for `NOMEM`. -/
def split (alloc : Nat → Bool) (line : List Nat) (max : Nat) (l ap : List Nat) :
    Option (Nat × Nat × List Nat × List Nat) :=
  if rd line 0 = 0 then some (0, max, l, ap)
  else
    let l1 := strcpy l line
    splitLoop alloc (l1.length + 1) 0 max l1 ap 0

/-- The allocation on the first call of `csvgetline` (`line == NULL`); `none` is a
failed allocation. -/
def firstAlloc (alloc : Nat → Bool) (s : State) : Option State :=
  if s.line = none then
    let s1 := { s with maxline := 1, maxfield := 1, maxkey := 1 }
    if alloc s1.maxline && alloc s1.maxline && alloc s1.maxline
        && alloc (s1.maxfield * sizeofPtr) && alloc (s1.maxkey * sizeofPtr) then
      some { s1 with line := some (malloc s1.maxline), sline := some (malloc s1.maxline),
                     kline := some (malloc s1.maxline), field := some (malloc s1.maxfield),
                     key := some (malloc s1.maxkey) }
    else none
  else some s

/-- Function `csvgetline`: get one line, grow as needed.  Returns the line (`none` is
`NULL`), the new state and the stream after the call.  The `nrow++` before the `return`
wraps at `2 ^ 32`. -/
def csvgetline (alloc : Nat → Bool) (s : State) (fin : List Nat) :
    Option (List Nat) × State × List Nat :=
  match firstAlloc alloc s with
  | none => (none, reset s, fin)
  | some s0 =>
    match readLoop alloc (fin.length + 1) s0 fin 0 with
    | .nomem fin1 => (none, reset s0, fin1)
    | .done s1 fin1 i c =>
      let s2 := { s1 with line := s1.line.map (fun b => wr b i 0) }
      let ln := s2.line.getD []
      if s2.nrow = 0 then
        match split alloc ln s2.maxkey (s2.kline.getD []) (s2.key.getD []) with
        | none => (none, reset s2, fin1)
        | some (n, max, l, ap) =>
          let s3 := { s2 with nkey := n, maxkey := max, kline := some l, key := some ap,
                              nrow := (s2.nrow + 1) % 4294967296 }
          (if c = none ∧ i = 0 then none else some (cstr ln 0), s3, fin1)
      else
        match split alloc ln s2.maxfield (s2.sline.getD []) (s2.field.getD []) with
        | none => (none, reset s2, fin1)
        | some (n, max, l, ap) =>
          let s3 := { s2 with nfield := n, maxfield := max, sline := some l, field := some ap,
                              nrow := (s2.nrow + 1) % 4294967296 }
          (if c = none ∧ i = 0 then none else some (cstr ln 0), s3, fin1)

/-! ## Looking fields up -/

/-- Function `csvfield`: return pointer to n-th field (`none` is `NULL`). -/
def csvfield (s : State) (n : Int) : Option Nat :=
  if n < 0 ∨ n ≥ (s.nfield : Int) then none
  else some (rd (s.field.getD []) n.toNat)

/-- The loop of `csvkey`, entered with index `i`; `todo` counts the iterations left
before `i` reaches `max`. -/
def csvkeyLoop (s : State) (k : List Nat) : Nat → Nat → Option Nat
  | 0, _ => none
  | todo + 1, i =>
    if cstr (s.kline.getD []) (rd (s.key.getD []) i) = cstr k 0 then
      some (rd (s.field.getD []) i)
    else csvkeyLoop s k todo (i + 1)

/-- Function `csvkey`: return pointer to field with name `k` (`none` is `NULL`). -/
def csvkey (s : State) (k : List Nat) : Option Nat :=
  let max := if s.nkey < s.nfield then s.nkey else s.nfield
  csvkeyLoop s k max 0

/-- Function `csvnfield`: return number of fields. -/
def csvnfield (s : State) : Nat := s.nfield

/-- Function `csvclose`: cleanup after we are done. -/
def csvclose (s : State) : State := reset s

/-! ## Reading results out of a state -/

/-- The strings the first `n` pointers of the array `ap` point to, in the buffer `buf`. -/
def ptrStrs (buf ap : List Nat) (n : Nat) : List (List Nat) :=
  (List.range n).map (fun i => cstr buf (rd ap i))

/-- The string a pointer returned by `csvfield` or `csvkey` points to, in `sline`. -/
def fieldStr (s : State) (ptr : Option Nat) : Option (List Nat) :=
  ptr.map (fun p => cstr (s.sline.getD []) p)

/-- The strings of the current row: `field[0]`, ..., `field[nfield-1]`. -/
def fields (s : State) : List (List Nat) :=
  ptrStrs (s.sline.getD []) (s.field.getD []) s.nfield

/-- The strings of the header: `key[0]`, ..., `key[nkey-1]`. -/
def keys (s : State) : List (List Nat) :=
  ptrStrs (s.kline.getD []) (s.key.getD []) s.nkey

/-- The strings `split` leaves for the line `ln`: `split` is run on a `line` buffer that
holds `ln` and its NUL, with a line copy of the same size and a pointer array of size 1,
and the `*n` strings its pointers point to are read back.  `none` is `NOMEM`. -/
def splitLine (alloc : Nat → Bool) (ln : List Nat) : Option (List (List Nat)) :=
  match split alloc (ln ++ [0]) 1 (malloc (ln.length + 1)) (malloc 1) with
  | none => none
  | some (n, _, l, ap) => some (ptrStrs l ap n)

/-! ## A list-level description of the splitting, proved below to be what `split` computes -/

/-- What `advquoted` does to the text `s` that follows an opening quote: the field it
leaves and the rest of the text, from the separator on. -/
def quotedField : List Nat → List Nat × List Nat
  | [] => ([], [])
  | c :: cs =>
    if c = 34 then
      match cs with
      | [] => ([], [])
      | d :: cs1 =>
        if d = 34 then (34 :: (quotedField cs1).1, (quotedField cs1).2)
        else ((d :: cs1).takeWhile (fun x => x != 44), (d :: cs1).dropWhile (fun x => x != 44))
    else (c :: (quotedField cs).1, (quotedField cs).2)

/-- One pass of the loop of `split` over the text `s`: the field and the rest of the
text, from the separator on. -/
def firstField (s : List Nat) : List Nat × List Nat :=
  match s with
  | [] => ([], [])
  | c :: t =>
    if c = 34 then quotedField t
    else (s.takeWhile (fun x => x != 44), s.dropWhile (fun x => x != 44))

/-- The fields of the loop of `split` over the text `s`, one per pass. -/
def fieldsFrom : Nat → List Nat → List (List Nat)
  | 0, _ => []
  | fuel + 1, s =>
    match (firstField s).2 with
    | [] => [(firstField s).1]
    | c :: rest =>
      if c = 44 then (firstField s).1 :: fieldsFrom fuel rest else [(firstField s).1]

/-- The fields of the line `s`: none for the empty line. -/
def fieldsOf (s : List Nat) : List (List Nat) :=
  if s = [] then [] else fieldsFrom (s.length + 1) s

/-! ## The lines of the round-trip properties, as the specification words them -/

/-- A value wrapped in double quotes, every inner double quote doubled. -/
def quote (v : List Nat) : List Nat :=
  34 :: (v.flatMap (fun c => if c = 34 then [34, 34] else [c]) ++ [34])

/-- Strings joined with commas. -/
def joinComma : List (List Nat) → List Nat
  | [] => []
  | [f] => f
  | f :: g :: fs => f ++ 44 :: joinComma (g :: fs)

/-- The line of the quoted values `vs`, joined with commas. -/
def quotedLine (vs : List (List Nat)) : List Nat := joinComma (vs.map quote)

/-! ## A list-level description of the line reading, proved below to be what the read loop
of `csvgetline` computes -/

/-- The bytes that end a line: `\r` and `\n`. -/
def isEol (c : Nat) : Bool := c == 13 || c == 10

/-- The bytes of the stream before its first line terminator. -/
def lineOf (fin : List Nat) : List Nat := fin.takeWhile (fun c => !isEol c)

/-- The byte that ended the first line of the stream: `none` at end of stream. -/
def termOf (fin : List Nat) : Option Nat := fin.find? isEol

/-- The line `csvgetline` returns for the stream: the bytes before the first line
terminator, as a C string (up to a NUL, if the stream holds one). -/
def cline (fin : List Nat) : List Nat := (lineOf fin).takeWhile (fun c => c != 0)

/-- The stream after its first line and the terminator of that line. -/
def afterLine : List Nat → List Nat
  | [] => []
  | c :: rest =>
    if c = 13 then
      match rest with
      | [] => []
      | d :: r => if d = 10 then r else d :: r
    else if c = 10 then rest
    else afterLine rest

/-! ## Successive calls of `csvgetline` on one stream -/

/-- The lines returned by successive calls of `csvgetline` on one stream, up to the first
call that returns `NULL`.  At most `n` calls are made: the result is `none` when none of
them returns `NULL`. -/
def readLines (alloc : Nat → Bool) : Nat → State → List Nat → Option (List (List Nat))
  | 0, _, _ => none
  | n + 1, s, fin =>
    match csvgetline alloc s fin with
    | (none, _, _) => some []
    | (some l, s1, fin1) => (readLines alloc n s1 fin1).map (fun ls => l :: ls)

/-- The state and the stream after `n` successive calls of `csvgetline` on one stream. -/
def afterCalls (alloc : Nat → Bool) : Nat → State → List Nat → State × List Nat
  | 0, s, fin => (s, fin)
  | n + 1, s, fin =>
    ((csvgetline alloc (afterCalls alloc n s fin).1 (afterCalls alloc n s fin).2).2.1,
     (csvgetline alloc (afterCalls alloc n s fin).1 (afterCalls alloc n s fin).2).2.2)

/-- The result of call number `n` (from 0) of successive calls of `csvgetline` on one
stream: the line returned, the state and the stream after the call. -/
def nthCall (alloc : Nat → Bool) (n : Nat) (s : State) (fin : List Nat) :
    Option (List Nat) × State × List Nat :=
  csvgetline alloc (afterCalls alloc n s fin).1 (afterCalls alloc n s fin).2

/-! ## Predicates on buffers and states -/

/-- The buffer `buf` holds the bytes `s` from offset `o` on. -/
def At (buf : List Nat) (o : Nat) (s : List Nat) : Prop :=
  ∀ t, t < s.length → rd buf (o + t) = s.getD t 0

/-- The buffers of the session are allocated with the sizes the counters record. -/
def Alloc (s : State) : Prop :=
  (s.line.getD []).length = s.maxline ∧ (s.sline.getD []).length = s.maxline ∧
  s.kline ≠ none ∧ (s.nrow = 0 → (s.kline.getD []).length = s.maxline) ∧
  (s.field.getD []).length = s.maxfield ∧ (s.key.getD []).length = s.maxkey ∧
  1 ≤ s.maxline ∧ 1 ≤ s.maxfield ∧ 1 ≤ s.maxkey

instance (s : State) : Decidable (Alloc s) := by
  unfold Alloc
  infer_instance

/-- The states `csvgetline` is called in: the fresh session, or the buffers allocated with
the sizes the counters record. -/
def Inv (s : State) : Prop := s = State.init ∨ Alloc s

instance (s : State) : Decidable (Inv s) := by
  unfold Inv
  infer_instance

/-- The capacities of an allocated session: the sizes are powers of two, the counts are
within the sizes, and the string in `line` is shorter than `maxline`. -/
def Caps (s : State) : Prop :=
  Alloc s ∧ (∃ e, s.maxline = 2 ^ e) ∧ (∃ e, s.maxfield = 2 ^ e) ∧ (∃ e, s.maxkey = 2 ^ e) ∧
  s.nfield ≤ s.maxfield ∧ s.nkey ≤ s.maxkey ∧ (cstr (s.line.getD []) 0).length < s.maxline

/-- The states reached from the fresh session by calls of `csvgetline` in which no
allocation fails, on any streams, with no `csvclose`. -/
inductive Reachable : State → Prop where
  /-- the fresh session -/
  | init : Reachable State.init
  /-- one more call of `csvgetline` -/
  | call (s : State) (fin : List Nat) : Reachable s → Reachable (csvgetline noFail s fin).2.1

/-! ## The lines of a stream, as the specification words them -/

/-- The stream cut at its line terminators, with the segment `cur` read so far: `\r\n`, a
bare `\r` and a bare `\n` each end a line, and an unterminated segment at the end of the
stream is a line when it is not empty. -/
def cutFrom : List Nat → List Nat → List (List Nat)
  | cur, [] => if cur = [] then [] else [cur]
  | cur, [c] => if c = 13 ∨ c = 10 then [cur] else [cur ++ [c]]
  | cur, c :: d :: r =>
    if c = 13 then
      if d = 10 then cur :: cutFrom [] r else cur :: cutFrom [] (d :: r)
    else if c = 10 then cur :: cutFrom [] (d :: r)
    else cutFrom (cur ++ [c]) (d :: r)

/-- The lines of a stream: the stream cut at its line terminators. -/
def cutLines (fin : List Nat) : List (List Nat) := cutFrom [] fin

/-! ## Example inputs -/

/-- The stream `name,age\nAlice,30\n`. -/
def nameAgeStream : List Nat :=
  [110, 97, 109, 101, 44, 97, 103, 101, 10, 65, 108, 105, 99, 101, 44, 51, 48, 10]

/-- The session after the header `name,age` and the row `Alice,30` have been read. -/
def nameAgeState : State := (nthCall noFail 1 State.init nameAgeStream).2.1

/-- The stream `a,b\nx\n`: a header of two keys and a row of one field. -/
def shortRowStream : List Nat := [97, 44, 98, 10, 120, 10]

/-- The session after the header `a,b` and the row `x` have been read. -/
def shortRowState : State := (nthCall noFail 1 State.init shortRowStream).2.1

/-- The stream `h\n"a""b",c\n`: a header and a row whose first field is quoted. -/
def quotedRowStream : List Nat := [104, 10, 34, 97, 34, 34, 98, 34, 44, 99, 10]

/-- An allocation oracle that refuses every request above 16 bytes. -/
def smallHeap : Nat → Bool := fun n => decide (n ≤ 16)

/-- Sixteen bytes `a` followed by `b,c\n`. -/
def longStartStream : List Nat := List.replicate 16 97 ++ [98, 44, 99, 10]

/-! ## The range of the `int` counters -/

/-- The allocator serves every request below `2 ^ 63` bytes.  Nothing is asked of it for
the larger sizes, which no allocator serves. -/
def Serves (alloc : Nat → Bool) : Prop := ∀ n, n < 9223372036854775808 → alloc n = true

/-- The allocation oracle that serves every request below `2 ^ 63` bytes and refuses the
others, among them the `2 ^ 64 - 2 ^ 31` bytes asked for when `maxline` is doubled from
`2 ^ 30`. -/
def wordHeap : Nat → Bool := fun n => decide (n < 9223372036854775808)

/-- The states reached from the fresh session by `n` calls of `csvgetline` in which no
allocation fails, each on a stream whose first line is shorter than `2 ^ 30` bytes, with
no `csvclose`. -/
inductive ReachableIn : Nat → State → Prop where
  /-- the fresh session -/
  | init : ReachableIn 0 State.init
  /-- one more call of `csvgetline` -/
  | call (n : Nat) (s : State) (fin : List Nat) : ReachableIn n s →
      (lineOf fin).length < 1073741824 → ReachableIn (n + 1) (csvgetline noFail s fin).2.1

/-- The session after the header `a` and the row `bbbbbbbb` have been read: the row count
is 2, `maxline` has grown to 16 and `kline` still has the 2 cells it had when the header
was read. -/
def grownState : State :=
  (csvgetline noFail (csvgetline noFail State.init [97, 10]).2.1
    [98, 98, 98, 98, 98, 98, 98, 98, 10]).2.1

/-! # Lemmas -/

/-! ## Memory lemmas -/

theorem rd_wr (buf : List Nat) (a v x : Nat) :
    rd (wr buf a v) x = if x = a ∧ a < buf.length then v else rd buf x := by
  unfold rd wr
  simp only [List.getD_eq_getElem?_getD, List.getElem?_set]
  by_cases h : a = x
  · subst h
    by_cases h2 : a < buf.length
    · simp [h2]
    · simp [h2, List.getElem?_eq_none (Nat.le_of_not_lt h2)]
  · have h3 : ¬ x = a := fun e => h e.symm
    simp [h, h3]

theorem rd_wr_ne (buf : List Nat) (a v x : Nat) (h : x ≠ a) : rd (wr buf a v) x = rd buf x := by
  rw [rd_wr]; simp [h]

theorem rd_wr_eq (buf : List Nat) (a v : Nat) (h : a < buf.length) : rd (wr buf a v) a = v := by
  rw [rd_wr]; simp [h]

theorem length_wr (buf : List Nat) (a v : Nat) : (wr buf a v).length = buf.length := by
  simp [wr]

theorem rd_of_le (buf : List Nat) (x : Nat) (h : buf.length ≤ x) : rd buf x = 0 := by
  unfold rd
  exact List.getD_eq_default _ _ h

theorem lt_of_rd_ne (buf : List Nat) (x : Nat) (h : rd buf x ≠ 0) : x < buf.length := by
  by_contra hc
  exact h (rd_of_le buf x (Nat.le_of_not_lt hc))

theorem drop_eq_rd_cons (buf : List Nat) (x : Nat) (h : x < buf.length) :
    buf.drop x = rd buf x :: buf.drop (x + 1) := by
  rw [List.drop_eq_getElem_cons h]
  unfold rd
  rw [List.getD_eq_getElem _ _ h]

theorem length_realloc (buf : List Nat) (n : Nat) (h : buf.length ≤ n) :
    (realloc buf n).length = n := by
  simp [realloc]; omega

theorem rd_realloc (buf : List Nat) (n x : Nat) (h : buf.length ≤ n) :
    rd (realloc buf n) x = rd buf x := by
  unfold rd realloc
  simp only [List.getD_eq_getElem?_getD, List.getElem?_take]
  by_cases hx : x < buf.length
  · have : x < n := by omega
    simp [this, List.getElem?_append_left hx]
  · have hx2 : buf.length ≤ x := Nat.le_of_not_lt hx
    rw [List.getElem?_eq_none hx2]
    by_cases hn : x < n
    · rw [if_pos hn, List.getElem?_append_right hx2, List.getElem?_replicate]
      split <;> rfl
    · simp [hn]

theorem length_writeAt (cs : List Nat) : ∀ (buf : List Nat) (d : Nat),
    (writeAt buf d cs).length = buf.length := by
  induction cs with
  | nil => intro buf d; rfl
  | cons c cs ih => intro buf d; simp [writeAt, ih, length_wr]

theorem rd_writeAt (cs : List Nat) : ∀ (buf : List Nat) (d x : Nat),
    d + cs.length ≤ buf.length →
    rd (writeAt buf d cs) x = if d ≤ x ∧ x < d + cs.length then cs.getD (x - d) 0 else rd buf x := by
  induction cs with
  | nil =>
    intro buf d x _
    have h2 : ¬ (d ≤ x ∧ x < d + ([] : List Nat).length) := by simp
    rw [if_neg h2]; rfl
  | cons c cs ih =>
    intro buf d x h
    simp only [List.length_cons] at h
    rw [writeAt, ih _ _ _ (by rw [length_wr]; omega)]
    by_cases h1 : d + 1 ≤ x ∧ x < d + 1 + cs.length
    · have h2 : d ≤ x ∧ x < d + (c :: cs).length := by simp; omega
      rw [if_pos h1, if_pos h2]
      have : x - d = (x - (d + 1)) + 1 := by omega
      rw [this, List.getD_cons_succ]
    · rw [if_neg h1]
      by_cases h3 : x = d
      · subst h3
        rw [rd_wr_eq _ _ _ (by omega)]
        simp
      · rw [rd_wr_ne _ _ _ _ h3]
        have h2 : ¬ (d ≤ x ∧ x < d + (c :: cs).length) := by simp; omega
        rw [if_neg h2]

theorem at_nil (buf : List Nat) (o : Nat) : At buf o [] := by
  intro t ht; simp at ht

theorem at_cons (buf : List Nat) (o c : Nat) (s : List Nat) :
    At buf o (c :: s) ↔ rd buf o = c ∧ At buf (o + 1) s := by
  constructor
  · intro h
    refine ⟨by simpa using h 0 (by simp), ?_⟩
    intro t ht
    have := h (t + 1) (by simp; omega)
    rw [List.getD_cons_succ] at this
    rw [← this]; congr 1; omega
  · rintro ⟨h0, h1⟩ t ht
    cases t with
    | zero => simpa using h0
    | succ t =>
      rw [List.getD_cons_succ, ← h1 t (by simpa using ht)]
      congr 1; omega

theorem at_append (buf : List Nat) (a b : List Nat) : ∀ (o : Nat),
    At buf o (a ++ b) ↔ At buf o a ∧ At buf (o + a.length) b := by
  induction a with
  | nil => intro o; simp [at_nil]
  | cons c a ih =>
    intro o
    rw [List.cons_append, at_cons, at_cons, ih (o + 1)]
    have : o + 1 + a.length = o + (c :: a).length := by simp; omega
    rw [this]; tauto

theorem at_congr (buf buf1 : List Nat) (o : Nat) (s : List Nat)
    (h : ∀ x, o ≤ x → x < o + s.length → rd buf1 x = rd buf x) (hs : At buf o s) :
    At buf1 o s := by
  intro t ht
  rw [h (o + t) (by omega) (by omega)]
  exact hs t ht

theorem cstr_of_at (buf : List Nat) (f : List Nat) : ∀ (o : Nat),
    At buf o f → (∀ c ∈ f, c ≠ 0) → rd buf (o + f.length) = 0 → cstr buf o = f := by
  induction f with
  | nil =>
    intro o _ _ h0
    unfold cstr
    by_cases ho : o < buf.length
    · rw [drop_eq_rd_cons buf o ho]
      simp at h0
      simp [h0]
    · rw [List.drop_eq_nil_of_le (Nat.le_of_not_lt ho)]; rfl
  | cons c f ih =>
    intro o hat hnz h0
    rw [at_cons] at hat
    have hc : c ≠ 0 := hnz c (by simp)
    have ho : o < buf.length := lt_of_rd_ne buf o (by rw [hat.1]; exact hc)
    have h0' : rd buf (o + 1 + f.length) = 0 := by
      rw [← h0]; congr 1; simp; omega
    have := ih (o + 1) hat.2 (fun d hd => hnz d (by simp [hd])) h0'
    unfold cstr at this ⊢
    rw [drop_eq_rd_cons buf o ho, hat.1, List.takeWhile_cons]
    simp [hc, this]

theorem strcspn_of_at (buf : List Nat) (f : List Nat) : ∀ (o : Nat),
    At buf o f → (∀ c ∈ f, c ≠ 0 ∧ c ≠ 44) →
    (rd buf (o + f.length) = 0 ∨ rd buf (o + f.length) = 44) → strcspn buf o = f.length := by
  induction f with
  | nil =>
    intro o _ _ h0
    unfold strcspn
    by_cases ho : o < buf.length
    · rw [drop_eq_rd_cons buf o ho]
      simp at h0
      rcases h0 with h0 | h0 <;> simp [h0]
    · rw [List.drop_eq_nil_of_le (Nat.le_of_not_lt ho)]; rfl
  | cons c f ih =>
    intro o hat hnz h0
    rw [at_cons] at hat
    have hc := hnz c (by simp)
    have ho : o < buf.length := lt_of_rd_ne buf o (by rw [hat.1]; exact hc.1)
    have h0' : rd buf (o + 1 + f.length) = 0 ∨ rd buf (o + 1 + f.length) = 44 := by
      have e : o + 1 + f.length = o + (c :: f).length := by simp; omega
      rw [e]; exact h0
    have := ih (o + 1) hat.2 (fun d hd => hnz d (by simp [hd])) h0'
    unfold strcspn at this ⊢
    rw [drop_eq_rd_cons buf o ho, hat.1, List.takeWhile_cons]
    simp [hc.1, hc.2, this]

theorem take_drop_of_at (buf : List Nat) (f : List Nat) : ∀ (o : Nat),
    At buf o f → o + f.length ≤ buf.length → (buf.drop o).take f.length = f := by
  induction f with
  | nil => intro o _ _; simp
  | cons c f ih =>
    intro o hat hl
    rw [at_cons] at hat
    simp only [List.length_cons] at hl
    rw [drop_eq_rd_cons buf o (by omega), hat.1]
    simp only [List.length_cons, List.take_succ_cons]
    rw [ih (o + 1) hat.2 (by omega)]

theorem getD_at (buf : List Nat) (o : Nat) (s : List Nat) (h : At buf o s) (t : Nat) (ht : t < s.length) :
    rd buf (o + t) = s.getD t 0 := h t ht

/-! ## Facts about the list-level description -/

theorem dropWhile_comma (s : List Nat) :
    s.dropWhile (fun x => x != 44) = [] ∨ ∃ t, s.dropWhile (fun x => x != 44) = 44 :: t := by
  induction s with
  | nil => left; rfl
  | cons c s ih =>
    by_cases h : c = 44
    · right; exact ⟨s, by simp [List.dropWhile_cons, h]⟩
    · simpa [List.dropWhile_cons, h] using ih

theorem takeWhile_no_comma (s : List Nat) : ∀ c ∈ s.takeWhile (fun x => x != 44), c ≠ 44 := by
  intro c hc
  have := List.mem_takeWhile_imp hc
  simpa using this

theorem quotedField_plain (c : Nat) (cs : List Nat) (hc : ¬ c = 34) :
    quotedField (c :: cs) = (c :: (quotedField cs).1, (quotedField cs).2) := by
  cases cs with
  | nil => simp [quotedField, hc]
  | cons d cs1 => simp [quotedField, hc]

theorem quotedField_escaped (cs : List Nat) :
    quotedField (34 :: 34 :: cs) = (34 :: (quotedField cs).1, (quotedField cs).2) := by
  rw [quotedField]; simp

theorem quotedField_close (d : Nat) (cs : List Nat) (hd : ¬ d = 34) :
    quotedField (34 :: d :: cs) =
      ((d :: cs).takeWhile (fun x => x != 44), (d :: cs).dropWhile (fun x => x != 44)) := by
  rw [quotedField]; simp [hd]

theorem quotedField_close_nil : quotedField [34] = ([], []) := by
  rw [quotedField]; simp

theorem quotedField_split (r : List Nat) :
    ∃ pre, r = pre ++ (quotedField r).2 ∧
      ((quotedField r).1.length < pre.length ∨
        ((quotedField r).1.length = pre.length ∧ (quotedField r).2 = [])) := by
  induction r using quotedField.induct with
  | case1 => exact ⟨[], by simp [quotedField]⟩
  | case2 => exact ⟨[34], by simp [quotedField]⟩
  | case3 cs1 ih =>
    obtain ⟨pre, h1, h2⟩ := ih
    refine ⟨34 :: 34 :: pre, ?_, ?_⟩
    · simp only [quotedField, if_true, List.cons_append]
      rw [← h1]
    · left
      simp only [quotedField, if_true, List.length_cons]
      rcases h2 with h2 | h2 <;> omega
  | case4 d cs1 hd =>
    refine ⟨34 :: (d :: cs1).takeWhile (fun x => x != 44), ?_, ?_⟩
    · simp only [quotedField, if_true, if_neg hd, List.cons_append]
      rw [List.takeWhile_append_dropWhile]
    · left; simp [quotedField, hd]
  | case5 c cs hc ih =>
    obtain ⟨pre, h1, h2⟩ := ih
    refine ⟨c :: pre, ?_, ?_⟩
    · rw [quotedField_plain c cs hc, List.cons_append]
      simp only
      rw [← h1]
    · rw [quotedField_plain c cs hc]
      simp only [List.length_cons]
      rcases h2 with h2 | h2
      · left; omega
      · right; exact ⟨by omega, h2.2⟩

theorem quotedField_mem (r : List Nat) : ∀ c ∈ (quotedField r).1, c ∈ r := by
  induction r using quotedField.induct with
  | case1 => simp [quotedField]
  | case2 => simp [quotedField]
  | case3 cs1 ih =>
    intro c hc
    simp only [quotedField, if_true, List.mem_cons] at hc
    rcases hc with hc | hc
    · simp [hc]
    · simp [ih c hc]
  | case4 d cs1 hd =>
    intro c hc
    simp only [quotedField, if_true, if_neg hd] at hc
    have := (List.takeWhile_sublist _).subset hc
    exact List.mem_cons_of_mem _ this
  | case5 c cs hc ih =>
    intro x hx
    rw [quotedField_plain c cs hc] at hx
    simp only [List.mem_cons] at hx
    rcases hx with hx | hx
    · simp [hx]
    · simp [ih x hx]

theorem quotedField_rest (r : List Nat) :
    (quotedField r).2 = [] ∨ ∃ t, (quotedField r).2 = 44 :: t := by
  induction r using quotedField.induct with
  | case1 => left; simp [quotedField]
  | case2 => left; simp [quotedField]
  | case3 cs1 ih => simpa [quotedField] using ih
  | case4 d cs1 hd =>
    simp only [quotedField, if_true, if_neg hd]
    exact dropWhile_comma _
  | case5 c cs hc ih => rw [quotedField_plain c cs hc]; exact ih

/-! ## What `advquoted` computes -/

theorem quotedField_rest_le (r : List Nat) : (quotedField r).2.length ≤ r.length := by
  obtain ⟨pre, h1, _⟩ := quotedField_split r
  have := congrArg List.length h1
  simp at this; omega

theorem quotedField_field_le (r : List Nat) :
    (quotedField r).1.length + (quotedField r).2.length ≤ r.length ∧
    ((quotedField r).1.length + (quotedField r).2.length < r.length ∨ (quotedField r).2 = []) := by
  obtain ⟨pre, h1, h2⟩ := quotedField_split r
  have := congrArg List.length h1
  simp at this
  rcases h2 with h2 | h2
  · exact ⟨by omega, Or.inl (by omega)⟩
  · exact ⟨by omega, Or.inr h2.2⟩

theorem advquotedLoop_spec : ∀ (fuel : Nat) (r buf : List Nat) (p i j : Nat),
    r.length < fuel → i ≤ j → (∀ c ∈ r, c ≠ 0) → At buf (p + j) r →
    rd buf (p + j + r.length) = 0 → p + j + r.length < buf.length →
    ∃ buf1,
      advquotedLoop fuel buf p i j =
        (buf1, i + (quotedField r).1.length, j + (r.length - (quotedField r).2.length)) ∧
      buf1.length = buf.length ∧
      At buf1 (p + i) (quotedField r).1 ∧
      (∀ x, x < p + i → rd buf1 x = rd buf x) ∧
      (∀ x, p + j + (r.length - (quotedField r).2.length) ≤ x → rd buf1 x = rd buf x) := by
  intro fuel
  induction fuel with
  | zero => intro r buf p i j h; omega
  | succ fuel ih =>
    intro r buf p i j hfuel hij hnz hat h0 hlen
    cases r with
    | nil =>
      refine ⟨buf, ?_, rfl, at_nil _ _, fun _ _ => rfl, fun _ _ => rfl⟩
      simp at h0
      simp [advquotedLoop, h0, quotedField]
    | cons c cs =>
      rw [at_cons] at hat
      obtain ⟨hc, hcs⟩ := hat
      have hc0 : c ≠ 0 := hnz c (by simp)
      have hnz' : ∀ d ∈ cs, d ≠ 0 := fun d hd => hnz d (by simp [hd])
      simp only [List.length_cons] at hfuel h0 hlen
      by_cases hq : c = 34
      · subst hq
        cases cs with
        | nil =>
          -- closing quote at the end of the text
          have h1 : rd buf (p + (j + 1)) = 0 := by rw [← h0]; congr 1
          have hk : strcspn buf (p + (j + 1)) = 0 :=
            strcspn_of_at buf [] _ (at_nil _ _) (by simp) (by simpa using Or.inl h1)
          refine ⟨buf, ?_, rfl, ?_, fun _ _ => rfl, fun _ _ => rfl⟩
          · rw [advquotedLoop]
            simp [hc, h1, hk, memmove, writeAt, quotedField_close_nil]
          · rw [quotedField_close_nil]; exact at_nil _ _
        | cons d cs1 =>
          rw [at_cons] at hcs
          obtain ⟨hd, hcs1⟩ := hcs
          have hd' : rd buf (p + (j + 1)) = d := by rw [← hd]; congr 1
          simp only [List.length_cons] at hfuel h0 hlen
          by_cases hdq : d = 34
          · -- an escaped quote
            subst hdq
            have hpre : At (wr buf (p + i) 34) (p + (j + 1 + 1)) cs1 := by
              refine at_congr buf _ _ _ (fun x hx _ => rd_wr_ne _ _ _ _ (by omega)) ?_
              have : p + (j + 1 + 1) = p + j + 1 + 1 := by omega
              rw [this]; exact hcs1
            have h0' : rd (wr buf (p + i) 34) (p + (j + 1 + 1) + cs1.length) = 0 := by
              rw [rd_wr_ne _ _ _ _ (by omega), ← h0]; congr 1; omega
            obtain ⟨buf1, e1, e2, e3, e4, e5⟩ :=
              ih cs1 (wr buf (p + i) 34) p (i + 1) (j + 1 + 1) (by omega) (by omega)
                (fun x hx => hnz' x (by simp [hx])) hpre h0' (by rw [length_wr]; omega)
            have hle := quotedField_rest_le cs1
            refine ⟨buf1, ?_, ?_, ?_, ?_, ?_⟩
            · rw [advquotedLoop]
              simp only [hc, hd', if_true, quotedField_escaped, List.length_cons]
              simp only [show (34 : Nat) ≠ 0 by decide, if_false, ne_eq, not_true, and_false]
              rw [e1]
              congr 2 <;> omega
            · rw [e2, length_wr]
            · rw [quotedField_escaped, at_cons]
              refine ⟨?_, e3⟩
              rw [e4 _ (by omega), rd_wr_eq _ _ _ (by omega)]
            · intro x hx
              rw [e4 x (by omega), rd_wr_ne _ _ _ _ (by omega)]
            · intro x hx
              rw [quotedField_escaped] at hx
              simp only [List.length_cons] at hx
              rw [e5 x (by omega), rd_wr_ne _ _ _ _ (by omega)]
          · -- the closing quote, followed by text up to the separator
            have hsplit := List.takeWhile_append_dropWhile (fun x => x != 44) (d :: cs1)
            have hlen2 := congrArg List.length hsplit
            simp only [List.length_append, List.length_cons] at hlen2
            have hat2 : At buf (p + (j + 1)) (d :: cs1) := by
              rw [at_cons]
              refine ⟨hd', ?_⟩
              have : p + (j + 1) + 1 = p + j + 1 + 1 := by omega
              rw [this]; exact hcs1
            rw [← hsplit, at_append] at hat2
            have hk : strcspn buf (p + (j + 1)) =
                ((d :: cs1).takeWhile (fun x => x != 44)).length := by
              refine strcspn_of_at buf _ _ hat2.1 ?_ ?_
              · intro x hx
                exact ⟨hnz' x ((List.takeWhile_sublist _).subset hx), takeWhile_no_comma _ x hx⟩
              · rcases dropWhile_comma (d :: cs1) with hr | ⟨t, hr⟩
                · left
                  rw [hr] at hlen2
                  rw [← h0]; congr 1
                  simp at hlen2; omega
                · right
                  have := hat2.2
                  rw [hr, at_cons] at this
                  exact this.1
            have hmv : memmove buf (p + i) (p + (j + 1))
                ((d :: cs1).takeWhile (fun x => x != 44)).length =
                writeAt buf (p + i) ((d :: cs1).takeWhile (fun x => x != 44)) := by
              unfold memmove
              rw [take_drop_of_at buf _ _ hat2.1 (by omega)]
            have hbound : p + i + ((d :: cs1).takeWhile (fun x => x != 44)).length ≤ buf.length := by
              omega
            refine ⟨writeAt buf (p + i) ((d :: cs1).takeWhile (fun x => x != 44)), ?_, ?_, ?_, ?_, ?_⟩
            · rw [advquotedLoop]
              simp only [hc, hd', if_true, quotedField_close d cs1 hdq, List.length_cons]
              simp only [show (34 : Nat) ≠ 0 by decide, if_false, ne_eq, hdq, not_false_eq_true,
                and_self, if_true]
              rw [hk, hmv]
              congr 2
              omega
            · rw [length_writeAt]
            · rw [quotedField_close d cs1 hdq]
              dsimp only
              intro t ht
              rw [rd_writeAt _ _ _ _ hbound, if_pos (by omega)]
              congr 1; omega
            · intro x hx
              rw [rd_writeAt _ _ _ _ hbound, if_neg (by omega)]
            · intro x hx
              rw [quotedField_close d cs1 hdq] at hx
              simp only [List.length_cons] at hx
              rw [rd_writeAt _ _ _ _ hbound, if_neg (by omega)]
      · -- an ordinary byte
        have hpre : At (wr buf (p + i) c) (p + (j + 1)) cs := by
          refine at_congr buf _ _ _ (fun x hx _ => rd_wr_ne _ _ _ _ (by omega)) ?_
          have : p + (j + 1) = p + j + 1 := by omega
          rw [this]; exact hcs
        have h0' : rd (wr buf (p + i) c) (p + (j + 1) + cs.length) = 0 := by
          rw [rd_wr_ne _ _ _ _ (by omega), ← h0]; congr 1; omega
        obtain ⟨buf1, e1, e2, e3, e4, e5⟩ :=
          ih cs (wr buf (p + i) c) p (i + 1) (j + 1) (by omega) (by omega)
            hnz' hpre h0' (by rw [length_wr]; omega)
        have hle := quotedField_rest_le cs
        refine ⟨buf1, ?_, ?_, ?_, ?_, ?_⟩
        · rw [advquotedLoop]
          simp only [hc, hc0, hq, if_false, false_and, quotedField_plain c cs hq, List.length_cons]
          rw [e1]
          congr 2 <;> omega
        · rw [e2, length_wr]
        · rw [quotedField_plain c cs hq, at_cons]
          refine ⟨?_, e3⟩
          rw [e4 _ (by omega), rd_wr_eq _ _ _ (by omega)]
        · intro x hx
          rw [e4 x (by omega), rd_wr_ne _ _ _ _ (by omega)]
        · intro x hx
          rw [quotedField_plain c cs hq] at hx
          simp only [List.length_cons] at hx
          rw [e5 x (by omega), rd_wr_ne _ _ _ _ (by omega)]

/-! ## What one pass of the loop of `split` computes -/

theorem firstField_rest (s : List Nat) :
    (firstField s).2 = [] ∨ ∃ t, (firstField s).2 = 44 :: t := by
  cases s with
  | nil => left; rfl
  | cons c t =>
    by_cases hc : c = 34
    · simp only [firstField, hc, if_true]; exact quotedField_rest t
    · simp only [firstField, hc, if_false]; exact dropWhile_comma _

theorem firstField_split (s : List Nat) :
    ∃ pre, s = pre ++ (firstField s).2 ∧ (firstField s).1.length ≤ pre.length := by
  cases s with
  | nil => exact ⟨[], by simp [firstField]⟩
  | cons c t =>
    by_cases hc : c = 34
    · obtain ⟨pre, h1, h2⟩ := quotedField_split t
      refine ⟨c :: pre, ?_, ?_⟩
      · simp only [firstField, hc, if_true, List.cons_append]; rw [← h1]
      · simp only [firstField, hc, if_true, List.length_cons]; omega
    · refine ⟨(c :: t).takeWhile (fun x => x != 44), ?_, ?_⟩
      · simp only [firstField, hc, if_false]
        rw [List.takeWhile_append_dropWhile]
      · simp only [firstField, hc, if_false]; exact Nat.le_refl _

theorem firstField_mem (s : List Nat) : ∀ c ∈ (firstField s).1, c ∈ s := by
  cases s with
  | nil => simp [firstField]
  | cons c t =>
    by_cases hc : c = 34
    · intro x hx
      simp only [firstField, hc, if_true] at hx
      exact List.mem_cons_of_mem _ (quotedField_mem t x hx)
    · intro x hx
      simp only [firstField, hc, if_false] at hx
      exact (List.takeWhile_sublist _).subset hx

theorem scanField_spec (s l : List Nat) (p : Nat) (hnz : ∀ c ∈ s, c ≠ 0) (hat : At l p s)
    (h0 : rd l (p + s.length) = 0) (hlen : p + s.length < l.length) :
    ∃ l1 p1, scanField l p = (l1, p1, p + (s.length - (firstField s).2.length)) ∧
      rd l1 (p + (s.length - (firstField s).2.length)) = (firstField s).2.headD 0 ∧
      p ≤ p1 ∧ p1 + (firstField s).1.length ≤ p + (s.length - (firstField s).2.length) ∧
      (wr l1 (p + (s.length - (firstField s).2.length)) 0).length = l.length ∧
      At (wr l1 (p + (s.length - (firstField s).2.length)) 0) p1 (firstField s).1 ∧
      rd (wr l1 (p + (s.length - (firstField s).2.length)) 0) (p1 + (firstField s).1.length) = 0 ∧
      (∀ x, x < p → rd (wr l1 (p + (s.length - (firstField s).2.length)) 0) x = rd l x) ∧
      (∀ x, p + (s.length - (firstField s).2.length) < x →
        rd (wr l1 (p + (s.length - (firstField s).2.length)) 0) x = rd l x) := by
  obtain ⟨pre, hpre, hfl⟩ := firstField_split s
  have hpl : s.length = pre.length + (firstField s).2.length := by
    have := congrArg List.length hpre
    simpa using this
  have hsep : s.length - (firstField s).2.length = pre.length := by omega
  rw [hsep]
  have hat' := hat
  rw [hpre, at_append] at hat'
  have hhead : rd l (p + pre.length) = (firstField s).2.headD 0 := by
    rcases firstField_rest s with hr | ⟨t, hr⟩
    · rw [hr]; simp only [List.headD_nil]
      rw [← h0]; congr 1; rw [hpl, hr]; simp
    · have := hat'.2
      rw [hr, at_cons] at this
      rw [hr]; exact this.1
  by_cases hq : rd l p = 34
  · -- a quoted field
    cases s with
    | nil => simp at h0; rw [h0] at hq; exact absurd hq (by decide)
    | cons c t =>
      rw [at_cons] at hat
      have hc : c = 34 := by rw [← hat.1]; exact hq
      subst hc
      simp only [List.length_cons] at h0 hlen hpl
      have hff : firstField (34 :: t) = quotedField t := by simp [firstField]
      rw [hff] at hfl hpl hhead ⊢
      obtain ⟨buf1, e1, e2, e3, e4, e5⟩ :=
        advquotedLoop_spec (l.length + 1) t l (p + 1) 0 0 (by omega) (Nat.le_refl _)
          (fun x hx => hnz x (by simp [hx])) (by simpa using hat.2)
          (by rw [← h0]; congr 1; omega) (by omega)
      have hfle := quotedField_field_le t
      have hj : t.length - (quotedField t).2.length + 1 = pre.length := by omega
      simp only [Nat.zero_add, Nat.add_zero] at e1 e3 e4 e5
      refine ⟨wr buf1 (p + 1 + (quotedField t).1.length) 0, p + 1, ?_, ?_, by omega, by omega,
        ?_, ?_, ?_, ?_, ?_⟩
      · unfold scanField advquoted
        rw [if_pos hq, e1]
        simp only [Prod.mk.injEq, true_and]
        omega
      · rw [← hhead]
        by_cases hij : p + 1 + (quotedField t).1.length = p + pre.length
        · rw [← hij, rd_wr_eq _ _ _ (by rw [e2]; omega)]
          rcases hfle.2 with hlt | hnil
          · omega
          · rw [hij, hhead, hnil]; rfl
        · rw [rd_wr_ne _ _ _ _ (fun e => hij e.symm), e5 _ (by omega)]
      · rw [length_wr, length_wr, e2]
      · refine at_congr buf1 _ _ _ (fun x hx1 hx2 => ?_) e3
        rw [rd_wr_ne _ _ _ _ (by omega), rd_wr_ne _ _ _ _ (by omega)]
      · by_cases hij : p + 1 + (quotedField t).1.length = p + pre.length
        · rw [hij, rd_wr_eq _ _ _ (by rw [length_wr, e2]; omega)]
        · rw [rd_wr_ne _ _ _ _ hij, rd_wr_eq _ _ _ (by rw [e2]; omega)]
      · intro x hx
        rw [rd_wr_ne _ _ _ _ (by omega), rd_wr_ne _ _ _ _ (by omega), e4 x (by omega)]
      · intro x hx
        rw [rd_wr_ne _ _ _ _ (by omega), rd_wr_ne _ _ _ _ (by omega), e5 x (by omega)]
  · -- an unquoted field
    have hff : firstField s =
        (s.takeWhile (fun x => x != 44), s.dropWhile (fun x => x != 44)) := by
      cases s with
      | nil => rfl
      | cons c t =>
        rw [at_cons] at hat
        have hc : ¬ c = 34 := by rw [← hat.1]; exact hq
        simp [firstField, hc]
    have hpre2 : pre = s.takeWhile (fun x => x != 44) := by
      have h1 := List.takeWhile_append_dropWhile (fun x => x != 44) s
      rw [hff] at hpre
      simp only at hpre
      have h2 : pre ++ s.dropWhile (fun x => x != 44) =
          s.takeWhile (fun x => x != 44) ++ s.dropWhile (fun x => x != 44) := by
        rw [← hpre, h1]
      exact List.append_cancel_right h2
    have hf1 : (firstField s).1 = pre := by rw [hff, hpre2]
    have hk : strcspn l p = pre.length := by
      refine strcspn_of_at l pre p hat'.1 ?_ ?_
      · intro x hx
        rw [hpre2] at hx
        exact ⟨hnz x ((List.takeWhile_sublist _).subset hx), takeWhile_no_comma _ x hx⟩
      · rw [hhead]
        rcases firstField_rest s with hr | ⟨t, hr⟩
        · left; rw [hr]; rfl
        · right; rw [hr]; rfl
    rw [hf1]
    refine ⟨l, p, ?_, hhead, Nat.le_refl _, Nat.le_refl _, length_wr _ _ _, ?_, ?_, ?_, ?_⟩
    · unfold scanField
      rw [if_neg hq, hk]
    · exact at_congr l _ _ _ (fun x hx1 hx2 => rd_wr_ne _ _ _ _ (by omega)) hat'.1
    · rw [rd_wr_eq _ _ _ (by omega)]
    · intro x hx; rw [rd_wr_ne _ _ _ _ (by omega)]
    · intro x hx; rw [rd_wr_ne _ _ _ _ (by omega)]

/-! ## What `split` computes -/

theorem growPtrs_spec (n max : Nat) (ap : List Nat) (hap : ap.length = max) (hmax : 1 ≤ max)
    (hn : n ≤ max) :
    ∃ max1 ap1 e, growPtrs noFail n max ap = some (max1, ap1) ∧ ap1.length = max1 ∧
      max1 = max * 2 ^ e ∧ n < max1 ∧ ∀ i, i < n → rd ap1 i = rd ap i := by
  by_cases h : n ≥ max
  · refine ⟨max * 2, realloc ap (max * 2), 1, ?_, ?_, by simp, by omega, ?_⟩
    · simp [growPtrs, h, noFail]
    · exact length_realloc _ _ (by omega)
    · intro i _; exact rd_realloc _ _ _ (by omega)
  · refine ⟨max, ap, 0, ?_, hap, by simp, by omega, fun _ _ => rfl⟩
    simp [growPtrs, h]

theorem splitLoop_spec : ∀ (fuel : Nat) (s l ap : List Nat) (n max p : Nat),
    s.length < fuel → (∀ c ∈ s, c ≠ 0) → At l p s → rd l (p + s.length) = 0 →
    p + s.length < l.length → ap.length = max → 1 ≤ max → n ≤ max →
    ∃ max1 l1 ap1 e,
      splitLoop noFail fuel n max l ap p =
        some (n + (fieldsFrom fuel s).length, max1, l1, ap1) ∧
      l1.length = l.length ∧ ap1.length = max1 ∧ max1 = max * 2 ^ e ∧
      n + (fieldsFrom fuel s).length ≤ max1 ∧
      (∀ x, x < p → rd l1 x = rd l x) ∧ (∀ i, i < n → rd ap1 i = rd ap i) ∧
      (∀ i, i < (fieldsFrom fuel s).length →
        cstr l1 (rd ap1 (n + i)) = (fieldsFrom fuel s).getD i [] ∧ p ≤ rd ap1 (n + i) ∧
        rd ap1 (n + i) + ((fieldsFrom fuel s).getD i []).length ≤ p + s.length) := by
  intro fuel
  induction fuel with
  | zero => intro s l ap n max p h; omega
  | succ fuel ih =>
    intro s l ap n max p hfuel hnz hat h0 hlen hap hmax hn
    obtain ⟨max1, ap1, e0, hg, hap1, hmax1, hn1, hfr1⟩ := growPtrs_spec n max ap hap hmax hn
    obtain ⟨l1, p1, hsc, hsepc, hp1, hp1f, hl2, hatf, hnul, hfrlo, hfrhi⟩ :=
      scanField_spec s l p hnz hat h0 hlen
    obtain ⟨pre, hpre, hfl⟩ := firstField_split s
    have hpl : s.length = pre.length + (firstField s).2.length := by
      have := congrArg List.length hpre
      simpa using this
    have hsep : s.length - (firstField s).2.length = pre.length := by omega
    rw [hsep] at hsc hsepc hp1f hl2 hatf hnul hfrlo hfrhi
    have hfnz : ∀ c ∈ (firstField s).1, c ≠ 0 := fun c hc => hnz c (firstField_mem s c hc)
    have hcstr : ∀ buf : List Nat,
        (∀ x, x < p + pre.length + 1 → rd buf x = rd (wr l1 (p + pre.length) 0) x) →
        cstr buf p1 = (firstField s).1 := by
      intro buf hbuf
      refine cstr_of_at buf _ p1 ?_ hfnz ?_
      · exact at_congr _ _ _ _ (fun x _ hx2 => hbuf x (by omega)) hatf
      · rw [hbuf _ (by omega)]; exact hnul
    rcases firstField_rest s with hr | ⟨t, hr⟩
    · -- the last field of the line
      have hff : fieldsFrom (fuel + 1) s = [(firstField s).1] := by
        simp [fieldsFrom, hr]
      have hsepc' : ¬ rd l1 (p + pre.length) = 44 := by rw [hsepc, hr]; decide
      refine ⟨max1, wr l1 (p + pre.length) 0, wr ap1 n p1, e0,
        ?_, hl2, ?_, hmax1, ?_, hfrlo, ?_, ?_⟩
      · rw [splitLoop, hg]
        simp only [hsc]
        rw [if_neg hsepc', hff]
        rfl
      · rw [length_wr, hap1]
      · rw [hff]; simp; omega
      · intro i hi; rw [rd_wr_ne _ _ _ _ (by omega)]; exact hfr1 i hi
      · intro i hi
        rw [hff] at hi ⊢
        simp only [List.length_singleton, Nat.lt_one_iff] at hi
        subst hi
        simp only [Nat.add_zero, List.getD_cons_zero]
        rw [rd_wr_eq _ _ _ (by omega)]
        exact ⟨hcstr _ (fun _ _ => rfl), hp1, by omega⟩
    · -- a field followed by a comma
      have hff : fieldsFrom (fuel + 1) s = (firstField s).1 :: fieldsFrom fuel t := by
        simp [fieldsFrom, hr]
      have hsepc' : rd l1 (p + pre.length) = 44 := by rw [hsepc, hr]; rfl
      have hat' := hat
      rw [hpre, at_append, hr, at_cons] at hat'
      rw [hr] at hpl
      simp only [List.length_cons] at hpl
      have hatt : At (wr l1 (p + pre.length) 0) (p + pre.length + 1) t :=
        at_congr l _ _ _ (fun x hx _ => hfrhi x (by omega)) hat'.2.2
      have h0t : rd (wr l1 (p + pre.length) 0) (p + pre.length + 1 + t.length) = 0 := by
        rw [hfrhi _ (by omega), ← h0]; congr 1; omega
      obtain ⟨max2, l2, ap2, e, hrec, hl2', hap2, hmax2, hcnt, hfrl, hfra, hflds⟩ :=
        ih t (wr l1 (p + pre.length) 0) (wr ap1 n p1) (n + 1) max1 (p + pre.length + 1)
          (by omega) (fun c hc => hnz c (by rw [hpre, hr]; simp [hc])) hatt h0t
          (by rw [hl2]; omega) (by rw [length_wr, hap1]) (by omega) (by omega)
      refine ⟨max2, l2, ap2, e0 + e, ?_, by rw [hl2', hl2], hap2, ?_, ?_, ?_, ?_, ?_⟩
      · rw [splitLoop, hg]
        simp only [hsc]
        rw [if_pos hsepc', hrec, hff]
        simp only [List.length_cons]
        congr 2; omega
      · rw [hmax2, hmax1, pow_add, Nat.mul_assoc]
      · rw [hff]; simp only [List.length_cons]; omega
      · intro x hx; rw [hfrl x (by omega), hfrlo x hx]
      · intro i hi
        rw [hfra i (by omega), rd_wr_ne _ _ _ _ (by omega)]; exact hfr1 i hi
      · intro i hi
        rw [hff] at hi ⊢
        simp only [List.length_cons] at hi
        cases i with
        | zero =>
          simp only [Nat.add_zero, List.getD_cons_zero]
          rw [hfra n (by omega), rd_wr_eq _ _ _ (by omega)]
          exact ⟨hcstr l2 (fun x hx => hfrl x hx), hp1, by omega⟩
        | succ i =>
          simp only [List.getD_cons_succ]
          have := hflds i (by omega)
          have e1 : n + (i + 1) = n + 1 + i := by omega
          rw [e1]
          exact ⟨this.1, by omega, by omega⟩

theorem fieldsFrom_fuel : ∀ (f1 f2 : Nat) (s : List Nat), s.length < f1 → s.length < f2 →
    fieldsFrom f1 s = fieldsFrom f2 s := by
  intro f1
  induction f1 with
  | zero => intro f2 s h; omega
  | succ f1 ih =>
    intro f2 s h1 h2
    cases f2 with
    | zero => omega
    | succ f2 =>
      obtain ⟨pre, hpre, _⟩ := firstField_split s
      have hpl := congrArg List.length hpre
      rcases firstField_rest s with hr | ⟨t, hr⟩
      · simp [fieldsFrom, hr]
      · rw [hr] at hpl
        simp only [List.length_append, List.length_cons] at hpl
        simp only [fieldsFrom, hr, if_true]
        rw [ih f2 t (by omega) (by omega)]

theorem ptrStrs_eq (buf ap : List Nat) (fs : List (List Nat))
    (h : ∀ i, i < fs.length → cstr buf (rd ap i) = fs.getD i []) :
    ptrStrs buf ap fs.length = fs := by
  apply List.ext_getElem
  · simp [ptrStrs]
  · intro i h1 h2
    simp only [ptrStrs, List.getElem_map, List.getElem_range]
    rw [h i h2, List.getD_eq_getElem _ _ h2]

theorem at_self (s t : List Nat) : At (s ++ t) 0 s := by
  intro i hi
  unfold rd
  rw [Nat.zero_add, List.getD_eq_getElem?_getD, List.getD_eq_getElem?_getD,
    List.getElem?_append_left hi]

theorem rd_append_zero (s t : List Nat) : rd (s ++ 0 :: t) s.length = 0 := by
  unfold rd
  rw [List.getD_eq_getElem?_getD, List.getElem?_append_right (Nat.le_refl _)]
  simp

theorem split_spec (s line l ap : List Nat) (max : Nat) (hnz : ∀ c ∈ s, c ≠ 0)
    (hat : At line 0 s) (h0 : rd line s.length = 0) (hlen : s.length < l.length)
    (hap : ap.length = max) (hmax : 1 ≤ max) :
    ∃ max1 l1 ap1 e,
      split noFail line max l ap = some ((fieldsOf s).length, max1, l1, ap1) ∧
      l1.length = l.length ∧ ap1.length = max1 ∧ max1 = max * 2 ^ e ∧
      (fieldsOf s).length ≤ max1 ∧
      (∀ i, i < (fieldsOf s).length →
        cstr l1 (rd ap1 i) = (fieldsOf s).getD i [] ∧
        rd ap1 i + ((fieldsOf s).getD i []).length ≤ s.length) := by
  cases s with
  | nil =>
    refine ⟨max, l, ap, 0, ?_, rfl, hap, by simp, by simp [fieldsOf], ?_⟩
    · simp at h0
      simp [split, h0, fieldsOf]
    · intro i hi; simp [fieldsOf] at hi
  | cons c t =>
    have hc : rd line 0 = c := ((at_cons _ _ _ _).1 hat).1
    have hc0 : ¬ rd line 0 = 0 := by rw [hc]; exact hnz c (by simp)
    have hcs : cstr line 0 = c :: t := cstr_of_at line _ 0 hat hnz (by simpa using h0)
    have hb : 0 + (c :: t ++ [0]).length ≤ l.length := by simp at hlen ⊢; omega
    have hat1 : At (strcpy l line) 0 (c :: t) := by
      intro i hi
      unfold strcpy
      rw [hcs, rd_writeAt _ _ _ _ hb, if_pos (by simp at hi ⊢; omega)]
      simp only [Nat.zero_add, Nat.sub_zero, List.getD_eq_getElem?_getD]
      rw [List.getElem?_append_left hi]
    have h01 : rd (strcpy l line) (0 + (c :: t).length) = 0 := by
      unfold strcpy
      rw [hcs, rd_writeAt _ _ _ _ hb, if_pos (by simp)]
      simp only [Nat.zero_add, Nat.sub_zero, List.getD_eq_getElem?_getD]
      rw [List.getElem?_append_right (Nat.le_refl _)]
      simp
    have hl1 : (strcpy l line).length = l.length := by unfold strcpy; rw [length_writeAt]
    obtain ⟨max1, l1, ap1, e, h1, h2, h3, h4, h5, _, _, h8⟩ :=
      splitLoop_spec ((strcpy l line).length + 1) (c :: t) (strcpy l line) ap 0 max 0
        (by rw [hl1]; omega) hnz hat1 h01 (by rw [hl1]; simpa using hlen) hap hmax (Nat.zero_le _)
    have hfu : fieldsFrom ((strcpy l line).length + 1) (c :: t) = fieldsOf (c :: t) := by
      unfold fieldsOf
      rw [if_neg (by simp)]
      exact fieldsFrom_fuel _ _ _ (by rw [hl1]; omega) (by omega)
    rw [hfu] at h1 h5 h8
    simp only [Nat.zero_add] at h1 h5 h8
    refine ⟨max1, l1, ap1, e, ?_, by rw [h2, hl1], h3, h4, h5, ?_⟩
    · unfold split
      rw [if_neg hc0]
      exact h1
    · intro i hi
      exact ⟨(h8 i hi).1, (h8 i hi).2.2⟩

/-- With allocations that succeed, the strings `split` leaves for a line without NUL are
the fields of the list-level description. -/
theorem splitLine_eq (ln : List Nat) (hnz : ∀ c ∈ ln, c ≠ 0) :
    splitLine noFail ln = some (fieldsOf ln) := by
  obtain ⟨max1, l1, ap1, e, h1, _, _, _, _, h6⟩ :=
    split_spec ln (ln ++ [0]) (malloc (ln.length + 1)) (malloc 1) 1 hnz (at_self _ _)
      (rd_append_zero ln []) (by simp [malloc]) (by simp [malloc]) (Nat.le_refl _)
  unfold splitLine
  rw [h1]
  simp only
  rw [ptrStrs_eq l1 ap1 (fieldsOf ln) (fun i hi => (h6 i hi).1)]

/-! ## Properties of the fields of a line -/

theorem joinComma_eq_intercalate (fs : List (List Nat)) :
    joinComma fs = List.intercalate [44] fs := by
  induction fs with
  | nil => rfl
  | cons f fs ih =>
    cases fs with
    | nil => simp [joinComma, List.intercalate]
    | cons g fs =>
      rw [joinComma, ih]
      simp [List.intercalate]

theorem fieldsFrom_last (fuel : Nat) (s : List Nat) (h : (firstField s).2 = []) :
    fieldsFrom (fuel + 1) s = [(firstField s).1] := by
  simp [fieldsFrom, h]

theorem fieldsFrom_more (fuel : Nat) (s t : List Nat) (h : (firstField s).2 = 44 :: t) :
    fieldsFrom (fuel + 1) s = (firstField s).1 :: fieldsFrom fuel t := by
  simp [fieldsFrom, h]

theorem fieldsFrom_ne_nil (fuel : Nat) (s : List Nat) : fieldsFrom (fuel + 1) s ≠ [] := by
  rcases firstField_rest s with hr | ⟨t, hr⟩ <;> simp [fieldsFrom, hr]

theorem firstField_noquote (s : List Nat) (h : ∀ c ∈ s, c ≠ 34) :
    firstField s = (s.takeWhile (fun x => x != 44), s.dropWhile (fun x => x != 44)) := by
  cases s with
  | nil => rfl
  | cons c t =>
    have hc : ¬ c = 34 := h c (by simp)
    simp [firstField, hc]

theorem fieldsFrom_join : ∀ (fuel : Nat) (s : List Nat), s.length < fuel →
    (∀ c ∈ s, c ≠ 34) → joinComma (fieldsFrom fuel s) = s := by
  intro fuel
  induction fuel with
  | zero => intro s h; omega
  | succ fuel ih =>
    intro s hfuel hq
    have hff := firstField_noquote s hq
    have hsplit := List.takeWhile_append_dropWhile (fun x => x != 44) s
    have hlen := congrArg List.length hsplit
    rcases dropWhile_comma s with hr | ⟨t, hr⟩
    · rw [hr, List.append_nil] at hsplit
      simp [fieldsFrom, hff, hr, hsplit, joinComma]
    · rw [hr] at hsplit hlen
      simp only [List.length_append, List.length_cons] at hlen
      have htq : ∀ c ∈ t, c ≠ 34 := fun c hc => hq c (by rw [← hsplit]; simp [hc])
      have hrec := ih t (by omega) htq
      cases fuel with
      | zero => omega
      | succ fuel =>
        have hne := fieldsFrom_ne_nil fuel t
        rw [fieldsFrom_more _ s t (by rw [hff, hr]), hff]
        revert hrec hne
        generalize fieldsFrom (fuel + 1) t = fs
        intro hrec hne
        cases fs with
        | nil => exact absurd rfl hne
        | cons g fs =>
          show _ ++ 44 :: joinComma (g :: fs) = s
          rw [hrec]
          exact hsplit

theorem fieldsFrom_count : ∀ (fuel : Nat) (s : List Nat), s.length < fuel →
    (∀ c ∈ s, c ≠ 34) → (fieldsFrom fuel s).length = s.count 44 + 1 := by
  intro fuel
  induction fuel with
  | zero => intro s h; omega
  | succ fuel ih =>
    intro s hfuel hq
    have hff := firstField_noquote s hq
    have hsplit := List.takeWhile_append_dropWhile (fun x => x != 44) s
    have hlen := congrArg List.length hsplit
    have hc0 : (s.takeWhile (fun x => x != 44)).count 44 = 0 :=
      List.count_eq_zero.2 (fun hm => takeWhile_no_comma s 44 hm rfl)
    rcases dropWhile_comma s with hr | ⟨t, hr⟩
    · rw [hr, List.append_nil] at hsplit
      rw [hsplit] at hc0
      simp [fieldsFrom, hff, hr, hc0]
    · rw [hr] at hsplit hlen
      simp only [List.length_append, List.length_cons] at hlen
      have htq : ∀ c ∈ t, c ≠ 34 := fun c hc => hq c (by rw [← hsplit]; simp [hc])
      have hrec := ih t (by omega) htq
      simp only [fieldsFrom, hff, hr, if_true, List.length_cons, hrec]
      rw [← hsplit, List.count_append, hc0, List.count_cons_self]
      omega

theorem quotedField_quote (rest : List Nat) (hrest : rest = [] ∨ ∃ t, rest = 44 :: t) :
    ∀ v : List Nat,
    quotedField (v.flatMap (fun c => if c = 34 then [34, 34] else [c]) ++ 34 :: rest) =
      (v, rest) := by
  intro v
  induction v with
  | nil =>
    rcases hrest with h | ⟨t, h⟩
    · subst h; exact quotedField_close_nil
    · subst h
      simp only [List.flatMap_nil, List.nil_append]
      rw [quotedField_close 44 t (by decide)]
      simp
  | cons c v ih =>
    by_cases hc : c = 34
    · subst hc
      simp only [List.flatMap_cons, if_true, List.cons_append, List.nil_append]
      rw [quotedField_escaped, ih]
    · simp only [List.flatMap_cons, if_neg hc, List.cons_append, List.nil_append]
      rw [quotedField_plain c _ hc, ih]

theorem firstField_quote (v rest : List Nat) (hrest : rest = [] ∨ ∃ t, rest = 44 :: t) :
    firstField (quote v ++ rest) = (v, rest) := by
  unfold quote
  simp only [List.cons_append, List.append_assoc, firstField, if_true]
  exact quotedField_quote rest hrest v

theorem fieldsFrom_quotedLine : ∀ (vs : List (List Nat)) (fuel : Nat), vs ≠ [] →
    (quotedLine vs).length < fuel → fieldsFrom fuel (quotedLine vs) = vs := by
  intro vs
  induction vs with
  | nil => intro fuel h; exact absurd rfl h
  | cons v vs ih =>
    intro fuel _ hfuel
    cases fuel with
    | zero => omega
    | succ fuel =>
      cases vs with
      | nil =>
        have h := firstField_quote v [] (Or.inl rfl)
        rw [List.append_nil] at h
        simp [quotedLine, joinComma, fieldsFrom, h]
      | cons w vs =>
        have hl : quotedLine (v :: w :: vs) = quote v ++ 44 :: quotedLine (w :: vs) := by
          simp [quotedLine, joinComma]
        rw [hl] at hfuel ⊢
        have h := firstField_quote v (44 :: quotedLine (w :: vs)) (Or.inr ⟨_, rfl⟩)
        simp only [List.length_append, List.length_cons] at hfuel
        simp only [fieldsFrom, h, if_true]
        rw [ih fuel (by simp) (by omega)]

theorem quotedLine_ne_nil (vs : List (List Nat)) (h : vs ≠ []) : quotedLine vs ≠ [] := by
  cases vs with
  | nil => exact absurd rfl h
  | cons v vs =>
    cases vs with
    | nil => simp [quotedLine, joinComma, quote]
    | cons w vs => simp [quotedLine, joinComma, quote]

theorem quote_nz (v : List Nat) (h : ∀ c ∈ v, c ≠ 0) : ∀ c ∈ quote v, c ≠ 0 := by
  intro c hc
  simp only [quote, List.mem_cons, List.mem_append, List.mem_flatMap, List.mem_singleton] at hc
  rcases hc with hc | ⟨d, hd, hc⟩ | hc
  · omega
  · by_cases hd34 : d = 34
    · simp [hd34] at hc; omega
    · simp [hd34] at hc; rw [hc]; exact h d hd
  · rcases hc with hc | hc
    · omega
    · simp at hc

theorem quotedLine_nz : ∀ (vs : List (List Nat)), (∀ v ∈ vs, ∀ c ∈ v, c ≠ 0) →
    ∀ c ∈ quotedLine vs, c ≠ 0 := by
  intro vs
  induction vs with
  | nil => intro _ c hc; simp [quotedLine, joinComma] at hc
  | cons v vs ih =>
    intro h c hc
    cases vs with
    | nil =>
      simp only [quotedLine, List.map_cons, List.map_nil, joinComma] at hc
      exact quote_nz v (h v (by simp)) c hc
    | cons w vs =>
      have hl : quotedLine (v :: w :: vs) = quote v ++ 44 :: quotedLine (w :: vs) := by
        simp [quotedLine, joinComma]
      rw [hl, List.mem_append, List.mem_cons] at hc
      rcases hc with hc | hc | hc
      · exact quote_nz v (h v (by simp)) c hc
      · omega
      · exact ih (fun u hu => h u (by simp [hu])) c hc

/-! ## What the read loop of `csvgetline` computes -/

theorem endofline_byte (fin : List Nat) (c : Nat) (h : isEol c = false) :
    endofline fin c = (false, fin) := by
  have h13 : c ≠ 13 := by intro e; subst e; simp [isEol] at h
  have h10 : c ≠ 10 := by intro e; subst e; simp [isEol] at h
  simp [endofline, h13, h10]

theorem endofline_eol (rest : List Nat) (c : Nat) (h : isEol c = true) :
    endofline rest c = (true, afterLine (c :: rest)) := by
  by_cases h13 : c = 13
  · subst h13
    cases rest with
    | nil => simp [endofline, getc, afterLine]
    | cons d r =>
      by_cases hd : d = 10
      · simp [endofline, getc, afterLine, hd]
      · simp [endofline, getc, afterLine, hd]
  · have h10 : c = 10 := by
      simp only [isEol, Bool.or_eq_true, beq_iff_eq] at h
      rcases h with h | h
      · exact absurd h h13
      · exact h
    subst h10
    simp [endofline, afterLine]

theorem lineOf_byte (c : Nat) (rest : List Nat) (h : isEol c = false) :
    lineOf (c :: rest) = c :: lineOf rest := by
  simp [lineOf, List.takeWhile_cons, h]

theorem lineOf_eol (c : Nat) (rest : List Nat) (h : isEol c = true) :
    lineOf (c :: rest) = [] := by
  simp [lineOf, List.takeWhile_cons, h]

theorem termOf_byte (c : Nat) (rest : List Nat) (h : isEol c = false) :
    termOf (c :: rest) = termOf rest := by
  simp [termOf, List.find?_cons, h]

theorem termOf_eol (c : Nat) (rest : List Nat) (h : isEol c = true) :
    termOf (c :: rest) = some c := by
  simp [termOf, List.find?_cons, h]

theorem afterLine_byte (c : Nat) (rest : List Nat) (h : isEol c = false) :
    afterLine (c :: rest) = afterLine rest := by
  have h13 : c ≠ 13 := by intro e; subst e; simp [isEol] at h
  have h10 : c ≠ 10 := by intro e; subst e; simp [isEol] at h
  simp [afterLine, h13, h10]

theorem readLoop_eof (alloc : Nat → Bool) (fuel : Nat) (s : State) (i : Nat) :
    readLoop alloc (fuel + 1) s [] i = .done s [] i none := by
  simp [readLoop, getc]

theorem readLoop_eol (alloc : Nat → Bool) (fuel : Nat) (s : State) (i c : Nat)
    (rest : List Nat) (h : isEol c = true) :
    readLoop alloc (fuel + 1) s (c :: rest) i = .done s (afterLine (c :: rest)) i (some c) := by
  simp [readLoop, getc, endofline_eol rest c h]

theorem readLoop_byte (alloc : Nat → Bool) (fuel : Nat) (s : State) (i c : Nat)
    (rest : List Nat) (h : isEol c = false) :
    readLoop alloc (fuel + 1) s (c :: rest) i =
      if i ≥ s.maxline - 1 then
        match growLine alloc s with
        | none => .nomem rest
        | some s1 =>
          readLoop alloc fuel { s1 with line := s1.line.map (fun b => wr b i c) } rest (i + 1)
      else
        readLoop alloc fuel { s with line := s.line.map (fun b => wr b i c) } rest (i + 1) := by
  simp [readLoop, getc, endofline_byte rest c h]

theorem growLine_noFail (ln sl kl : List Nat) (m : Nat) (fd ky : Option (List Nat))
    (mf mk nf nk nr : Nat) :
    growLine noFail (State.mk (some ln) (some sl) (some kl) m fd ky mf mk nf nk nr) =
      some (State.mk (some (realloc ln (m * 2))) (some (realloc sl (m * 2)))
        (some (if nr = 0 then realloc kl (m * 2) else kl)) (m * 2) fd ky mf mk nf nk nr) := by
  by_cases h : nr = 0
  · simp [growLine, noFail, h]
  · simp [growLine, noFail, h]

theorem readLoop_spec : ∀ (fuel : Nat) (fin : List Nat) (i : Nat) (ln sl kl : List Nat)
    (m : Nat) (fd ky : Option (List Nat)) (mf mk nf nk nr : Nat),
    fin.length < fuel → ln.length = m → sl.length = m → (nr = 0 → kl.length = m) → i < m →
    ∃ ln1 sl1 kl1 e,
      readLoop noFail fuel (State.mk (some ln) (some sl) (some kl) m fd ky mf mk nf nk nr) fin i =
        .done (State.mk (some ln1) (some sl1) (some kl1) (m * 2 ^ e) fd ky mf mk nf nk nr)
          (afterLine fin) (i + (lineOf fin).length) (termOf fin) ∧
      ln1.length = m * 2 ^ e ∧ sl1.length = m * 2 ^ e ∧ (nr = 0 → kl1.length = m * 2 ^ e) ∧
      (nr ≠ 0 → kl1 = kl) ∧ i + (lineOf fin).length < m * 2 ^ e ∧
      At ln1 i (lineOf fin) ∧ (∀ x, x < i → rd ln1 x = rd ln x) ∧
      (∀ x, rd sl1 x = rd sl x) ∧ (∀ x, rd kl1 x = rd kl x) := by
  intro fuel
  induction fuel with
  | zero => intro fin i ln sl kl m fd ky mf mk nf nk nr h; omega
  | succ fuel ih =>
    intro fin i ln sl kl m fd ky mf mk nf nk nr hfuel hln hsl hkl hi
    cases fin with
    | nil =>
      refine ⟨ln, sl, kl, 0, ?_, by simpa using hln, by simpa using hsl, by simpa using hkl,
        fun _ => rfl, by simpa [lineOf] using hi, at_nil _ _, fun _ _ => rfl, fun _ => rfl,
        fun _ => rfl⟩
      rw [readLoop_eof]
      simp [afterLine, lineOf, termOf]
    | cons c rest =>
      simp only [List.length_cons] at hfuel
      by_cases hc : isEol c = true
      · refine ⟨ln, sl, kl, 0, ?_, by simpa using hln, by simpa using hsl, by simpa using hkl,
          fun _ => rfl, by simpa [lineOf_eol c rest hc] using hi, ?_, fun _ _ => rfl,
          fun _ => rfl, fun _ => rfl⟩
        · rw [readLoop_eol _ _ _ _ _ _ hc, lineOf_eol c rest hc, termOf_eol c rest hc]
          simp
        · rw [lineOf_eol c rest hc]; exact at_nil _ _
      · have hc' : isEol c = false := by simpa using hc
        rw [readLoop_byte _ _ _ _ _ _ hc', lineOf_byte c rest hc', termOf_byte c rest hc',
          afterLine_byte c rest hc']
        simp only [List.length_cons]
        by_cases hgrow : i ≥ m - 1
        · -- the line buffers grow
          simp only [hgrow, if_true, growLine_noFail, Option.map_some']
          have hkl2 : nr = 0 → (if nr = 0 then realloc kl (m * 2) else kl).length = m * 2 := by
            intro h0
            rw [if_pos h0]
            exact length_realloc _ _ (by rw [hkl h0]; omega)
          obtain ⟨ln1, sl1, kl1, e, h1, h2, h3, h4, h5, h6, h7, h8, h9, h10⟩ :=
            ih rest (i + 1) (wr (realloc ln (m * 2)) i c) (realloc sl (m * 2))
              (if nr = 0 then realloc kl (m * 2) else kl) (m * 2) fd ky mf mk nf nk nr
              (by omega) (by rw [length_wr]; exact length_realloc _ _ (by omega))
              (length_realloc _ _ (by omega)) hkl2 (by omega)
          have hpow : m * 2 * 2 ^ e = m * 2 ^ (e + 1) := by rw [pow_succ]; ring
          rw [hpow] at h1 h2 h3 h4 h6
          refine ⟨ln1, sl1, kl1, e + 1, ?_, h2, h3, h4, ?_, by omega, ?_, ?_, ?_, ?_⟩
          · rw [h1]; congr 1; omega
          · intro hnr; rw [h5 hnr, if_neg hnr]
          · rw [at_cons]
            refine ⟨?_, h7⟩
            rw [h8 i (by omega), rd_wr_eq _ _ _ (by rw [length_realloc _ _ (by omega)]; omega)]
          · intro x hx
            rw [h8 x (by omega), rd_wr_ne _ _ _ _ (by omega), rd_realloc _ _ _ (by omega)]
          · intro x; rw [h9 x, rd_realloc _ _ _ (by omega)]
          · intro x
            rw [h10 x]
            by_cases hnr : nr = 0
            · rw [if_pos hnr, rd_realloc _ _ _ (by rw [hkl hnr]; omega)]
            · rw [if_neg hnr]
        · simp only [hgrow, if_false, Option.map_some']
          obtain ⟨ln1, sl1, kl1, e, h1, h2, h3, h4, h5, h6, h7, h8, h9, h10⟩ :=
            ih rest (i + 1) (wr ln i c) sl kl m fd ky mf mk nf nk nr
              (by omega) (by rw [length_wr]; exact hln) hsl hkl (by omega)
          refine ⟨ln1, sl1, kl1, e, ?_, h2, h3, h4, h5, by omega, ?_, ?_, h9, h10⟩
          · rw [h1]; congr 1; omega
          · rw [at_cons]
            refine ⟨?_, h7⟩
            rw [h8 i (by omega), rd_wr_eq _ _ _ (by omega)]
          · intro x hx
            rw [h8 x (by omega), rd_wr_ne _ _ _ _ (by omega)]

/-! ## `csvgetline` when no allocation fails -/

theorem growLine_noFail_some (s : State) : ∃ s1, growLine noFail s = some s1 := by
  by_cases h : s.nrow = 0
  · simp [growLine, noFail, h]
  · simp [growLine, noFail, h]

theorem readLoop_noFail_done : ∀ (fuel : Nat) (s : State) (fin : List Nat) (i : Nat),
    fin.length < fuel →
    ∃ s1, readLoop noFail fuel s fin i =
      .done s1 (afterLine fin) (i + (lineOf fin).length) (termOf fin) := by
  intro fuel
  induction fuel with
  | zero => intro s fin i h; omega
  | succ fuel ih =>
    intro s fin i hfuel
    cases fin with
    | nil => exact ⟨s, by rw [readLoop_eof]; simp [afterLine, lineOf, termOf]⟩
    | cons c rest =>
      simp only [List.length_cons] at hfuel
      by_cases hc : isEol c = true
      · refine ⟨s, ?_⟩
        rw [readLoop_eol _ _ _ _ _ _ hc, lineOf_eol c rest hc, termOf_eol c rest hc]
        simp
      · have hc' : isEol c = false := by simpa using hc
        rw [readLoop_byte _ _ _ _ _ _ hc', lineOf_byte c rest hc', termOf_byte c rest hc',
          afterLine_byte c rest hc']
        simp only [List.length_cons]
        have e1 : i + ((lineOf rest).length + 1) = i + 1 + (lineOf rest).length := by omega
        rw [e1]
        by_cases hgrow : i ≥ s.maxline - 1
        · obtain ⟨s1, hs1⟩ := growLine_noFail_some s
          simp only [hgrow, if_true, hs1]
          exact ih _ rest (i + 1) (by omega)
        · simp only [hgrow, if_false]
          exact ih _ rest (i + 1) (by omega)

theorem splitLoop_noFail_some : ∀ (fuel n max : Nat) (l ap : List Nat) (p : Nat),
    ∃ r, splitLoop noFail fuel n max l ap p = some r := by
  intro fuel
  induction fuel with
  | zero => intro n max l ap p; exact ⟨_, rfl⟩
  | succ fuel ih =>
    intro n max l ap p
    have hg : ∃ g, growPtrs noFail n max ap = some g := by
      by_cases h : n ≥ max
      · exact ⟨(max * 2, realloc ap (max * 2)), by simp [growPtrs, h, noFail]⟩
      · exact ⟨(max, ap), by simp [growPtrs, h]⟩
    obtain ⟨⟨max1, ap1⟩, hg⟩ := hg
    rw [splitLoop, hg]
    simp only
    by_cases h : rd (scanField l p).1 (scanField l p).2.2 = 44
    · rw [if_pos h]; exact ih _ _ _ _ _
    · rw [if_neg h]; exact ⟨_, rfl⟩

theorem split_noFail_some (line : List Nat) (max : Nat) (l ap : List Nat) :
    ∃ r, split noFail line max l ap = some r := by
  unfold split
  by_cases h : rd line 0 = 0
  · rw [if_pos h]; exact ⟨_, rfl⟩
  · rw [if_neg h]; exact splitLoop_noFail_some _ _ _ _ _ _

theorem firstAlloc_noFail_init :
    firstAlloc noFail State.init =
      some (State.mk (some [0]) (some [0]) (some [0]) 1 (some [0]) (some [0]) 1 1 0 0 0) := by
  rfl

theorem firstAlloc_noFail_some (s : State) : ∃ s0, firstAlloc noFail s = some s0 := by
  unfold firstAlloc
  by_cases h : s.line = none
  · rw [if_pos h]; simp [noFail]
  · rw [if_neg h]; exact ⟨s, rfl⟩

theorem firstAlloc_alloc (alloc : Nat → Bool) (ln : List Nat) (sl kl : Option (List Nat)) (m : Nat)
    (fd ky : Option (List Nat)) (mf mk nf nk nr : Nat) :
    firstAlloc alloc (State.mk (some ln) sl kl m fd ky mf mk nf nk nr) =
      some (State.mk (some ln) sl kl m fd ky mf mk nf nk nr) := by
  simp [firstAlloc]

theorem eof_iff (fin : List Nat) :
    (termOf fin = none ∧ (lineOf fin).length = 0) ↔ fin = [] := by
  constructor
  · rintro ⟨h1, h2⟩
    cases fin with
    | nil => rfl
    | cons c rest =>
      by_cases hc : isEol c = true
      · rw [termOf_eol c rest hc] at h1; exact absurd h1 (by simp)
      · have hc' : isEol c = false := by simpa using hc
        rw [lineOf_byte c rest hc'] at h2
        simp at h2
  · intro h; subst h; simp [termOf, lineOf]

theorem csvgetline_null_iff (s : State) (fin : List Nat) :
    (csvgetline noFail s fin).1 = none ↔ fin = [] := by
  obtain ⟨s0, h0⟩ := firstAlloc_noFail_some s
  obtain ⟨s1, h1⟩ := readLoop_noFail_done (fin.length + 1) s0 fin 0 (Nat.lt_succ_self _)
  unfold csvgetline
  rw [h0]
  simp only [h1, Nat.zero_add]
  by_cases hrow : s1.nrow = 0
  · obtain ⟨⟨n, max, l, ap⟩, hsp⟩ := split_noFail_some
      ((Option.map (fun b => wr b (lineOf fin).length 0) s1.line).getD []) s1.maxkey
      (s1.kline.getD []) (s1.key.getD [])
    simp only [hrow, if_true, hsp]
    rw [← eof_iff fin]
    by_cases he : termOf fin = none ∧ (lineOf fin).length = 0
    · simp [he]
    · simp [he]
  · obtain ⟨⟨n, max, l, ap⟩, hsp⟩ := split_noFail_some
      ((Option.map (fun b => wr b (lineOf fin).length 0) s1.line).getD []) s1.maxfield
      (s1.sline.getD []) (s1.field.getD [])
    simp only [hrow, if_false, hsp]
    rw [← eof_iff fin]
    by_cases he : termOf fin = none ∧ (lineOf fin).length = 0
    · simp [he]
    · simp [he]

theorem takeWhile_nz (L : List Nat) : ∀ c ∈ L.takeWhile (fun c => c != 0), c ≠ 0 := by
  intro c hc
  have := List.mem_takeWhile_imp hc
  simpa using this

theorem cline_nz (fin : List Nat) : ∀ c ∈ cline fin, c ≠ 0 := takeWhile_nz _

theorem cline_eq (fin : List Nat) (h : ∀ c ∈ lineOf fin, c ≠ 0) : cline fin = lineOf fin := by
  unfold cline
  rw [List.takeWhile_eq_self_iff]
  intro c hc
  simpa using h c hc

theorem cstr_line (ln L : List Nat) (hat : At ln 0 L) (h0 : rd ln L.length = 0) :
    At ln 0 (L.takeWhile (fun c => c != 0)) ∧ rd ln (L.takeWhile (fun c => c != 0)).length = 0 ∧
    (L.takeWhile (fun c => c != 0)).length ≤ L.length := by
  have hsplit := List.takeWhile_append_dropWhile (fun c => c != 0) L
  have hlen := congrArg List.length hsplit
  simp only [List.length_append] at hlen
  rw [← hsplit, at_append] at hat
  refine ⟨hat.1, ?_, by omega⟩
  cases hd : L.dropWhile (fun c => c != 0) with
  | nil =>
    rw [hd] at hlen
    simp only [List.length_nil, Nat.add_zero] at hlen
    rw [hlen]; exact h0
  | cons d t =>
    have hne : L.dropWhile (fun c => c != 0) ≠ [] := by rw [hd]; simp
    have hhead := List.head_dropWhile_not (fun c => c != 0) L hne
    have hd0 : d = 0 := by
      simp only [hd, List.head_cons] at hhead
      simpa using hhead
    have := hat.2
    rw [hd, at_cons, Nat.zero_add] at this
    rw [this.1, hd0]

theorem ret_eq (fin : List Nat) (l : List Nat) :
    (if termOf fin = none ∧ (lineOf fin).length = 0 then none else some l) =
      (if fin = [] then (none : Option (List Nat)) else some l) := by
  by_cases h : fin = []
  · rw [if_pos h, if_pos ((eof_iff fin).2 h)]
  · rw [if_neg h, if_neg (fun hc => h ((eof_iff fin).1 hc))]

/-- The first row: `csvgetline` on an allocated state with `nrow = 0`, when no allocation
fails. -/
theorem csvgetline_header_spec (fin ln sl kl fd ky : List Nat) (m mf mk nf nk : Nat)
    (hln : ln.length = m) (hsl : sl.length = m)
    (hkl : kl.length = m) (hky : ky.length = mk) (hm : 1 ≤ m) (hmk : 1 ≤ mk) :
    ∃ ln1 sl1 kl1 ky1 e e1,
      csvgetline noFail (State.mk (some ln) (some sl) (some kl) m (some fd) (some ky)
          mf mk nf nk 0) fin =
        (if fin = [] then none else some (cline fin),
         State.mk (some ln1) (some sl1) (some kl1) (m * 2 ^ e) (some fd) (some ky1)
          mf (mk * 2 ^ e1) nf (fieldsOf (cline fin)).length 1,
         afterLine fin) ∧
      ln1.length = m * 2 ^ e ∧ sl1.length = m * 2 ^ e ∧ kl1.length = m * 2 ^ e ∧
      ky1.length = mk * 2 ^ e1 ∧ (lineOf fin).length < m * 2 ^ e ∧
      (fieldsOf (cline fin)).length ≤ mk * 2 ^ e1 ∧
      cstr ln1 0 = cline fin ∧
      ptrStrs kl1 ky1 (fieldsOf (cline fin)).length = fieldsOf (cline fin) ∧
      (∀ x, rd sl1 x = rd sl x) ∧
      (∀ i, i < (fieldsOf (cline fin)).length →
        rd ky1 i + ((fieldsOf (cline fin)).getD i []).length ≤ (cline fin).length) := by
  obtain ⟨ln1, sl1, kl1, e, h1, h2, h3, h4, _, h6, h7, _, h9, _⟩ :=
    readLoop_spec (fin.length + 1) fin 0 ln sl kl m (some fd) (some ky) mf mk nf nk 0
      (Nat.lt_succ_self _) hln hsl (fun _ => hkl) (by omega)
  simp only [Nat.zero_add] at h1 h6
  have hatL : At (wr ln1 (lineOf fin).length 0) 0 (lineOf fin) :=
    at_congr ln1 _ _ _ (fun x _ hx => rd_wr_ne _ _ _ _ (by omega)) h7
  have h0L : rd (wr ln1 (lineOf fin).length 0) (lineOf fin).length = 0 :=
    rd_wr_eq _ _ _ (by omega)
  obtain ⟨hat, h0, hle⟩ := cstr_line _ _ hatL h0L
  have hnz := cline_nz fin
  change At _ 0 (cline fin) at hat
  change rd _ (cline fin).length = 0 at h0
  change (cline fin).length ≤ _ at hle
  obtain ⟨mk1, kl2, ky1, e1, g1, g2, g3, g4, g5, g6⟩ :=
    split_spec (cline fin) (wr ln1 (lineOf fin).length 0) kl1 ky mk hnz hat h0
      (by rw [h4 rfl]; omega) hky hmk
  subst g4
  refine ⟨wr ln1 (lineOf fin).length 0, sl1, kl2, ky1, e, e1, ?_, by rw [length_wr, h2], h3,
    by rw [g2, h4 rfl], g3, h6, g5, ?_, ?_, h9, fun i hi => (g6 i hi).2⟩
  · unfold csvgetline
    rw [firstAlloc_alloc]
    simp only [h1, Option.map_some', Option.getD_some, if_true, g1, ret_eq]
    rw [cstr_of_at _ _ 0 hat hnz (by simpa using h0)]
  · exact cstr_of_at _ _ 0 hat hnz (by simpa using h0)
  · exact ptrStrs_eq kl2 ky1 _ (fun i hi => (g6 i hi).1)

/-- A later row: `csvgetline` on an allocated state with `nrow ≠ 0`, when no allocation
fails. -/
theorem csvgetline_row_spec (fin ln sl kl fd ky : List Nat) (m mf mk nf nk nr : Nat)
    (hnr : nr ≠ 0) (hln : ln.length = m) (hsl : sl.length = m)
    (hfd : fd.length = mf) (hm : 1 ≤ m) (hmf : 1 ≤ mf) :
    ∃ ln1 sl1 fd1 e e1,
      csvgetline noFail (State.mk (some ln) (some sl) (some kl) m (some fd) (some ky)
          mf mk nf nk nr) fin =
        (if fin = [] then none else some (cline fin),
         State.mk (some ln1) (some sl1) (some kl) (m * 2 ^ e) (some fd1) (some ky)
          (mf * 2 ^ e1) mk (fieldsOf (cline fin)).length nk ((nr + 1) % 4294967296),
         afterLine fin) ∧
      ln1.length = m * 2 ^ e ∧ sl1.length = m * 2 ^ e ∧
      fd1.length = mf * 2 ^ e1 ∧ (lineOf fin).length < m * 2 ^ e ∧
      (fieldsOf (cline fin)).length ≤ mf * 2 ^ e1 ∧
      cstr ln1 0 = cline fin ∧
      ptrStrs sl1 fd1 (fieldsOf (cline fin)).length = fieldsOf (cline fin) ∧
      (∀ i, i < (fieldsOf (cline fin)).length →
        cstr sl1 (rd fd1 i) = (fieldsOf (cline fin)).getD i [] ∧
        rd fd1 i + ((fieldsOf (cline fin)).getD i []).length ≤ (cline fin).length) := by
  obtain ⟨ln1, sl1, kl1, e, h1, h2, h3, _, h5, h6, h7, _, _, _⟩ :=
    readLoop_spec (fin.length + 1) fin 0 ln sl kl m (some fd) (some ky) mf mk nf nk nr
      (Nat.lt_succ_self _) hln hsl (fun h => absurd h hnr) (by omega)
  simp only [Nat.zero_add] at h1 h6
  have hkl1 := h5 hnr
  subst hkl1
  have hatL : At (wr ln1 (lineOf fin).length 0) 0 (lineOf fin) :=
    at_congr ln1 _ _ _ (fun x _ hx => rd_wr_ne _ _ _ _ (by omega)) h7
  have h0L : rd (wr ln1 (lineOf fin).length 0) (lineOf fin).length = 0 :=
    rd_wr_eq _ _ _ (by omega)
  obtain ⟨hat, h0, hle⟩ := cstr_line _ _ hatL h0L
  have hnz := cline_nz fin
  change At _ 0 (cline fin) at hat
  change rd _ (cline fin).length = 0 at h0
  change (cline fin).length ≤ _ at hle
  obtain ⟨mf1, sl2, fd1, e1, g1, g2, g3, g4, g5, g6⟩ :=
    split_spec (cline fin) (wr ln1 (lineOf fin).length 0) sl1 fd mf hnz hat h0
      (by rw [h3]; omega) hfd hmf
  subst g4
  refine ⟨wr ln1 (lineOf fin).length 0, sl2, fd1, e, e1, ?_, by rw [length_wr, h2],
    by rw [g2, h3], g3, h6, g5, ?_, ?_, g6⟩
  · unfold csvgetline
    rw [firstAlloc_alloc]
    simp only [h1, Option.map_some', Option.getD_some, hnr, if_false, g1, ret_eq]
    rw [cstr_of_at _ _ 0 hat hnz (by simpa using h0)]
  · exact cstr_of_at _ _ 0 hat hnz (by simpa using h0)
  · exact ptrStrs_eq sl2 fd1 _ (fun i hi => (g6 i hi).1)

theorem csvgetline_init (fin : List Nat) :
    csvgetline noFail State.init fin =
      csvgetline noFail
        (State.mk (some [0]) (some [0]) (some [0]) 1 (some [0]) (some [0]) 1 1 0 0 0) fin := by
  unfold csvgetline
  rw [firstAlloc_noFail_init, firstAlloc_alloc]

theorem alloc_first : Alloc (State.mk (some [0]) (some [0]) (some [0]) 1 (some [0]) (some [0]) 1 1 0 0 0) := by
  simp [Alloc]

/-- One call of `csvgetline` on an allocated state, when no allocation
fails: the line returned, the stream left, and the state left. -/
theorem csvgetline_alloc_spec (s : State) (fin : List Nat) (hs : Alloc s) :
    ∃ s1, csvgetline noFail s fin =
        (if fin = [] then none else some (cline fin), s1, afterLine fin) ∧
      (s.nrow + 1 < 4294967296 → Alloc s1) ∧ s1.nrow = (s.nrow + 1) % 4294967296 ∧
      cstr (s1.line.getD []) 0 = cline fin ∧
      (s.nrow = 0 → keys s1 = fieldsOf (cline fin) ∧ s1.nfield = s.nfield) ∧
      (s.nrow ≠ 0 → fields s1 = fieldsOf (cline fin) ∧ keys s1 = keys s ∧
        s1.nkey = s.nkey ∧ s1.key = s.key ∧ s1.kline = s.kline ∧ s1.maxkey = s.maxkey) := by
  obtain ⟨line, sline, kline, m, field, key, mf, mk, nf, nk, nr⟩ := s
  obtain ⟨a1, a2, a3, a4, a5, a6, a7, a8, a9⟩ := hs
  simp only at a1 a2 a3 a4 a5 a6 a7 a8 a9
  cases line with
  | none => simp at a1; omega
  | some ln =>
  cases sline with
  | none => simp at a2; omega
  | some sl =>
  cases kline with
  | none => exact absurd rfl a3
  | some kl =>
  cases field with
  | none => simp at a5; omega
  | some fd =>
  cases key with
  | none => simp at a6; omega
  | some ky =>
  simp only [Option.getD_some] at a1 a2 a4 a5 a6
  by_cases hnr : nr = 0
  · subst hnr
    obtain ⟨ln1, sl1, kl1, ky1, e, e1, h1, h2, h3, h4, h5, h6, h7, h8, h9, _, _⟩ :=
      csvgetline_header_spec fin ln sl kl fd ky m mf mk nf nk a1 a2 (a4 rfl) a6 a7 a9
    have hp : 1 ≤ m * 2 ^ e := Nat.le_trans a7 (Nat.le_mul_of_pos_right _ (by positivity))
    have hq : 1 ≤ mk * 2 ^ e1 := Nat.le_trans a9 (Nat.le_mul_of_pos_right _ (by positivity))
    refine ⟨_, h1, fun _ => ?_, rfl, h8, fun _ => ⟨h9, rfl⟩, fun h => absurd rfl h⟩
    exact ⟨h2, h3, by simp, fun h => by simp at h, a5, h5, hp, a8, hq⟩
  · obtain ⟨ln1, sl1, fd1, e, e1, h1, h2, h3, h4, h5, h6, h7, h8, _⟩ :=
      csvgetline_row_spec fin ln sl kl fd ky m mf mk nf nk nr hnr a1 a2 a5 a7 a8
    have hp : 1 ≤ m * 2 ^ e := Nat.le_trans a7 (Nat.le_mul_of_pos_right _ (by positivity))
    have hq : 1 ≤ mf * 2 ^ e1 := Nat.le_trans a8 (Nat.le_mul_of_pos_right _ (by positivity))
    refine ⟨_, h1, fun hb => ?_, rfl, h7, fun h => absurd h hnr,
      fun _ => ⟨h8, rfl, rfl, rfl, rfl, rfl⟩⟩
    simp only at hb
    exact ⟨h2, h3, by simp, fun h => by simp only at h; omega, h4, a6, hp, hq, a9⟩

theorem csvgetline_spec (s : State) (fin : List Nat) (hs : Inv s) :
    ∃ s1, csvgetline noFail s fin =
        (if fin = [] then none else some (cline fin), s1, afterLine fin) ∧
      (s.nrow + 1 < 4294967296 → Alloc s1) ∧ s1.nrow = (s.nrow + 1) % 4294967296 ∧
      cstr (s1.line.getD []) 0 = cline fin ∧
      (s.nrow = 0 → keys s1 = fieldsOf (cline fin) ∧ s1.nfield = s.nfield) ∧
      (s.nrow ≠ 0 → fields s1 = fieldsOf (cline fin) ∧ keys s1 = keys s ∧
        s1.nkey = s.nkey ∧ s1.key = s.key ∧ s1.kline = s.kline ∧ s1.maxkey = s.maxkey) := by
  rcases hs with hs | hs
  · subst hs
    obtain ⟨s1, h1, h2, h3, h4, h5, _⟩ := csvgetline_alloc_spec _ fin alloc_first
    rw [← csvgetline_init] at h1
    exact ⟨s1, h1, h2, h3, h4, h5, fun h => absurd rfl h⟩
  · exact csvgetline_alloc_spec s fin hs

/-! ## The lines of a stream -/

theorem lineOf_subset (fin : List Nat) : ∀ c ∈ lineOf fin, c ∈ fin :=
  fun _ hc => (List.takeWhile_sublist _).subset hc

theorem lineOf_no_eol (fin : List Nat) : ∀ c ∈ lineOf fin, c ≠ 13 ∧ c ≠ 10 := by
  intro c hc
  have := List.mem_takeWhile_imp hc
  simp only [isEol, Bool.not_eq_true', Bool.or_eq_false_iff, beq_eq_false_iff_ne] at this
  exact this

theorem afterLine_suffix : ∀ fin : List Nat, ∃ pre, fin = pre ++ afterLine fin := by
  intro fin
  induction fin with
  | nil => exact ⟨[], rfl⟩
  | cons c rest ih =>
    by_cases hc : isEol c = true
    · by_cases h13 : c = 13
      · subst h13
        cases rest with
        | nil => exact ⟨[13], by simp [afterLine]⟩
        | cons d r =>
          by_cases hd : d = 10
          · exact ⟨[13, d], by simp [afterLine, hd]⟩
          · exact ⟨[13], by simp [afterLine, hd]⟩
      · have h10 : c = 10 := by
          simp only [isEol, Bool.or_eq_true, beq_iff_eq] at hc
          rcases hc with h | h
          · exact absurd h h13
          · exact h
        subst h10
        exact ⟨[10], by simp [afterLine]⟩
    · have hc' : isEol c = false := by simpa using hc
      obtain ⟨pre, hpre⟩ := ih
      refine ⟨c :: pre, ?_⟩
      rw [afterLine_byte c rest hc', List.cons_append, ← hpre]

theorem afterLine_length (fin : List Nat) (h : fin ≠ []) :
    (afterLine fin).length < fin.length := by
  induction fin with
  | nil => exact absurd rfl h
  | cons c rest ih =>
    by_cases hc : isEol c = true
    · by_cases h13 : c = 13
      · subst h13
        cases rest with
        | nil => simp [afterLine]
        | cons d r =>
          by_cases hd : d = 10
          · simp [afterLine, hd]; omega
          · simp [afterLine, hd]
      · have h10 : c = 10 := by
          simp only [isEol, Bool.or_eq_true, beq_iff_eq] at hc
          rcases hc with h | h
          · exact absurd h h13
          · exact h
        subst h10
        simp [afterLine]
    · have hc' : isEol c = false := by simpa using hc
      rw [afterLine_byte c rest hc']
      cases rest with
      | nil => simp [afterLine]
      | cons d r =>
        have := ih (by simp)
        simp only [List.length_cons] at this ⊢
        omega

theorem cutFrom_cons (cur : List Nat) (c : Nat) (rest : List Nat) :
    cutFrom cur (c :: rest) =
      if isEol c = true then cur :: cutFrom [] (afterLine (c :: rest))
      else cutFrom (cur ++ [c]) rest := by
  cases rest with
  | nil =>
    by_cases h13 : c = 13
    · subst h13; simp [cutFrom, isEol, afterLine]
    · by_cases h10 : c = 10
      · subst h10; simp [cutFrom, isEol, afterLine]
      · simp [cutFrom, isEol, h13, h10]
  | cons d r =>
    by_cases h13 : c = 13
    · subst h13
      by_cases hd : d = 10
      · simp [cutFrom, isEol, afterLine, hd]
      · simp [cutFrom, isEol, afterLine, hd]
    · by_cases h10 : c = 10
      · subst h10; simp [cutFrom, isEol, afterLine]
      · simp [cutFrom, isEol, h13, h10]

theorem cutFrom_eq : ∀ (fin cur : List Nat), fin ≠ [] →
    cutFrom cur fin = (cur ++ lineOf fin) :: cutFrom [] (afterLine fin) := by
  intro fin
  induction fin with
  | nil => intro cur h; exact absurd rfl h
  | cons c rest ih =>
    intro cur _
    rw [cutFrom_cons]
    by_cases hc : isEol c = true
    · rw [if_pos hc, lineOf_eol c rest hc, List.append_nil]
    · have hc' : isEol c = false := by simpa using hc
      rw [if_neg hc, lineOf_byte c rest hc', afterLine_byte c rest hc']
      cases rest with
      | nil => simp [cutFrom, lineOf, afterLine]
      | cons d r =>
        rw [ih (cur ++ [c]) (by simp)]
        simp

theorem cutLines_eq (fin : List Nat) (h : fin ≠ []) :
    cutLines fin = lineOf fin :: cutLines (afterLine fin) := by
  unfold cutLines
  rw [cutFrom_eq fin [] h]
  simp

/-! ## `csvgetline` under an arbitrary allocation oracle -/

theorem growLine_transfer (alloc : Nat → Bool) (s s1 : State) (h : growLine alloc s = some s1) :
    growLine noFail s = some s1 := by
  unfold growLine at h ⊢
  by_cases ha : alloc (sizeOfInt (s.maxline * 2)) = true
  · by_cases hr : s.nrow = 0
    · simpa [ha, hr, noFail] using h
    · simpa [ha, hr, noFail] using h
  · simp [ha] at h

theorem readLoop_transfer (alloc : Nat → Bool) : ∀ (fuel : Nat) (s : State) (fin : List Nat)
    (i : Nat) (s1 : State) (fin1 : List Nat) (i1 : Nat) (c : Option Nat),
    readLoop alloc fuel s fin i = .done s1 fin1 i1 c →
    readLoop noFail fuel s fin i = .done s1 fin1 i1 c := by
  intro fuel
  induction fuel with
  | zero => intro s fin i s1 fin1 i1 c h; simpa [readLoop] using h
  | succ fuel ih =>
    intro s fin i s1 fin1 i1 c h
    cases fin with
    | nil => rw [readLoop_eof] at h ⊢; exact h
    | cons d rest =>
      by_cases hd : isEol d = true
      · rw [readLoop_eol _ _ _ _ _ _ hd] at h ⊢; exact h
      · have hd' : isEol d = false := by simpa using hd
        rw [readLoop_byte _ _ _ _ _ _ hd'] at h ⊢
        by_cases hgrow : i ≥ s.maxline - 1
        · rw [if_pos hgrow] at h ⊢
          cases hg : growLine alloc s with
          | none => rw [hg] at h; simp at h
          | some s2 =>
            rw [hg] at h
            rw [growLine_transfer alloc s s2 hg]
            exact ih _ _ _ _ _ _ _ h
        · rw [if_neg hgrow] at h ⊢
          exact ih _ _ _ _ _ _ _ h

theorem readLoop_done_eof (alloc : Nat → Bool) : ∀ (fuel : Nat) (s : State) (fin : List Nat)
    (i : Nat) (s1 : State) (fin1 : List Nat) (i1 : Nat),
    fin.length < fuel → readLoop alloc fuel s fin i = .done s1 fin1 i1 none → fin1 = [] := by
  intro fuel
  induction fuel with
  | zero => intro s fin i s1 fin1 i1 h; omega
  | succ fuel ih =>
    intro s fin i s1 fin1 i1 hfuel h
    cases fin with
    | nil =>
      rw [readLoop_eof] at h
      injection h with _ h2 _ _
      exact h2.symm
    | cons d rest =>
      simp only [List.length_cons] at hfuel
      by_cases hd : isEol d = true
      · rw [readLoop_eol _ _ _ _ _ _ hd] at h
        injection h with _ _ _ h4
        exact absurd h4 (by simp)
      · have hd' : isEol d = false := by simpa using hd
        rw [readLoop_byte _ _ _ _ _ _ hd'] at h
        by_cases hgrow : i ≥ s.maxline - 1
        · rw [if_pos hgrow] at h
          cases hg : growLine alloc s with
          | none => rw [hg] at h; simp at h
          | some s2 =>
            rw [hg] at h
            exact ih _ _ _ _ _ _ (by omega) h
        · rw [if_neg hgrow] at h
          exact ih _ _ _ _ _ _ (by omega) h

theorem growPtrs_transfer (alloc : Nat → Bool) (n max : Nat) (ap : List Nat) (g : Nat × List Nat)
    (h : growPtrs alloc n max ap = some g) : growPtrs noFail n max ap = some g := by
  unfold growPtrs at h ⊢
  by_cases hn : n ≥ max
  · by_cases ha : alloc (max * 2 * sizeofPtr) = true
    · simpa [hn, ha, noFail] using h
    · simp [hn, ha] at h
  · simpa [hn] using h

theorem splitLoop_transfer (alloc : Nat → Bool) : ∀ (fuel n max : Nat) (l ap : List Nat) (p : Nat)
    (r : Nat × Nat × List Nat × List Nat),
    splitLoop alloc fuel n max l ap p = some r → splitLoop noFail fuel n max l ap p = some r := by
  intro fuel
  induction fuel with
  | zero => intro n max l ap p r h; simpa [splitLoop] using h
  | succ fuel ih =>
    intro n max l ap p r h
    rw [splitLoop] at h ⊢
    cases hg : growPtrs alloc n max ap with
    | none => rw [hg] at h; simp at h
    | some g =>
      rw [hg] at h
      rw [growPtrs_transfer alloc n max ap g hg]
      obtain ⟨max1, ap1⟩ := g
      simp only at h ⊢
      by_cases hs : rd (scanField l p).1 (scanField l p).2.2 = 44
      · rw [if_pos hs] at h ⊢; exact ih _ _ _ _ _ _ h
      · rw [if_neg hs] at h ⊢; exact h

theorem split_transfer (alloc : Nat → Bool) (line : List Nat) (max : Nat) (l ap : List Nat)
    (r : Nat × Nat × List Nat × List Nat) (h : split alloc line max l ap = some r) :
    split noFail line max l ap = some r := by
  unfold split at h ⊢
  by_cases h0 : rd line 0 = 0
  · rw [if_pos h0] at h ⊢; exact h
  · rw [if_neg h0] at h ⊢; exact splitLoop_transfer alloc _ _ _ _ _ _ _ h

theorem firstAlloc_transfer (alloc : Nat → Bool) (s s0 : State)
    (h : firstAlloc alloc s = some s0) : firstAlloc noFail s = some s0 := by
  unfold firstAlloc at h ⊢
  by_cases hl : s.line = none
  · rw [if_pos hl] at h ⊢
    by_cases ha : (alloc 1 && alloc 1 && alloc 1 && alloc (1 * sizeofPtr) &&
        alloc (1 * sizeofPtr)) = true
    · simp only at h
      rw [if_pos ha] at h
      simpa [noFail] using h
    · simp only at h
      rw [if_neg ha] at h
      exact absurd h (by simp)
  · rw [if_neg hl] at h ⊢; exact h

theorem csvgetline_transfer (alloc : Nat → Bool) (s : State) (fin l : List Nat) (s1 : State)
    (fin1 : List Nat) (h : csvgetline alloc s fin = (some l, s1, fin1)) :
    csvgetline noFail s fin = (some l, s1, fin1) := by
  unfold csvgetline at h ⊢
  cases hf : firstAlloc alloc s with
  | none => rw [hf] at h; simp at h
  | some s0 =>
    rw [hf] at h
    rw [firstAlloc_transfer alloc s s0 hf]
    simp only at h ⊢
    cases hr : readLoop alloc (fin.length + 1) s0 fin 0 with
    | nomem f => rw [hr] at h; simp at h
    | done s2 f2 i c =>
      rw [hr] at h
      rw [readLoop_transfer alloc _ _ _ _ _ _ _ _ hr]
      simp only at h ⊢
      by_cases hrow : s2.nrow = 0
      · rw [if_pos hrow] at h ⊢
        cases hsp : split alloc ((Option.map (fun b => wr b i 0) s2.line).getD []) s2.maxkey
            (s2.kline.getD []) (s2.key.getD []) with
        | none => rw [hsp] at h; simp at h
        | some r =>
          rw [hsp] at h
          rw [split_transfer alloc _ _ _ _ r hsp]
          exact h
      · rw [if_neg hrow] at h ⊢
        cases hsp : split alloc ((Option.map (fun b => wr b i 0) s2.line).getD []) s2.maxfield
            (s2.sline.getD []) (s2.field.getD []) with
        | none => rw [hsp] at h; simp at h
        | some r =>
          rw [hsp] at h
          rw [split_transfer alloc _ _ _ _ r hsp]
          exact h

/-- A call that returns `NULL` on a fresh session leaves the session fresh or the stream
at its end. -/
theorem csvgetline_null_init (alloc : Nat → Bool) (fin : List Nat) (s1 : State)
    (fin1 : List Nat) (h : csvgetline alloc State.init fin = (none, s1, fin1)) :
    s1 = State.init ∨ fin1 = [] := by
  unfold csvgetline at h
  cases hf : firstAlloc alloc State.init with
  | none =>
    rw [hf] at h
    simp only [Prod.mk.injEq] at h
    left; rw [← h.2.1]; rfl
  | some s0 =>
    rw [hf] at h
    simp only at h
    cases hr : readLoop alloc (fin.length + 1) s0 fin 0 with
    | nomem f =>
      rw [hr] at h
      simp only [Prod.mk.injEq] at h
      left; rw [← h.2.1]; rfl
    | done s2 f2 i c =>
      rw [hr] at h
      simp only at h
      by_cases hrow : s2.nrow = 0
      · rw [if_pos hrow] at h
        cases hsp : split alloc ((Option.map (fun b => wr b i 0) s2.line).getD []) s2.maxkey
            (s2.kline.getD []) (s2.key.getD []) with
        | none =>
          rw [hsp] at h
          simp only [Prod.mk.injEq] at h
          left; rw [← h.2.1]; rfl
        | some r =>
          rw [hsp] at h
          obtain ⟨n, max, l, ap⟩ := r
          simp only [Prod.mk.injEq] at h
          by_cases hc : c = none ∧ i = 0
          · right
            rw [← h.2.2]
            have hc1 := hc.1
            subst hc1
            exact readLoop_done_eof alloc _ _ _ _ _ _ _ (Nat.lt_succ_self _) hr
          · rw [if_neg hc] at h; exact absurd h.1 (by simp)
      · rw [if_neg hrow] at h
        cases hsp : split alloc ((Option.map (fun b => wr b i 0) s2.line).getD []) s2.maxfield
            (s2.sline.getD []) (s2.field.getD []) with
        | none =>
          rw [hsp] at h
          simp only [Prod.mk.injEq] at h
          left; rw [← h.2.1]; rfl
        | some r =>
          rw [hsp] at h
          obtain ⟨n, max, l, ap⟩ := r
          simp only [Prod.mk.injEq] at h
          by_cases hc : c = none ∧ i = 0
          · right
            rw [← h.2.2]
            have hc1 := hc.1
            subst hc1
            exact readLoop_done_eof alloc _ _ _ _ _ _ _ (Nat.lt_succ_self _) hr
          · rw [if_neg hc] at h; exact absurd h.1 (by simp)

/-- At the end of the stream every call returns `NULL` and leaves the stream at its end. -/
theorem csvgetline_eof (alloc : Nat → Bool) (s : State) :
    (csvgetline alloc s []).1 = none ∧ (csvgetline alloc s []).2.2 = [] := by
  unfold csvgetline
  cases hf : firstAlloc alloc s with
  | none => exact ⟨rfl, rfl⟩
  | some s0 =>
    simp only [List.length_nil, Nat.zero_add, readLoop_eof]
    by_cases hrow : s0.nrow = 0
    · rw [if_pos hrow]
      cases hsp : split alloc ((Option.map (fun b => wr b 0 0) s0.line).getD []) s0.maxkey
          (s0.kline.getD []) (s0.key.getD []) with
      | none => exact ⟨rfl, rfl⟩
      | some r => exact ⟨by simp, rfl⟩
    · rw [if_neg hrow]
      cases hsp : split alloc ((Option.map (fun b => wr b 0 0) s0.line).getD []) s0.maxfield
          (s0.sline.getD []) (s0.field.getD []) with
      | none => exact ⟨rfl, rfl⟩
      | some r => exact ⟨by simp, rfl⟩

theorem afterCalls_null (alloc : Nat → Bool) (fin : List Nat) : ∀ k : Nat,
    (∀ j, j < k → (nthCall alloc j State.init fin).1 = none) →
    (afterCalls alloc k State.init fin).1 = State.init ∨
      (afterCalls alloc k State.init fin).2 = [] := by
  intro k
  induction k with
  | zero => intro _; left; rfl
  | succ k ih =>
    intro h
    have hk := h k (Nat.lt_succ_self k)
    unfold nthCall at hk
    rcases ih (fun j hj => h j (Nat.lt_succ_of_lt hj)) with h1 | h1
    · rw [h1] at hk
      have := csvgetline_null_init alloc (afterCalls alloc k State.init fin).2
        (csvgetline alloc State.init (afterCalls alloc k State.init fin).2).2.1
        (csvgetline alloc State.init (afterCalls alloc k State.init fin).2).2.2
        (by rw [← hk])
      simp only [afterCalls]
      rw [h1]
      exact this
    · right
      simp only [afterCalls]
      rw [h1]
      exact (csvgetline_eof alloc _).2

/-! ## Lookup -/

theorem ptrStrs_getD (buf ap : List Nat) (n i : Nat) (h : i < n) :
    (ptrStrs buf ap n).getD i [] = cstr buf (rd ap i) := by
  unfold ptrStrs
  rw [List.getD_eq_getElem _ _ (by simpa using h)]
  simp

theorem ptrStrs_length (buf ap : List Nat) (n : Nat) : (ptrStrs buf ap n).length = n := by
  simp [ptrStrs]

theorem cstr_self (k : List Nat) (hk : ∀ c ∈ k, c ≠ 0) : cstr k 0 = k := by
  unfold cstr
  rw [List.drop_zero, List.takeWhile_eq_self_iff]
  intro c hc
  simpa using hk c hc

theorem cstr_nil_of_rd (buf : List Nat) (p : Nat) (h : rd buf p = 0) : cstr buf p = [] :=
  cstr_of_at buf [] p (at_nil _ _) (by simp) (by simpa using h)

theorem csvkeyLoop_spec (s : State) (k : List Nat) (hk : ∀ c ∈ k, c ≠ 0) :
    ∀ (todo i : Nat), i + todo ≤ s.nkey → i + todo ≤ s.nfield →
    fieldStr s (csvkeyLoop s k todo i) =
      ((List.range' i todo).find? (fun j => (keys s).getD j [] == k)).map
        (fun j => (fields s).getD j []) := by
  intro todo
  induction todo with
  | zero => intro i _ _; rfl
  | succ todo ih =>
    intro i h1 h2
    have hkey : (keys s).getD i [] = cstr (s.kline.getD []) (rd (s.key.getD []) i) :=
      ptrStrs_getD _ _ _ _ (by omega)
    have hfld : (fields s).getD i [] = cstr (s.sline.getD []) (rd (s.field.getD []) i) :=
      ptrStrs_getD _ _ _ _ (by omega)
    rw [csvkeyLoop, List.range'_succ, List.find?_cons, cstr_self k hk, hkey]
    by_cases he : cstr (s.kline.getD []) (rd (s.key.getD []) i) = k
    · simp only [he, if_true, beq_self_eq_true, Option.map_some', hfld]
      rfl
    · have hb : (cstr (s.kline.getD []) (rd (s.key.getD []) i) == k) = false := by
        simpa using he
      simp only [he, if_false, hb]
      exact ih (i + 1) (by omega) (by omega)

theorem csvkeyLoop_none (s : State) (k : List Nat) (hk : ∀ c ∈ k, c ≠ 0) :
    ∀ (todo i : Nat), i + todo ≤ s.nkey →
    (csvkeyLoop s k todo i = none ↔ ∀ j, i ≤ j → j < i + todo → (keys s).getD j [] ≠ k) := by
  intro todo
  induction todo with
  | zero => intro i _; simp [csvkeyLoop]; intro j h1 h2; omega
  | succ todo ih =>
    intro i h1
    have hkey : (keys s).getD i [] = cstr (s.kline.getD []) (rd (s.key.getD []) i) :=
      ptrStrs_getD _ _ _ _ (by omega)
    rw [csvkeyLoop, cstr_self k hk, ← hkey]
    by_cases he : (keys s).getD i [] = k
    · simp only [he, if_true]
      constructor
      · intro h; exact absurd h (by simp)
      · intro h; exact absurd he (h i (Nat.le_refl _) (by omega))
    · simp only [he, if_false]
      rw [ih (i + 1) (by omega)]
      constructor
      · intro h j hj1 hj2
        by_cases hji : j = i
        · subst hji; exact he
        · exact h j (by omega) (by omega)
      · intro h j hj1 hj2
        exact h j (by omega) (by omega)

theorem csvkey_max (s : State) :
    (if s.nkey < s.nfield then s.nkey else s.nfield) = min s.nkey s.nfield := by
  by_cases h : s.nkey < s.nfield
  · rw [if_pos h, Nat.min_eq_left (Nat.le_of_lt h)]
  · rw [if_neg h, Nat.min_eq_right (Nat.le_of_not_lt h)]

/-! ## More on the lines of a stream -/

theorem cutFrom_no_eol : ∀ (n : Nat) (fin cur : List Nat), fin.length < n →
    (∀ c ∈ cur, c ≠ 13 ∧ c ≠ 10) → ∀ l ∈ cutFrom cur fin, ∀ c ∈ l, c ≠ 13 ∧ c ≠ 10 := by
  intro n
  induction n with
  | zero => intro fin cur h; omega
  | succ n ih =>
    intro fin cur hn hcur l hl
    by_cases hfin : fin = []
    · subst hfin
      by_cases hc : cur = []
      · simp [cutFrom, hc] at hl
      · simp only [cutFrom, if_neg hc, List.mem_singleton] at hl
        rw [hl]; exact hcur
    · rw [cutFrom_eq fin cur hfin, List.mem_cons] at hl
      rcases hl with hl | hl
      · rw [hl]
        intro c hc
        rw [List.mem_append] at hc
        rcases hc with hc | hc
        · exact hcur c hc
        · exact lineOf_no_eol fin c hc
      · have := afterLine_length fin hfin
        exact ih (afterLine fin) [] (by omega) (by simp) l hl

theorem cutFrom_line : ∀ (L cur : List Nat), (∀ c ∈ L, isEol c = false) →
    cutFrom cur (L ++ [10]) = [cur ++ L] := by
  intro L
  induction L with
  | nil => intro cur _; simp [cutFrom]
  | cons c L ih =>
    intro cur h
    have hc : isEol c = false := h c (by simp)
    rw [List.cons_append, cutFrom_cons]
    simp only [hc, Bool.false_eq_true, if_false]
    rw [ih (cur ++ [c]) (fun d hd => h d (by simp [hd]))]
    simp

theorem firstAlloc_nrow (alloc : Nat → Bool) (s s0 : State) (h : firstAlloc alloc s = some s0) :
    s0.nrow = s.nrow := by
  unfold firstAlloc at h
  by_cases hl : s.line = none
  · rw [if_pos hl] at h
    simp only at h
    split at h
    · injection h with h; rw [← h]
    · exact absurd h (by simp)
  · rw [if_neg hl] at h
    injection h with h; rw [h]

theorem rd_line_zero (o : Option (List Nat)) :
    rd ((Option.map (fun b => wr b 0 0) o).getD []) 0 = 0 := by
  cases o with
  | none => rfl
  | some b =>
    simp only [Option.map_some', Option.getD_some]
    rw [rd_wr]
    by_cases hb : 0 < b.length
    · simp [hb]
    · simp only [hb, and_false, if_false]
      exact rd_of_le _ _ (by omega)

theorem split_empty (alloc : Nat → Bool) (line : List Nat) (max : Nat) (l ap : List Nat)
    (h : rd line 0 = 0) : split alloc line max l ap = some (0, max, l, ap) := by
  unfold split
  rw [if_pos h]

/-- A blank row: a call of `csvgetline` when a row has been read before, on a stream that
starts with a line terminator. -/
theorem csvgetline_blank (s : State) (c : Nat) (rest : List Nat) (hrow : s.nrow ≠ 0)
    (hc : isEol c = true) :
    (csvgetline noFail s (c :: rest)).1 = some [] ∧
      (csvgetline noFail s (c :: rest)).2.1.nfield = 0 := by
  obtain ⟨s0, h0⟩ := firstAlloc_noFail_some s
  have hr : s0.nrow ≠ 0 := by rw [firstAlloc_nrow noFail s s0 h0]; exact hrow
  unfold csvgetline
  rw [h0]
  simp only [readLoop_eol _ _ _ _ _ _ hc, if_neg hr]
  rw [split_empty _ _ _ _ _ (rd_line_zero s0.line)]
  simp only
  rw [cstr_nil_of_rd _ _ (rd_line_zero s0.line)]
  simp

/-! ## Unquoted lines: commas and the trailing comma -/

theorem fieldsFrom_no_comma : ∀ (fuel : Nat) (s : List Nat), (∀ c ∈ s, c ≠ 34) →
    ∀ f ∈ fieldsFrom fuel s, ∀ c ∈ f, c ≠ 44 := by
  intro fuel
  induction fuel with
  | zero => intro s _ f hf; simp [fieldsFrom] at hf
  | succ fuel ih =>
    intro s hq f hf
    have hff := firstField_noquote s hq
    have hsplit := List.takeWhile_append_dropWhile (fun x => x != 44) s
    rcases dropWhile_comma s with hr | ⟨t, hr⟩
    · rw [fieldsFrom_last _ s (by rw [hff, hr]), hff, List.mem_singleton] at hf
      rw [hf]; exact takeWhile_no_comma s
    · rw [fieldsFrom_more _ s t (by rw [hff, hr]), hff, List.mem_cons] at hf
      rcases hf with hf | hf
      · rw [hf]; exact takeWhile_no_comma s
      · have htq : ∀ c ∈ t, c ≠ 34 := by
          intro c hc
          exact hq c (by rw [← hsplit, hr]; simp [hc])
        exact ih t htq f hf

theorem takeWhile_snoc_comma (s : List Nat) :
    (s ++ [44]).takeWhile (fun x => x != 44) = s.takeWhile (fun x => x != 44) := by
  induction s with
  | nil => rfl
  | cons c s ih =>
    by_cases hc : c = 44
    · simp [List.takeWhile_cons, hc]
    · simp [List.takeWhile_cons, hc, ih]

theorem dropWhile_snoc_comma (s : List Nat) :
    (s ++ [44]).dropWhile (fun x => x != 44) = s.dropWhile (fun x => x != 44) ++ [44] := by
  induction s with
  | nil => rfl
  | cons c s ih =>
    by_cases hc : c = 44
    · simp [List.dropWhile_cons, hc]
    · simp [List.dropWhile_cons, hc, ih]

theorem fieldsFrom_trailing : ∀ (fuel : Nat) (s : List Nat), s.length < fuel →
    (∀ c ∈ s, c ≠ 34) → fieldsFrom (fuel + 1) (s ++ [44]) = fieldsFrom fuel s ++ [[]] := by
  intro fuel
  induction fuel with
  | zero => intro s h; omega
  | succ fuel ih =>
    intro s hfuel hq
    have hq2 : ∀ c ∈ s ++ [44], c ≠ 34 := by
      intro c hc
      rw [List.mem_append, List.mem_singleton] at hc
      rcases hc with hc | hc
      · exact hq c hc
      · omega
    have hff := firstField_noquote s hq
    have hff2 := firstField_noquote (s ++ [44]) hq2
    rw [takeWhile_snoc_comma, dropWhile_snoc_comma] at hff2
    have hsplit := List.takeWhile_append_dropWhile (fun x => x != 44) s
    have hlen := congrArg List.length hsplit
    rcases dropWhile_comma s with hr | ⟨t, hr⟩
    · rw [fieldsFrom_last _ s (by rw [hff, hr]),
        fieldsFrom_more _ (s ++ [44]) [] (by rw [hff2, hr]; rfl), hff, hff2]
      have h0 : fieldsFrom (fuel + 1) [] = [[]] := by simp [fieldsFrom, firstField]
      rw [h0]; rfl
    · rw [hr] at hlen
      simp only [List.length_append, List.length_cons] at hlen
      have htq : ∀ c ∈ t, c ≠ 34 := by
        intro c hc
        exact hq c (by rw [← hsplit, hr]; simp [hc])
      rw [fieldsFrom_more _ s t (by rw [hff, hr]),
        fieldsFrom_more _ (s ++ [44]) (t ++ [44]) (by rw [hff2, hr]; rfl), hff, hff2,
        ih t (by omega) htq]
      rfl

/-! ## Unterminated quotes and text after a closing quote -/

theorem takeWhile_no_comma_all (t : List Nat) (h : ∀ c ∈ t, c ≠ 44) (rest : List Nat)
    (hrest : rest = [] ∨ ∃ u, rest = 44 :: u) :
    (t ++ rest).takeWhile (fun x => x != 44) = t ∧
      (t ++ rest).dropWhile (fun x => x != 44) = rest := by
  induction t with
  | nil =>
    rcases hrest with h0 | ⟨u, h0⟩
    · subst h0; exact ⟨rfl, rfl⟩
    · subst h0; simp
  | cons c t ih =>
    have hc : c ≠ 44 := h c (by simp)
    have := ih (fun d hd => h d (by simp [hd]))
    simp [List.takeWhile_cons, List.dropWhile_cons, hc, this.1, this.2]

theorem quotedField_open (s : List Nat) (hs : ∀ c ∈ s, c ≠ 34) : quotedField s = (s, []) := by
  induction s with
  | nil => rfl
  | cons c s ih =>
    have hc : ¬ c = 34 := hs c (by simp)
    rw [quotedField_plain c s hc, ih (fun d hd => hs d (by simp [hd]))]

theorem quotedField_trailing (t rest : List Nat) (ht : ∀ c ∈ t, c ≠ 44)
    (ht0 : t.head? ≠ some 34) (hrest : rest = [] ∨ ∃ u, rest = 44 :: u) :
    ∀ s : List Nat, (∀ c ∈ s, c ≠ 34) →
    quotedField (s ++ 34 :: (t ++ rest)) = (s ++ t, rest) := by
  intro s
  induction s with
  | nil =>
    intro _
    have htw := takeWhile_no_comma_all t ht rest hrest
    cases t with
    | nil =>
      rcases hrest with h0 | ⟨u, h0⟩
      · subst h0; exact quotedField_close_nil
      · subst h0
        simp only [List.nil_append]
        rw [quotedField_close 44 u (by decide)]
        simp
    | cons d t =>
      have hd : ¬ d = 34 := by
        intro e; subst e; exact ht0 rfl
      simp only [List.nil_append, List.cons_append]
      rw [quotedField_close d _ hd]
      simp only [List.cons_append] at htw
      rw [htw.1, htw.2]
  | cons c s ih =>
    intro hs
    have hc : ¬ c = 34 := hs c (by simp)
    simp only [List.cons_append]
    rw [quotedField_plain c _ hc, ih (fun d hd => hs d (by simp [hd]))]

theorem fieldsOf_cons (c : Nat) (s : List Nat) :
    fieldsOf (c :: s) = fieldsFrom (s.length + 2) (c :: s) := by
  unfold fieldsOf
  rw [if_neg (by simp)]
  rfl

/-! ## Bounds on the fields of a line -/

theorem advquotedLoop_le : ∀ (fuel : Nat) (buf : List Nat) (p i j : Nat), i ≤ j →
    (advquotedLoop fuel buf p i j).2.1 ≤ (advquotedLoop fuel buf p i j).2.2 := by
  intro fuel
  induction fuel with
  | zero => intro buf p i j h; exact h
  | succ fuel ih =>
    intro buf p i j h
    rw [advquotedLoop]
    by_cases h0 : rd buf (p + j) = 0
    · rw [if_pos h0]; exact h
    · rw [if_neg h0]
      by_cases hq : rd buf (p + j) = 34
      · simp only [hq, if_true, true_and]
        by_cases hq2 : rd buf (p + (j + 1)) = 34
        · simp only [hq2, ne_eq, not_true, if_false]
          exact ih _ _ _ _ (by omega)
        · simp only [hq2, ne_eq, not_false_eq_true, if_true]
          omega
      · simp only [hq, if_false, false_and]
        exact ih _ _ _ _ (by omega)

theorem sum_fieldsFrom : ∀ (fuel : Nat) (s : List Nat), s.length < fuel →
    ((fieldsFrom fuel s).map List.length).sum + (fieldsFrom fuel s).length ≤ s.length + 1 ∧
    1 ≤ (fieldsFrom fuel s).length ∧ (fieldsFrom fuel s).length ≤ s.count 44 + 1 := by
  intro fuel
  induction fuel with
  | zero => intro s h; omega
  | succ fuel ih =>
    intro s hfuel
    obtain ⟨pre, hpre, hfl⟩ := firstField_split s
    have hpl := congrArg List.length hpre
    rw [List.length_append] at hpl
    have hcnt := congrArg (List.count 44) hpre
    rw [List.count_append] at hcnt
    rcases firstField_rest s with hr | ⟨t, hr⟩
    · rw [fieldsFrom_last _ s hr]
      rw [hr] at hpl
      simp only [List.map_cons, List.map_nil, List.sum_cons, List.sum_nil, List.length_singleton,
        List.length_nil] at hpl ⊢
      omega
    · rw [fieldsFrom_more _ s t hr]
      rw [hr] at hpl hcnt
      simp only [List.length_cons] at hpl
      rw [List.count_cons_self] at hcnt
      obtain ⟨h1, h2, h3⟩ := ih t (by omega)
      simp only [List.map_cons, List.sum_cons, List.length_cons]
      omega

/-! ## What a call of `csvgetline` leaves untouched -/

theorem growLine_frame (alloc : Nat → Bool) (s s1 : State) (h : growLine alloc s = some s1) :
    s1.nrow = s.nrow ∧ s1.nkey = s.nkey ∧ s1.key = s.key ∧ s1.maxkey = s.maxkey ∧
    s1.nfield = s.nfield ∧ s1.field = s.field ∧ s1.maxfield = s.maxfield ∧
    (s.nrow ≠ 0 → s1.kline = s.kline) ∧ (s.line ≠ none → s1.line ≠ none) := by
  unfold growLine at h
  by_cases ha : alloc (sizeOfInt (s.maxline * 2)) = true
  · by_cases hr : s.nrow = 0
    · simp only [ha, hr, Bool.not_true, Bool.false_eq_true, if_false, beq_self_eq_true,
        if_true, Option.some.injEq] at h
      subst h
      refine ⟨hr.symm ▸ rfl, rfl, rfl, rfl, rfl, rfl, rfl, fun h => absurd hr h, ?_⟩
      intro hl
      cases hs : s.line with
      | none => exact absurd hs hl
      | some b => simp [hs]
    · have hr2 : (s.nrow == 0) = false := by simpa using hr
      simp only [ha, hr2, Bool.not_true, Bool.false_eq_true, if_false,
        Option.some.injEq] at h
      subst h
      refine ⟨rfl, rfl, rfl, rfl, rfl, rfl, rfl, fun _ => rfl, ?_⟩
      intro hl
      cases hs : s.line with
      | none => exact absurd hs hl
      | some b => simp [hs]
  · simp [ha] at h

theorem map_wr_ne_none (o : Option (List Nat)) (i c : Nat) (h : o ≠ none) :
    Option.map (fun b => wr b i c) o ≠ none := by
  cases o with
  | none => exact absurd rfl h
  | some b => simp

theorem readLoop_frame (alloc : Nat → Bool) : ∀ (fuel : Nat) (s : State) (fin : List Nat)
    (i : Nat) (s1 : State) (fin1 : List Nat) (i1 : Nat) (c : Option Nat),
    readLoop alloc fuel s fin i = .done s1 fin1 i1 c →
    s1.nrow = s.nrow ∧ s1.nkey = s.nkey ∧ s1.key = s.key ∧ s1.maxkey = s.maxkey ∧
    s1.nfield = s.nfield ∧ s1.field = s.field ∧ s1.maxfield = s.maxfield ∧
    (s.nrow ≠ 0 → s1.kline = s.kline) ∧ (s.line ≠ none → s1.line ≠ none) := by
  intro fuel
  induction fuel with
  | zero =>
    intro s fin i s1 fin1 i1 c h
    simp only [readLoop, ReadExit.done.injEq] at h
    rw [← h.1]
    exact ⟨rfl, rfl, rfl, rfl, rfl, rfl, rfl, fun _ => rfl, fun h => h⟩
  | succ fuel ih =>
    intro s fin i s1 fin1 i1 c h
    cases fin with
    | nil =>
      rw [readLoop_eof] at h
      simp only [ReadExit.done.injEq] at h
      rw [← h.1]
      exact ⟨rfl, rfl, rfl, rfl, rfl, rfl, rfl, fun _ => rfl, fun h => h⟩
    | cons d rest =>
      by_cases hd : isEol d = true
      · rw [readLoop_eol _ _ _ _ _ _ hd] at h
        simp only [ReadExit.done.injEq] at h
        rw [← h.1]
        exact ⟨rfl, rfl, rfl, rfl, rfl, rfl, rfl, fun _ => rfl, fun h => h⟩
      · have hd' : isEol d = false := by simpa using hd
        rw [readLoop_byte _ _ _ _ _ _ hd'] at h
        by_cases hgrow : i ≥ s.maxline - 1
        · rw [if_pos hgrow] at h
          cases hg : growLine alloc s with
          | none => rw [hg] at h; simp at h
          | some s2 =>
            rw [hg] at h
            obtain ⟨g1, g2, g3, g4, g5, g6, g7, g8, g9⟩ := growLine_frame alloc s s2 hg
            obtain ⟨f1, f2, f3, f4, f5, f6, f7, f8, f9⟩ := ih _ _ _ _ _ _ _ h
            simp only at f1 f2 f3 f4 f5 f6 f7 f8 f9
            refine ⟨by rw [f1, g1], by rw [f2, g2], by rw [f3, g3], by rw [f4, g4],
              by rw [f5, g5], by rw [f6, g6], by rw [f7, g7], ?_, ?_⟩
            · intro hr; rw [f8 (by rw [g1]; exact hr), g8 hr]
            · intro hl; exact f9 (map_wr_ne_none _ _ _ (g9 hl))
        · rw [if_neg hgrow] at h
          obtain ⟨f1, f2, f3, f4, f5, f6, f7, f8, f9⟩ := ih _ _ _ _ _ _ _ h
          simp only at f1 f2 f3 f4 f5 f6 f7 f8 f9
          exact ⟨f1, f2, f3, f4, f5, f6, f7, f8, fun hl => f9 (map_wr_ne_none _ _ _ hl)⟩

theorem firstAlloc_of_line (alloc : Nat → Bool) (s : State) (h : s.line ≠ none) :
    firstAlloc alloc s = some s := by
  unfold firstAlloc
  rw [if_neg h]

/-- A call of `csvgetline` when a row has been read before and `line` is allocated: the
call ends in `reset`, or it leaves the keys as they were. -/
theorem csvgetline_keys_frame (alloc : Nat → Bool) (s : State) (fin : List Nat)
    (hrow : s.nrow ≠ 0) (hline : s.line ≠ none) :
    (csvgetline alloc s fin).2.1 = State.init ∨
      ((csvgetline alloc s fin).2.1.nrow = (s.nrow + 1) % 4294967296 ∧
       (csvgetline alloc s fin).2.1.line ≠ none ∧
       (csvgetline alloc s fin).2.1.nkey = s.nkey ∧
       (csvgetline alloc s fin).2.1.key = s.key ∧
       (csvgetline alloc s fin).2.1.kline = s.kline ∧
       (csvgetline alloc s fin).2.1.maxkey = s.maxkey) := by
  unfold csvgetline
  rw [firstAlloc_of_line alloc s hline]
  simp only
  cases hr : readLoop alloc (fin.length + 1) s fin 0 with
  | nomem f => left; rfl
  | done s2 f2 i c =>
    obtain ⟨f1, f2', f3, f4, _, _, _, f8, f9⟩ := readLoop_frame alloc _ _ _ _ _ _ _ _ hr
    have hrow2 : s2.nrow ≠ 0 := by rw [f1]; exact hrow
    simp only [if_neg hrow2]
    cases hsp : split alloc ((Option.map (fun b => wr b i 0) s2.line).getD []) s2.maxfield
        (s2.sline.getD []) (s2.field.getD []) with
    | none => left; rfl
    | some r =>
      obtain ⟨n, max, l, ap⟩ := r
      right
      simp only
      exact ⟨by rw [f1], map_wr_ne_none _ _ _ (f9 hline), f2', f3, f8 hrow, f4⟩

theorem csvgetline_noFail_nrow (s : State) (fin : List Nat) :
    (csvgetline noFail s fin).2.1.nrow = (s.nrow + 1) % 4294967296 := by
  obtain ⟨s0, h0⟩ := firstAlloc_noFail_some s
  obtain ⟨s1, h1⟩ := readLoop_noFail_done (fin.length + 1) s0 fin 0 (Nat.lt_succ_self _)
  have hn0 := firstAlloc_nrow noFail s s0 h0
  have hn1 := (readLoop_frame noFail _ _ _ _ _ _ _ _ h1).1
  unfold csvgetline
  rw [h0]
  simp only [h1]
  by_cases hrow : s1.nrow = 0
  · obtain ⟨⟨n, max, l, ap⟩, hsp⟩ := split_noFail_some
      ((Option.map (fun b => wr b (0 + (lineOf fin).length) 0) s1.line).getD []) s1.maxkey
      (s1.kline.getD []) (s1.key.getD [])
    simp only [hrow, if_true, hsp]
    omega
  · obtain ⟨⟨n, max, l, ap⟩, hsp⟩ := split_noFail_some
      ((Option.map (fun b => wr b (0 + (lineOf fin).length) 0) s1.line).getD []) s1.maxfield
      (s1.sline.getD []) (s1.field.getD [])
    simp only [hrow, if_false, hsp]
    omega

theorem firstAlloc_noFail_line (s s0 : State) (h : firstAlloc noFail s = some s0) :
    s0.line ≠ none := by
  unfold firstAlloc at h
  by_cases hl : s.line = none
  · rw [if_pos hl] at h
    simp only [noFail, Bool.and_self, if_true, Option.some.injEq] at h
    rw [← h]
    simp
  · rw [if_neg hl] at h
    simp only [Option.some.injEq] at h
    rw [← h]
    exact hl

/-- With allocations that succeed, a call of `csvgetline` leaves `line` allocated. -/
theorem csvgetline_noFail_line (s : State) (fin : List Nat) :
    (csvgetline noFail s fin).2.1.line ≠ none := by
  obtain ⟨s0, h0⟩ := firstAlloc_noFail_some s
  obtain ⟨s1, h1⟩ := readLoop_noFail_done (fin.length + 1) s0 fin 0 (Nat.lt_succ_self _)
  have hl0 := firstAlloc_noFail_line s s0 h0
  have hl1 := (readLoop_frame noFail _ _ _ _ _ _ _ _ h1).2.2.2.2.2.2.2.2 hl0
  unfold csvgetline
  rw [h0]
  simp only [h1]
  by_cases hrow : s1.nrow = 0
  · obtain ⟨⟨n, max, l, ap⟩, hsp⟩ := split_noFail_some
      ((Option.map (fun b => wr b (0 + (lineOf fin).length) 0) s1.line).getD []) s1.maxkey
      (s1.kline.getD []) (s1.key.getD [])
    simp only [hrow, if_true, hsp]
    exact map_wr_ne_none _ _ _ hl1
  · obtain ⟨⟨n, max, l, ap⟩, hsp⟩ := split_noFail_some
      ((Option.map (fun b => wr b (0 + (lineOf fin).length) 0) s1.line).getD []) s1.maxfield
      (s1.sline.getD []) (s1.field.getD [])
    simp only [hrow, if_false, hsp]
    exact map_wr_ne_none _ _ _ hl1

/-- With allocations that succeed, a call of `csvgetline` when a row has been read before
leaves the keys as they were. -/
theorem csvgetline_keys_same (s : State) (fin : List Nat) (hrow : s.nrow ≠ 0)
    (hline : s.line ≠ none) :
    (csvgetline noFail s fin).2.1.nrow = (s.nrow + 1) % 4294967296 ∧
      (csvgetline noFail s fin).2.1.line ≠ none ∧
      (csvgetline noFail s fin).2.1.nkey = s.nkey ∧
      (csvgetline noFail s fin).2.1.key = s.key ∧
      (csvgetline noFail s fin).2.1.kline = s.kline ∧
      (csvgetline noFail s fin).2.1.maxkey = s.maxkey := by
  rcases csvgetline_keys_frame noFail s fin hrow hline with h | h
  · have := csvgetline_noFail_line s fin
    rw [h] at this
    exact absurd rfl this
  · exact h

theorem keys_congr (s s1 : State) (h1 : s1.nkey = s.nkey) (h2 : s1.key = s.key)
    (h3 : s1.kline = s.kline) : keys s1 = keys s := by
  unfold keys
  rw [h1, h2, h3]

/-- At the end of the stream with a row read before, under any allocator: `NULL` is
returned, no field is left, and every lookup fails. -/
theorem csvgetline_eof_row (alloc : Nat → Bool) (s : State) (hrow : s.nrow ≠ 0) :
    (csvgetline alloc s []).2.1.nfield = 0 := by
  unfold csvgetline
  cases hf : firstAlloc alloc s with
  | none => rfl
  | some s0 =>
    have hr : s0.nrow ≠ 0 := by rw [firstAlloc_nrow alloc s s0 hf]; exact hrow
    simp only [List.length_nil, Nat.zero_add, readLoop_eof, if_neg hr]
    rw [split_empty _ _ _ _ _ (rd_line_zero s0.line)]

theorem csvfield_none_of_nfield (s : State) (h : s.nfield = 0) (n : Int) :
    csvfield s n = none := by
  unfold csvfield
  rw [h]
  exact if_pos (by omega)

theorem csvkey_none_of_nfield (s : State) (h : s.nfield = 0) (k : List Nat) :
    csvkey s k = none := by
  unfold csvkey
  rw [h]
  have : (if s.nkey < 0 then s.nkey else 0) = 0 := by
    rw [if_neg (by omega)]
  simp only [this]
  rfl

theorem afterCalls_eof (alloc : Nat → Bool) (s : State) : ∀ k : Nat,
    (afterCalls alloc k s []).2 = [] := by
  intro k
  induction k with
  | zero => rfl
  | succ k ih =>
    simp only [afterCalls]
    rw [ih]
    exact (csvgetline_eof alloc _).2

/-- Successive calls with allocations that succeed, when a row has been read before, leave
the keys as they were as long as the row count does not wrap. -/
theorem afterCalls_keys (s : State) (fin : List Nat) (hrow : s.nrow ≠ 0)
    (hline : s.line ≠ none) : ∀ k : Nat, s.nrow + k ≤ 4294967296 →
    (afterCalls noFail k s fin).1.nrow % 4294967296 = (s.nrow + k) % 4294967296 ∧
    (afterCalls noFail k s fin).1.line ≠ none ∧
    (afterCalls noFail k s fin).1.nkey = s.nkey ∧ (afterCalls noFail k s fin).1.key = s.key ∧
    (afterCalls noFail k s fin).1.kline = s.kline := by
  intro k
  induction k with
  | zero =>
    intro hk
    exact ⟨rfl, hline, rfl, rfl, rfl⟩
  | succ k ih =>
    intro hk
    obtain ⟨h1, h2, h3, h4, h5⟩ := ih (by omega)
    obtain ⟨g1, g2, g3, g4, g5, _⟩ :=
      csvgetline_keys_same (afterCalls noFail k s fin).1 (afterCalls noFail k s fin).2
        (by omega) h2
    simp only [afterCalls]
    exact ⟨by rw [g1]; omega, g2, by rw [g3, h3], by rw [g4, h4], by rw [g5, h5]⟩

/-- The first line read on a fresh session, when no allocation fails, is the header. -/
theorem first_line_header (fin l : List Nat) (s1 : State) (fin1 : List Nat)
    (h : csvgetline noFail State.init fin = (some l, s1, fin1)) :
    splitLine noFail l = some (keys s1) ∧ s1.nfield = 0 ∧ s1.nrow = 1 := by
  obtain ⟨s2, h2, _, h4, _, h6, _⟩ := csvgetline_spec State.init fin (Or.inl rfl)
  rw [h] at h2
  by_cases hfin : fin = []
  · rw [if_pos hfin] at h2; simp at h2
  · rw [if_neg hfin] at h2
    simp only [Prod.mk.injEq, Option.some.injEq] at h2
    obtain ⟨hl, hs2, _⟩ := h2
    subst hs2
    have hk := h6 rfl
    refine ⟨?_, hk.2, by rw [h4]; rfl⟩
    rw [hk.1, ← hl]
    exact splitLine_eq l (by rw [hl]; exact cline_nz _)

/-! ## Where `advquoted` stops -/

theorem quote_text (v : List Nat) :
    quote v = [34] ++ (v.flatMap (fun c => if c = 34 then [34, 34] else [c]) ++ [34]) := rfl

theorem cline_length_le (fin : List Nat) : (cline fin).length ≤ (lineOf fin).length :=
  (List.takeWhile_sublist _).length_le

theorem pow2_mul (m e : Nat) (h : ∃ a, m = 2 ^ a) : ∃ a, m * 2 ^ e = 2 ^ a := by
  obtain ⟨a, ha⟩ := h
  exact ⟨a + e, by rw [ha, pow_add]⟩

theorem caps_first :
    Caps (State.mk (some [0]) (some [0]) (some [0]) 1 (some [0]) (some [0]) 1 1 0 0 0) := by
  refine ⟨alloc_first, ⟨0, rfl⟩, ⟨0, rfl⟩, ⟨0, rfl⟩, Nat.zero_le _, Nat.zero_le _, ?_⟩
  decide

/-- One call of `csvgetline` on an allocated session, when no allocation fails, keeps the
capacities in order, as long as the row count does not wrap, and does not shrink them. -/
theorem csvgetline_caps (s : State) (fin : List Nat) (hs : Caps s) :
    (s.nrow + 1 < 4294967296 → Caps (csvgetline noFail s fin).2.1) ∧
      s.maxline ≤ (csvgetline noFail s fin).2.1.maxline ∧
      s.maxfield ≤ (csvgetline noFail s fin).2.1.maxfield ∧
      s.maxkey ≤ (csvgetline noFail s fin).2.1.maxkey ∧
      (lineOf fin).length < (csvgetline noFail s fin).2.1.maxline ∧
      ((csvgetline noFail s fin).2.1.sline.getD []).length =
        (csvgetline noFail s fin).2.1.maxline ∧
      (s.nrow = 0 → ((csvgetline noFail s fin).2.1.kline.getD []).length =
        (csvgetline noFail s fin).2.1.maxline) := by
  obtain ⟨line, sline, kline, m, field, key, mf, mk, nf, nk, nr⟩ := s
  obtain ⟨⟨a1, a2, a3, a4, a5, a6, a7, a8, a9⟩, p1, p2, p3, c1, c2, _⟩ := hs
  simp only at a1 a2 a3 a4 a5 a6 a7 a8 a9 p1 p2 p3 c1 c2
  cases line with
  | none => simp at a1; omega
  | some ln =>
  cases sline with
  | none => simp at a2; omega
  | some sl =>
  cases kline with
  | none => exact absurd rfl a3
  | some kl =>
  cases field with
  | none => simp at a5; omega
  | some fd =>
  cases key with
  | none => simp at a6; omega
  | some ky =>
  simp only [Option.getD_some] at a1 a2 a4 a5 a6
  have hle : ∀ (x e : Nat), x ≤ x * 2 ^ e := fun x e =>
    Nat.le_mul_of_pos_right _ (by positivity)
  by_cases hnr : nr = 0
  · subst hnr
    obtain ⟨ln1, sl1, kl1, ky1, e, e1, h1, h2, h3, h4, h5, h6, h7, h8, _, _, _⟩ :=
      csvgetline_header_spec fin ln sl kl fd ky m mf mk nf nk a1 a2 (a4 rfl) a6 a7 a9
    rw [h1]
    simp only [Option.getD_some]
    refine ⟨fun _ => ⟨⟨h2, h3, by simp, fun h => by simp at h, a5, h5,
      Nat.le_trans a7 (hle m e), a8,
      Nat.le_trans a9 (hle mk e1)⟩, pow2_mul m e p1, p2, pow2_mul mk e1 p3, c1, h7, ?_⟩,
      hle m e, Nat.le_refl _, hle mk e1, h6, h3, fun _ => h4⟩
    simp only [Option.getD_some]
    rw [h8]
    exact Nat.lt_of_le_of_lt (cline_length_le fin) h6
  · obtain ⟨ln1, sl1, fd1, e, e1, h1, h2, h3, h4, h5, h6, h7, _, _⟩ :=
      csvgetline_row_spec fin ln sl kl fd ky m mf mk nf nk nr hnr a1 a2 a5 a7 a8
    rw [h1]
    simp only [Option.getD_some]
    refine ⟨fun hb => ⟨⟨h2, h3, by simp, fun h => by simp only at h hb; omega, h4, a6,
      Nat.le_trans a7 (hle m e),
      Nat.le_trans a8 (hle mf e1), a9⟩, pow2_mul m e p1, pow2_mul mf e1 p2, p3, h6, c2, ?_⟩,
      hle m e, hle mf e1, Nat.le_refl _, h5, h3, fun h => absurd h hnr⟩
    simp only [Option.getD_some]
    rw [h7]
    exact Nat.lt_of_le_of_lt (cline_length_le fin) h5

theorem sizeOfInt_small (n : Nat) (h : n < 2147483648) : sizeOfInt n = n := by
  unfold sizeOfInt
  rw [Nat.mod_eq_of_lt (by omega), if_pos h]

theorem sizeOfInt_wrapped : sizeOfInt 2147483648 = 18446744071562067968 := by
  decide

theorem growLine_maxline (alloc : Nat → Bool) (s s1 : State) (h : growLine alloc s = some s1) :
    s1.maxline = s.maxline * 2 := by
  unfold growLine at h
  by_cases ha : alloc (sizeOfInt (s.maxline * 2)) = true
  · by_cases hr : s.nrow = 0
    · simp only [ha, hr, Bool.not_true, Bool.false_eq_true, if_false, beq_self_eq_true,
        if_true, Option.some.injEq] at h
      rw [← h]
    · have hr2 : (s.nrow == 0) = false := by simpa using hr
      simp only [ha, hr2, Bool.not_true, Bool.false_eq_true, if_false,
        Option.some.injEq] at h
      rw [← h]
  · simp [ha] at h

/-- The doubling of `maxline` from `2 ^ 30` fails under an allocator that refuses the
`2 ^ 64 - 2 ^ 31` bytes the wrapped `int` converts to. -/
theorem growLine_overflow (alloc : Nat → Bool) (s : State)
    (ha : alloc 18446744071562067968 = false) (hm : s.maxline = 1073741824) :
    growLine alloc s = none := by
  unfold growLine
  simp only [hm]
  have e : sizeOfInt (1073741824 * 2) = 18446744071562067968 := by decide
  rw [e, ha]
  rfl

/-- A line of `2 ^ 30` bytes or more cannot be stored: the read loop ends in an allocation
failure, under every allocator that refuses `2 ^ 64 - 2 ^ 31` bytes. -/
theorem readLoop_overflow (alloc : Nat → Bool) (ha : alloc 18446744071562067968 = false) :
    ∀ (fuel : Nat) (s : State) (fin : List Nat) (i : Nat) (k : Nat),
    fin.length < fuel → s.maxline = 2 ^ k → k ≤ 30 → i < s.maxline →
    1073741824 ≤ i + (lineOf fin).length →
    ∃ f, readLoop alloc fuel s fin i = .nomem f := by
  intro fuel
  induction fuel with
  | zero => intro s fin i k h; omega
  | succ fuel ih =>
    intro s fin i k hfuel hm hk hi hlen
    have h30 : (2 : Nat) ^ 30 = 1073741824 := by norm_num
    have hle : s.maxline ≤ 1073741824 := by
      rw [hm, ← h30]; exact Nat.pow_le_pow_right (by omega) hk
    cases fin with
    | nil => simp only [lineOf, List.takeWhile_nil, List.length_nil] at hlen; omega
    | cons c rest =>
      simp only [List.length_cons] at hfuel
      by_cases hc : isEol c = true
      · rw [lineOf_eol c rest hc] at hlen
        simp only [List.length_nil] at hlen; omega
      · have hc' : isEol c = false := by simpa using hc
        rw [lineOf_byte c rest hc', List.length_cons] at hlen
        rw [readLoop_byte _ _ _ _ _ _ hc']
        by_cases hgrow : i ≥ s.maxline - 1
        · rw [if_pos hgrow]
          cases hg : growLine alloc s with
          | none => exact ⟨rest, rfl⟩
          | some s1 =>
            have hm1 := growLine_maxline alloc s s1 hg
            have hk30 : k ≠ 30 := by
              intro e
              rw [e, h30] at hm
              rw [growLine_overflow alloc s ha hm] at hg
              exact absurd hg (by simp)
            have hm2 : s1.maxline = 2 ^ (k + 1) := by rw [hm1, hm, pow_succ]
            exact ih _ rest (i + 1) (k + 1) (by omega) hm2 (by omega)
              (by show i + 1 < s1.maxline; omega) (by omega)
        · rw [if_neg hgrow]
          exact ih _ rest (i + 1) k (by omega) hm hk (by show i + 1 < s.maxline; omega)
            (by omega)

theorem lineOf_replicate (n : Nat) (c : Nat) (rest : List Nat) (hc : isEol c = false) :
    lineOf (List.replicate n c ++ rest) = List.replicate n c ++ lineOf rest := by
  induction n with
  | zero => rfl
  | succ n ih =>
    rw [List.replicate_succ, List.cons_append, lineOf_byte c _ hc, ih, List.cons_append]

theorem afterLine_replicate (n : Nat) (c : Nat) (rest : List Nat) (hc : isEol c = false) :
    afterLine (List.replicate n c ++ rest) = afterLine rest := by
  induction n with
  | zero => rfl
  | succ n ih =>
    rw [List.replicate_succ, List.cons_append, afterLine_byte c _ hc, ih]

theorem cutLines_replicate (n : Nat) :
    cutLines (List.replicate n 97 ++ [10]) = [List.replicate n 97] := by
  have e1 : lineOf [10] = [] := by decide
  have e2 : afterLine [10] = [] := by decide
  have e3 : cutLines [] = [] := by decide
  rw [cutLines_eq _ (List.append_ne_nil_of_right_ne_nil _ (List.cons_ne_nil _ _)),
    lineOf_replicate n 97 [10] (by decide), afterLine_replicate n 97 [10] (by decide), e1, e2,
    e3, List.append_nil]

/-- On a fresh session, a first line of `2 ^ 30` bytes or more makes `csvgetline` return
`NULL` and reset the session, under every allocator that refuses `2 ^ 64 - 2 ^ 31` bytes. -/
theorem csvgetline_overflow (alloc : Nat → Bool) (ha : alloc 18446744071562067968 = false)
    (fin : List Nat) (hlen : 1073741824 ≤ (lineOf fin).length) :
    (csvgetline alloc State.init fin).1 = none ∧
      (csvgetline alloc State.init fin).2.1 = State.init := by
  unfold csvgetline
  cases h0 : firstAlloc alloc State.init with
  | none => exact ⟨rfl, rfl⟩
  | some s0 =>
    have hm : s0.maxline = 2 ^ 0 := by
      simp only [firstAlloc, State.init, if_true] at h0
      split at h0
      · simp only [Option.some.injEq] at h0
        rw [← h0]; rfl
      · exact absurd h0 (by simp)
    obtain ⟨f, hf⟩ := readLoop_overflow alloc ha (fin.length + 1) s0 fin 0 0
      (Nat.lt_succ_self _) hm (by omega) (by rw [hm]; norm_num) (by omega)
    simp only [hf]
    exact ⟨trivial, rfl⟩

/-! ## Lines shorter than `2 ^ 30` bytes: no request reaches `2 ^ 63` bytes

Under an allocator that serves every request below `2 ^ 63` bytes, a call of `csvgetline`
on a line shorter than `2 ^ 30` bytes does what it does when nothing fails, and `maxline`
stays below `2 ^ 31`. -/

theorem noFail_serves : Serves noFail := fun _ _ => rfl

theorem wordHeap_serves : Serves wordHeap := by
  intro n h
  unfold wordHeap
  exact decide_eq_true h

theorem firstAlloc_agree (alloc : Nat → Bool) (ha : Serves alloc) (s : State) :
    firstAlloc alloc s = firstAlloc noFail s := by
  unfold firstAlloc
  by_cases h : s.line = none
  · rw [if_pos h, if_pos h]
    simp only [ha 1 (by omega), ha (1 * sizeofPtr) (by decide), noFail]
  · rw [if_neg h, if_neg h]

theorem growLine_agree (alloc : Nat → Bool) (ha : Serves alloc) (s : State)
    (h : s.maxline * 2 < 2147483648) : growLine alloc s = growLine noFail s := by
  have e : alloc (sizeOfInt (s.maxline * 2)) = true := by
    rw [sizeOfInt_small _ h]; exact ha _ (by omega)
  unfold growLine
  simp only [e, noFail]

theorem readLoop_agree (alloc : Nat → Bool) (ha : Serves alloc) :
    ∀ (fuel : Nat) (s : State) (fin : List Nat) (i : Nat),
    i + (lineOf fin).length < 1073741824 →
    readLoop alloc fuel s fin i = readLoop noFail fuel s fin i := by
  intro fuel
  induction fuel with
  | zero => intro s fin i _; rfl
  | succ fuel ih =>
    intro s fin i hlen
    cases fin with
    | nil => rw [readLoop_eof, readLoop_eof]
    | cons c rest =>
      by_cases hc : isEol c = true
      · rw [readLoop_eol _ _ _ _ _ _ hc, readLoop_eol _ _ _ _ _ _ hc]
      · have hc' : isEol c = false := by simpa using hc
        rw [lineOf_byte c rest hc', List.length_cons] at hlen
        rw [readLoop_byte _ _ _ _ _ _ hc', readLoop_byte _ _ _ _ _ _ hc']
        by_cases hgrow : i ≥ s.maxline - 1
        · rw [if_pos hgrow, if_pos hgrow, growLine_agree alloc ha s (by omega)]
          cases growLine noFail s with
          | none => rfl
          | some s1 => exact ih _ rest (i + 1) (by omega)
        · rw [if_neg hgrow, if_neg hgrow]
          exact ih _ rest (i + 1) (by omega)

/-- The read loop keeps `maxline` below `2 ^ 31` on a line shorter than `2 ^ 30` bytes. -/
theorem readLoop_bound (alloc : Nat → Bool) : ∀ (fuel : Nat) (s : State) (fin : List Nat)
    (i : Nat) (s1 : State) (fin1 : List Nat) (i1 : Nat) (c : Option Nat),
    readLoop alloc fuel s fin i = .done s1 fin1 i1 c → s.maxline < 2147483648 →
    i + (lineOf fin).length < 1073741824 → s1.maxline < 2147483648 := by
  intro fuel
  induction fuel with
  | zero =>
    intro s fin i s1 fin1 i1 c h hm _
    simp only [readLoop, ReadExit.done.injEq] at h
    rw [← h.1]; exact hm
  | succ fuel ih =>
    intro s fin i s1 fin1 i1 c h hm hlen
    cases fin with
    | nil =>
      rw [readLoop_eof] at h
      simp only [ReadExit.done.injEq] at h
      rw [← h.1]; exact hm
    | cons d rest =>
      by_cases hd : isEol d = true
      · rw [readLoop_eol _ _ _ _ _ _ hd] at h
        simp only [ReadExit.done.injEq] at h
        rw [← h.1]; exact hm
      · have hd' : isEol d = false := by simpa using hd
        rw [lineOf_byte d rest hd', List.length_cons] at hlen
        rw [readLoop_byte _ _ _ _ _ _ hd'] at h
        by_cases hgrow : i ≥ s.maxline - 1
        · rw [if_pos hgrow] at h
          cases hg : growLine alloc s with
          | none => rw [hg] at h; simp at h
          | some s2 =>
            rw [hg] at h
            have hm2 := growLine_maxline alloc s s2 hg
            exact ih _ _ _ _ _ _ _ h (by show s2.maxline < 2147483648; omega) (by omega)
        · rw [if_neg hgrow] at h
          exact ih _ _ _ _ _ _ _ h hm (by omega)

theorem advquotedLoop_length : ∀ (fuel : Nat) (buf : List Nat) (p i j : Nat),
    (advquotedLoop fuel buf p i j).1.length = buf.length := by
  intro fuel
  induction fuel with
  | zero => intro buf p i j; rfl
  | succ fuel ih =>
    intro buf p i j
    rw [advquotedLoop]
    by_cases h0 : rd buf (p + j) = 0
    · rw [if_pos h0]
    · rw [if_neg h0]
      by_cases hq : rd buf (p + j) = 34
      · simp only [hq, if_true, true_and]
        by_cases hq2 : rd buf (p + (j + 1)) = 34
        · simp only [hq2, ne_eq, not_true_eq_false, if_false]
          rw [ih, length_wr]
        · simp only [hq2, ne_eq, not_false_eq_true, if_true]
          exact length_writeAt _ _ _
      · simp only [hq, if_false, false_and]
        rw [ih, length_wr]

theorem scanField_length (l : List Nat) (p : Nat) : (scanField l p).1.length = l.length := by
  unfold scanField
  by_cases h : rd l p = 34
  · rw [if_pos h]
    unfold advquoted
    simp only
    rw [length_wr, advquotedLoop_length]
  · rw [if_neg h]

theorem scanField_ge (l : List Nat) (p : Nat) : p ≤ (scanField l p).2.2 := by
  unfold scanField
  by_cases h : rd l p = 34
  · rw [if_pos h]
    unfold advquoted
    simp only
    omega
  · rw [if_neg h]
    simp only
    omega

theorem growPtrs_agree (alloc : Nat → Bool) (ha : Serves alloc) (n max : Nat) (ap : List Nat)
    (h : n ≥ max → max * 2 * sizeofPtr < 9223372036854775808) :
    growPtrs alloc n max ap = growPtrs noFail n max ap := by
  unfold growPtrs
  by_cases hn : n ≥ max
  · rw [if_pos hn, if_pos hn, ha _ (h hn)]
    rfl
  · rw [if_neg hn, if_neg hn]

theorem splitLoop_agree (alloc : Nat → Bool) (ha : Serves alloc) :
    ∀ (fuel n max : Nat) (l ap : List Nat) (p : Nat),
    n ≤ p → p ≤ l.length → l.length < 2147483648 →
    splitLoop alloc fuel n max l ap p = splitLoop noFail fuel n max l ap p := by
  intro fuel
  induction fuel with
  | zero => intro n max l ap p _ _ _; rfl
  | succ fuel ih =>
    intro n max l ap p hn hp hl
    rw [splitLoop, splitLoop, growPtrs_agree alloc ha n max ap
      (by intro h; unfold sizeofPtr; omega)]
    cases growPtrs noFail n max ap with
    | none => rfl
    | some g =>
      obtain ⟨max1, ap1⟩ := g
      simp only
      by_cases hs : rd (scanField l p).1 (scanField l p).2.2 = 44
      · rw [if_pos hs, if_pos hs]
        have hlt : (scanField l p).2.2 < (scanField l p).1.length :=
          lt_of_rd_ne _ _ (by rw [hs]; decide)
        have hge := scanField_ge l p
        have hlen := scanField_length l p
        refine ih _ _ _ _ _ ?_ ?_ ?_
        · exact Nat.succ_le_succ (Nat.le_trans hn hge)
        · rw [length_wr]; exact hlt
        · rw [length_wr]; exact Nat.lt_of_le_of_lt (Nat.le_of_eq hlen) hl
      · rw [if_neg hs, if_neg hs]

theorem split_agree (alloc : Nat → Bool) (ha : Serves alloc) (line : List Nat) (max : Nat)
    (l ap : List Nat) (hl : l.length < 2147483648) :
    split alloc line max l ap = split noFail line max l ap := by
  unfold split
  by_cases h0 : rd line 0 = 0
  · rw [if_pos h0, if_pos h0]
  · rw [if_neg h0, if_neg h0]
    exact splitLoop_agree alloc ha _ _ _ _ _ _ (Nat.le_refl _) (Nat.zero_le _)
      (by unfold strcpy; rw [length_writeAt]; exact hl)

/-! ## The `int` capacities of the pointer arrays -/

theorem growPtrs_max (alloc : Nat → Bool) (n max : Nat) (ap : List Nat) (g : Nat × List Nat)
    (h : growPtrs alloc n max ap = some g) : g.1 = max ∨ (g.1 = max * 2 ∧ max ≤ n) := by
  unfold growPtrs at h
  by_cases hn : n ≥ max
  · rw [if_pos hn] at h
    by_cases ha : alloc (max * 2 * sizeofPtr) = true
    · simp only [ha, Bool.not_true, Bool.false_eq_true, if_false, Option.some.injEq] at h
      rw [← h]
      exact Or.inr ⟨rfl, hn⟩
    · simp [ha] at h
  · rw [if_neg hn] at h
    simp only [Option.some.injEq] at h
    rw [← h]
    exact Or.inl rfl

/-- The loop of `split` doubles `*max` only when it stores a field whose index has reached
it: the final `*max` is the one it started with, or at most twice the index of the last
field. -/
theorem splitLoop_max_le (alloc : Nat → Bool) : ∀ (fuel n max : Nat) (l ap : List Nat)
    (p : Nat) (r : Nat × Nat × List Nat × List Nat),
    splitLoop alloc fuel n max l ap p = some r →
    n ≤ r.1 ∧ (r.2.1 ≤ max ∨ r.2.1 + 2 ≤ 2 * r.1) := by
  intro fuel
  induction fuel with
  | zero =>
    intro n max l ap p r h
    simp only [splitLoop, Option.some.injEq] at h
    rw [← h]
    exact ⟨Nat.le_refl _, Or.inl (Nat.le_refl _)⟩
  | succ fuel ih =>
    intro n max l ap p r h
    rw [splitLoop] at h
    cases hg : growPtrs alloc n max ap with
    | none => rw [hg] at h; simp at h
    | some g =>
      rw [hg] at h
      have hm := growPtrs_max alloc n max ap g hg
      obtain ⟨max1, ap1⟩ := g
      simp only at h hm
      by_cases hs : rd (scanField l p).1 (scanField l p).2.2 = 44
      · rw [if_pos hs] at h
        obtain ⟨h1, h2⟩ := ih _ _ _ _ _ _ h
        refine ⟨by omega, ?_⟩
        rcases h2 with h2 | h2
        · rcases hm with hm | ⟨hm, hle⟩
          · left; omega
          · right; omega
        · right; exact h2
      · rw [if_neg hs] at h
        simp only [Option.some.injEq] at h
        rw [← h]
        refine ⟨by simp, ?_⟩
        rcases hm with hm | ⟨hm, hle⟩
        · left; simp only; omega
        · right; simp only; omega

theorem split_max_le (alloc : Nat → Bool) (line : List Nat) (max : Nat) (l ap : List Nat)
    (r : Nat × Nat × List Nat × List Nat) (h : split alloc line max l ap = some r) :
    r.2.1 ≤ max ∨ r.2.1 + 2 ≤ 2 * r.1 := by
  unfold split at h
  by_cases h0 : rd line 0 = 0
  · rw [if_pos h0] at h
    simp only [Option.some.injEq] at h
    rw [← h]
    exact Or.inl (Nat.le_refl _)
  · rw [if_neg h0] at h
    exact (splitLoop_max_le alloc _ _ _ _ _ _ _ h).2

theorem fieldsOf_length_le (s : List Nat) : (fieldsOf s).length ≤ s.length + 1 := by
  unfold fieldsOf
  by_cases h : s = []
  · rw [if_pos h]; simp
  · rw [if_neg h]
    have := (sum_fieldsFrom (s.length + 1) s (Nat.lt_succ_self _)).1
    omega

theorem firstAlloc_maxptrs (alloc : Nat → Bool) (s s0 : State)
    (h : firstAlloc alloc s = some s0) :
    (s0.maxfield = s.maxfield ∨ s0.maxfield = 1) ∧ (s0.maxkey = s.maxkey ∨ s0.maxkey = 1) := by
  unfold firstAlloc at h
  by_cases hl : s.line = none
  · rw [if_pos hl] at h
    simp only at h
    split at h
    · injection h with h; rw [← h]; exact ⟨Or.inr rfl, Or.inr rfl⟩
    · exact absurd h (by simp)
  · rw [if_neg hl] at h
    injection h with h; rw [← h]; exact ⟨Or.inl rfl, Or.inl rfl⟩

/-- A call of `csvgetline`, when no allocation fails, leaves the size of the pointer array
it does not use as it was, and the size of the one it uses as it was or at most twice the
index of the last field. -/
theorem csvgetline_maxptrs (s : State) (fin : List Nat) :
    (s.nrow = 0 →
      ((csvgetline noFail s fin).2.1.maxfield = s.maxfield ∨
        (csvgetline noFail s fin).2.1.maxfield = 1) ∧
      ((csvgetline noFail s fin).2.1.maxkey ≤ s.maxkey ∨
        (csvgetline noFail s fin).2.1.maxkey ≤ 1 ∨
        (csvgetline noFail s fin).2.1.maxkey + 2 ≤ 2 * (csvgetline noFail s fin).2.1.nkey)) ∧
    (s.nrow ≠ 0 →
      ((csvgetline noFail s fin).2.1.maxkey = s.maxkey ∨
        (csvgetline noFail s fin).2.1.maxkey = 1) ∧
      ((csvgetline noFail s fin).2.1.maxfield ≤ s.maxfield ∨
        (csvgetline noFail s fin).2.1.maxfield ≤ 1 ∨
        (csvgetline noFail s fin).2.1.maxfield + 2 ≤
          2 * (csvgetline noFail s fin).2.1.nfield)) := by
  obtain ⟨s0, h0⟩ := firstAlloc_noFail_some s
  obtain ⟨s1, h1⟩ := readLoop_noFail_done (fin.length + 1) s0 fin 0 (Nat.lt_succ_self _)
  obtain ⟨a1, a2⟩ := firstAlloc_maxptrs noFail s s0 h0
  have hn0 := firstAlloc_nrow noFail s s0 h0
  obtain ⟨f1, _, _, f4, _, _, f7, _, _⟩ := readLoop_frame noFail _ _ _ _ _ _ _ _ h1
  unfold csvgetline
  rw [h0]
  simp only [h1]
  by_cases hrow : s1.nrow = 0
  · obtain ⟨⟨n, max, l, ap⟩, hsp⟩ := split_noFail_some
      ((Option.map (fun b => wr b (0 + (lineOf fin).length) 0) s1.line).getD []) s1.maxkey
      (s1.kline.getD []) (s1.key.getD [])
    have hb := split_max_le noFail _ _ _ _ _ hsp
    simp only [hrow, if_true, hsp]
    simp only at hb
    refine ⟨fun _ => ⟨by omega, by omega⟩, fun h => ?_⟩
    omega
  · obtain ⟨⟨n, max, l, ap⟩, hsp⟩ := split_noFail_some
      ((Option.map (fun b => wr b (0 + (lineOf fin).length) 0) s1.line).getD []) s1.maxfield
      (s1.sline.getD []) (s1.field.getD [])
    have hb := split_max_le noFail _ _ _ _ _ hsp
    simp only [hrow, if_false, hsp]
    simp only at hb
    refine ⟨fun h => ?_, fun _ => ⟨by omega, by omega⟩⟩
    omega

/-- A call of `csvgetline` on a line shorter than `2 ^ 30` bytes, when no allocation fails,
keeps `maxfield` and `maxkey` below `2 ^ 31`. -/
theorem csvgetline_maxptrs_lt (s : State) (fin : List Nat) (hs : Inv s)
    (hf : s.maxfield < 2147483648) (hk : s.maxkey < 2147483648)
    (hl : (lineOf fin).length < 1073741824) :
    (csvgetline noFail s fin).2.1.maxfield < 2147483648 ∧
      (csvgetline noFail s fin).2.1.maxkey < 2147483648 := by
  obtain ⟨s1, h1, _, _, _, h5, h6⟩ := csvgetline_spec s fin hs
  have hs1 : (csvgetline noFail s fin).2.1 = s1 := by rw [h1]
  have hcnt : (fieldsOf (cline fin)).length ≤ 1073741824 := by
    have := fieldsOf_length_le (cline fin)
    have := cline_length_le fin
    omega
  obtain ⟨g0, g1⟩ := csvgetline_maxptrs s fin
  rw [hs1] at g0 g1 ⊢
  by_cases hrow : s.nrow = 0
  · obtain ⟨b1, b2⟩ := g0 hrow
    have hn : s1.nkey = (fieldsOf (cline fin)).length := by
      rw [← (h5 hrow).1]
      unfold keys
      rw [ptrStrs_length]
    constructor <;> omega
  · obtain ⟨b1, b2⟩ := g1 hrow
    have hn : s1.nfield = (fieldsOf (cline fin)).length := by
      rw [← (h6 hrow).1]
      unfold fields
      rw [ptrStrs_length]
    constructor <;> omega

theorem firstAlloc_maxline (alloc : Nat → Bool) (s s0 : State)
    (h : firstAlloc alloc s = some s0) (hm : s.maxline < 2147483648) :
    s0.maxline < 2147483648 := by
  unfold firstAlloc at h
  by_cases hl : s.line = none
  · rw [if_pos hl] at h
    simp only at h
    split at h
    · injection h with h; rw [← h]; exact (by decide : (1 : Nat) < 2147483648)
    · exact absurd h (by simp)
  · rw [if_neg hl] at h
    injection h with h; rw [← h]; exact hm

/-- A call of `csvgetline` on a line shorter than `2 ^ 30` bytes, when no allocation fails,
keeps `maxline` below `2 ^ 31`. -/
theorem csvgetline_maxline_lt (s : State) (fin : List Nat) (hm : s.maxline < 2147483648)
    (hl : (lineOf fin).length < 1073741824) :
    (csvgetline noFail s fin).2.1.maxline < 2147483648 := by
  obtain ⟨s0, h0⟩ := firstAlloc_noFail_some s
  obtain ⟨s1, h1⟩ := readLoop_noFail_done (fin.length + 1) s0 fin 0 (Nat.lt_succ_self _)
  have hm0 := firstAlloc_maxline noFail s s0 h0 hm
  have hm1 := readLoop_bound noFail _ _ _ _ _ _ _ _ h1 hm0 (by omega)
  unfold csvgetline
  rw [h0]
  simp only [h1]
  by_cases hrow : s1.nrow = 0
  · obtain ⟨⟨n, max, l, ap⟩, hsp⟩ := split_noFail_some
      ((Option.map (fun b => wr b (0 + (lineOf fin).length) 0) s1.line).getD []) s1.maxkey
      (s1.kline.getD []) (s1.key.getD [])
    simp only [hrow, if_true, hsp]
    exact hm1
  · obtain ⟨⟨n, max, l, ap⟩, hsp⟩ := split_noFail_some
      ((Option.map (fun b => wr b (0 + (lineOf fin).length) 0) s1.line).getD []) s1.maxfield
      (s1.sline.getD []) (s1.field.getD [])
    simp only [hrow, if_false, hsp]
    exact hm1

theorem csvgetline_agree_alloc (alloc : Nat → Bool) (ha : Serves alloc) (s : State)
    (fin : List Nat) (hs : Alloc s) (hm : s.maxline < 2147483648)
    (hl : (lineOf fin).length < 1073741824) :
    csvgetline alloc s fin = csvgetline noFail s fin := by
  obtain ⟨line, sline, kline, m, field, key, mf, mk, nf, nk, nr⟩ := s
  obtain ⟨a1, a2, a3, a4, a5, a6, a7, a8, a9⟩ := hs
  simp only at a1 a2 a3 a4 a5 a6 a7 a8 a9 hm
  cases line with
  | none => simp at a1; omega
  | some ln =>
  cases sline with
  | none => simp at a2; omega
  | some sl =>
  cases kline with
  | none => exact absurd rfl a3
  | some kl =>
  simp only [Option.getD_some] at a1 a2 a4
  obtain ⟨ln1, sl1, kl1, e, h1, _, h3, h4, _⟩ :=
    readLoop_spec (fin.length + 1) fin 0 ln sl kl m field key mf mk nf nk nr
      (Nat.lt_succ_self _) a1 a2 a4 (by omega)
  have hb := readLoop_bound noFail _ _ _ _ _ _ _ _ h1 hm (by omega)
  simp only at hb
  unfold csvgetline
  rw [firstAlloc_alloc, firstAlloc_alloc]
  dsimp only
  rw [readLoop_agree alloc ha _ _ _ _ (by omega)]
  simp only [h1, Option.map_some', Option.getD_some]
  by_cases hnr : nr = 0
  · simp only [hnr, if_true]
    rw [split_agree alloc ha _ _ _ _ (by rw [h4 hnr]; exact hb)]
  · simp only [hnr, if_false]
    rw [split_agree alloc ha _ _ _ _ (by rw [h3]; exact hb)]

/-- Under an allocator that serves every request below `2 ^ 63` bytes, a call of
`csvgetline` on a line shorter than `2 ^ 30` bytes is the call in which nothing fails. -/
theorem csvgetline_agree (alloc : Nat → Bool) (ha : Serves alloc) (s : State)
    (fin : List Nat) (hs : Inv s) (hm : s.maxline < 2147483648)
    (hl : (lineOf fin).length < 1073741824) :
    csvgetline alloc s fin = csvgetline noFail s fin := by
  rcases hs with hs | hs
  · subst hs
    have e : csvgetline alloc State.init fin = csvgetline alloc
        (State.mk (some [0]) (some [0]) (some [0]) 1 (some [0]) (some [0]) 1 1 0 0 0) fin := by
      unfold csvgetline
      rw [firstAlloc_agree alloc ha, firstAlloc_noFail_init, firstAlloc_alloc]
    rw [e, csvgetline_init]
    exact csvgetline_agree_alloc alloc ha _ fin alloc_first (by decide) hl
  · exact csvgetline_agree_alloc alloc ha s fin hs hm hl

theorem lineOf_mem_cutLines (fin : List Nat) (h : fin ≠ []) : lineOf fin ∈ cutLines fin := by
  rw [cutLines_eq fin h]
  exact List.mem_cons_self _ _

/-- Successive calls on one stream, under an allocator that serves every request below
`2 ^ 63` bytes, return the stream cut at its terminators, as long as the lines are shorter
than `2 ^ 30` bytes and the row count does not wrap. -/
theorem readLines_serves (alloc : Nat → Bool) (ha : Serves alloc) :
    ∀ (n : Nat) (s : State) (fin : List Nat), Inv s → s.maxline < 2147483648 →
    (∀ c ∈ fin, c ≠ 0) → fin.length < n →
    (∀ l ∈ cutLines fin, l.length < 1073741824) →
    s.nrow + (cutLines fin).length < 4294967296 →
    readLines alloc n s fin = some (cutLines fin) := by
  intro n
  induction n with
  | zero => intro s fin _ _ _ h; omega
  | succ n ih =>
    intro s fin hs hm hnz hn hlines hc
    have hl : (lineOf fin).length < 1073741824 := by
      by_cases hfin : fin = []
      · subst hfin; decide
      · exact hlines _ (lineOf_mem_cutLines fin hfin)
    obtain ⟨s1, h1, h2, h3, _⟩ := csvgetline_spec s fin hs
    have hm1 := csvgetline_maxline_lt s fin hm hl
    rw [h1] at hm1
    rw [cline_eq fin (fun c hc => hnz c (lineOf_subset fin c hc))] at h1
    rw [readLines, csvgetline_agree alloc ha s fin hs hm hl, h1]
    by_cases hfin : fin = []
    · subst hfin; simp [cutLines, cutFrom]
    · simp only [if_neg hfin]
      obtain ⟨pre, hpre⟩ := afterLine_suffix fin
      have hlen := afterLine_length fin hfin
      have hcut := cutLines_eq fin hfin
      rw [hcut, List.length_cons] at hc
      rw [ih s1 (afterLine fin) (Or.inr (h2 (by omega))) hm1
        (fun c hc => hnz c (by rw [hpre]; exact List.mem_append_right _ hc)) (by omega)
        (fun l hl => hlines l (by rw [hcut]; exact List.mem_cons_of_mem _ hl))
        (by rw [h3]; omega)]
      rw [hcut]
      simp

/-! ## Calls at the end of the stream, and the row count that wraps -/

/-- A call at the end of the stream when `line` is allocated and `nrow` is not `0`, under
any allocator: only `line[0]`, `nfield` and `nrow` change. -/
theorem csvgetline_eof_frame (alloc : Nat → Bool) (s : State) (hline : s.line ≠ none)
    (hrow : s.nrow ≠ 0) :
    (csvgetline alloc s []).2.1.nrow = (s.nrow + 1) % 4294967296 ∧
      (csvgetline alloc s []).2.1.line ≠ none ∧
      (csvgetline alloc s []).2.1.nkey = s.nkey ∧
      (csvgetline alloc s []).2.1.key = s.key ∧
      (csvgetline alloc s []).2.1.kline = s.kline ∧
      (csvgetline alloc s []).2.1.maxline = s.maxline := by
  unfold csvgetline
  rw [firstAlloc_of_line alloc s hline]
  simp only [List.length_nil, Nat.zero_add, readLoop_eof, if_neg hrow]
  rw [split_empty _ _ _ _ _ (rd_line_zero s.line)]
  exact ⟨rfl, map_wr_ne_none _ _ _ hline, rfl, rfl, rfl, rfl⟩

theorem afterCalls_succ (alloc : Nat → Bool) (n : Nat) (s : State) (fin : List Nat) :
    afterCalls alloc (n + 1) s fin =
      ((csvgetline alloc (afterCalls alloc n s fin).1 (afterCalls alloc n s fin).2).2.1,
       (csvgetline alloc (afterCalls alloc n s fin).1 (afterCalls alloc n s fin).2).2.2) :=
  rfl

/-- Calls at the end of the stream, as long as the row count does not pass `2 ^ 32`, under
any allocator: the row count goes up by one at each call, and the keys and `maxline` stay. -/
theorem eof_calls (alloc : Nat → Bool) (s : State) (hline : s.line ≠ none)
    (hrow : s.nrow ≠ 0) : ∀ k : Nat, s.nrow + k ≤ 4294967296 →
    (afterCalls alloc k s []).1.nrow % 4294967296 = (s.nrow + k) % 4294967296 ∧
    (s.nrow < 4294967296 → (afterCalls alloc k s []).1.nrow = (s.nrow + k) % 4294967296) ∧
    (afterCalls alloc k s []).1.line ≠ none ∧
    (afterCalls alloc k s []).1.nkey = s.nkey ∧ (afterCalls alloc k s []).1.key = s.key ∧
    (afterCalls alloc k s []).1.kline = s.kline ∧
    (afterCalls alloc k s []).1.maxline = s.maxline := by
  intro k
  induction k with
  | zero =>
    intro _
    exact ⟨rfl, fun hlt => by rw [Nat.add_zero, Nat.mod_eq_of_lt hlt]; rfl, hline, rfl, rfl,
      rfl, rfl⟩
  | succ k ih =>
    intro hk
    obtain ⟨h1, _, h2, h3, h4, h5, h6⟩ := ih (by omega)
    have hnz : (afterCalls alloc k s []).1.nrow ≠ 0 := by omega
    obtain ⟨g1, g2, g3, g4, g5, g6⟩ :=
      csvgetline_eof_frame alloc (afterCalls alloc k s []).1 h2 hnz
    rw [afterCalls_succ, afterCalls_eof alloc s k]
    exact ⟨by rw [g1]; omega, fun _ => by rw [g1]; omega, g2, by rw [g3, h3], by rw [g4, h4],
      by rw [g5, h5], by rw [g6, h6]⟩

theorem reachable_afterCalls (s : State) (fin : List Nat) (h : Reachable s) : ∀ k : Nat,
    Reachable (afterCalls noFail k s fin).1 := by
  intro k
  induction k with
  | zero => exact h
  | succ k ih =>
    simp only [afterCalls]
    exact Reachable.call _ _ ih

/-! ## The capacities of the states reached within the range of the counters -/

/-- The states reached within the range of the counters: the capacities are in order, the
row count is the number of calls, and `maxline`, `maxfield` and `maxkey` are below
`2 ^ 31`. -/
theorem reachableIn_caps (n : Nat) (s : State) (h : ReachableIn n s) :
    n < 4294967296 →
    (n = 0 ∧ s = State.init) ∨
      (0 < n ∧ Caps s ∧ s.nrow = n ∧ s.maxline < 2147483648 ∧ s.maxfield < 2147483648 ∧
        s.maxkey < 2147483648) := by
  induction h with
  | init => intro _; left; exact ⟨rfl, rfl⟩
  | call n s fin _ hl ih =>
    intro hn
    right
    rcases ih (by omega) with ⟨h0, hi⟩ | ⟨_, hc, hr, hm, hf, hk⟩
    · subst hi
      subst h0
      refine ⟨by omega, ?_, ?_, csvgetline_maxline_lt _ fin (by decide) hl,
        csvgetline_maxptrs_lt _ fin (Or.inl rfl) (by decide) (by decide) hl⟩
      · rw [csvgetline_init]
        exact (csvgetline_caps _ fin caps_first).1 (by decide)
      · rw [csvgetline_noFail_nrow]; rfl
    · refine ⟨by omega, (csvgetline_caps s fin hc).1 (by omega), ?_,
        csvgetline_maxline_lt s fin hm hl,
        csvgetline_maxptrs_lt s fin (Or.inr hc.1) hf hk hl⟩
      rw [csvgetline_noFail_nrow, hr]
      exact Nat.mod_eq_of_lt hn

/-! ## The properties of the specification -/

/-- C1, quoted round trip.  For every non-empty list of values `vs` without NUL (commas,
double quotes and any other byte allowed), the line made of the values, each wrapped in
double quotes with every inner double quote doubled, joined with commas, is split by
`split` into exactly the values `vs`, in order, when no allocation fails. -/
theorem quoted_round_trip (vs : List (List Nat)) (hne : vs ≠ [])
    (hnz : ∀ v ∈ vs, ∀ c ∈ v, c ≠ 0) :
    splitLine noFail (List.intercalate [44] (vs.map quote)) = some vs := by
  rw [← joinComma_eq_intercalate]
  change splitLine noFail (quotedLine vs) = some vs
  rw [splitLine_eq _ (quotedLine_nz vs hnz)]
  unfold fieldsOf
  rw [if_neg (quotedLine_ne_nil vs hne), fieldsFrom_quotedLine vs _ hne (Nat.lt_succ_self _)]

/-- C1 at the values `a",b`, the empty value and `"`. -/
theorem quoted_round_trip_witness :
    splitLine noFail (List.intercalate [44] ([[97, 34, 44, 98], [], [34]].map quote)) =
      some [[97, 34, 44, 98], [], [34]] :=
  quoted_round_trip [[97, 34, 44, 98], [], [34]] (by decide) (by decide)

/-- C2, unquoted round trip.  For every line without double quote and without NUL,
the fields `split` leaves, joined with commas, are the line itself; the empty line gives no
field. -/
theorem unquoted_round_trip (ln : List Nat) (hq : ∀ c ∈ ln, c ≠ 34) (hnz : ∀ c ∈ ln, c ≠ 0) :
    (splitLine noFail ln).map (List.intercalate [44]) = some ln ∧
      splitLine noFail [] = some [] := by
  refine ⟨?_, by decide⟩
  rw [splitLine_eq ln hnz, Option.map_some', ← joinComma_eq_intercalate]
  unfold fieldsOf
  by_cases h : ln = []
  · subst h; rfl
  · rw [if_neg h, fieldsFrom_join _ ln (Nat.lt_succ_self _) hq]

/-- C2 at the line `ab,,c,`. -/
theorem unquoted_round_trip_witness :
    (splitLine noFail [97, 98, 44, 44, 99, 44]).map (List.intercalate [44]) =
      some [97, 98, 44, 44, 99, 44] :=
  (unquoted_round_trip [97, 98, 44, 44, 99, 44] (by decide) (by decide)).1

/-- C3, field count.  For every non-empty line without double quote and without NUL,
`split` leaves as many fields as the line has commas, plus one, none of them holds a
comma, and when a comma is added at the end of the line the last field is empty; the line
`a,b,,d` gives the four fields `a`, `b`, the empty field and `d`, and the line `,` gives
two empty fields. -/
theorem field_count_commas (ln : List Nat) (hne : ln ≠ []) (hq : ∀ c ∈ ln, c ≠ 34)
    (hnz : ∀ c ∈ ln, c ≠ 0) :
    (splitLine noFail ln).map List.length = some (ln.count 44 + 1) ∧
      (∃ fs, splitLine noFail ln = some fs ∧ ∀ f ∈ fs, ∀ c ∈ f, c ≠ 44) ∧
      (∃ fs, splitLine noFail ln = some fs ∧ splitLine noFail (ln ++ [44]) = some (fs ++ [[]])) ∧
      splitLine noFail [97, 44, 98, 44, 44, 100] = some [[97], [98], [], [100]] ∧
      splitLine noFail [44] = some [[], []] := by
  have hfo : fieldsOf ln = fieldsFrom (ln.length + 1) ln := by
    unfold fieldsOf; rw [if_neg hne]
  refine ⟨?_, ⟨fieldsOf ln, splitLine_eq ln hnz, ?_⟩, ⟨fieldsOf ln, splitLine_eq ln hnz, ?_⟩,
    by decide, by decide⟩
  · rw [splitLine_eq ln hnz, Option.map_some', hfo,
      fieldsFrom_count _ ln (Nat.lt_succ_self _) hq]
  · rw [hfo]; exact fieldsFrom_no_comma _ ln hq
  · have hnz2 : ∀ c ∈ ln ++ [44], c ≠ 0 := by
      intro c hc
      rw [List.mem_append, List.mem_singleton] at hc
      rcases hc with hc | hc
      · exact hnz c hc
      · omega
    rw [splitLine_eq _ hnz2, hfo]
    unfold fieldsOf
    rw [if_neg (by simp), List.length_append, List.length_singleton,
      fieldsFrom_trailing _ ln (Nat.lt_succ_self _) hq]

/-- C3 at the line `a,b,` with its trailing comma: three fields. -/
theorem field_count_commas_witness :
    (splitLine noFail [97, 44, 98, 44]).map List.length = some 3 :=
  (field_count_commas [97, 44, 98, 44] (by decide) (by decide) (by decide)).1

/-- C4, the empty line.  When `line` starts with a NUL, `split` sets the count to 0 and
touches nothing else, whatever the allocator; the empty line has no field; and a blank
row (a stream that starts with a line terminator, read when a row has been read before)
is returned as the empty line and leaves `csvnfield()` at 0. -/
theorem empty_line_zero_fields (alloc : Nat → Bool) (line l ap : List Nat) (max : Nat)
    (s : State) (c : Nat) (rest : List Nat) (h0 : rd line 0 = 0) (hrow : s.nrow ≠ 0)
    (hc : c = 10 ∨ c = 13) :
    split alloc line max l ap = some (0, max, l, ap) ∧
      splitLine alloc [] = some [] ∧
      (csvgetline noFail s (c :: rest)).1 = some [] ∧
      csvnfield (csvgetline noFail s (c :: rest)).2.1 = 0 := by
  have hc' : isEol c = true := by
    rcases hc with h | h <;> subst h <;> rfl
  exact ⟨split_empty alloc line max l ap h0, rfl, (csvgetline_blank s c rest hrow hc').1,
    (csvgetline_blank s c rest hrow hc').2⟩

/-- C4 at the blank row that follows the header `a`: the stream `\nb` read in the state
the header left. -/
theorem empty_line_zero_fields_witness :
    csvnfield (csvgetline noFail (csvgetline noFail State.init [97, 10, 10, 98]).2.1
      (10 :: [98])).2.1 = 0 :=
  (empty_line_zero_fields noFail [0] [0] [0] 1
    (csvgetline noFail State.init [97, 10, 10, 98]).2.1 10 [98] (by decide) (by decide)
    (Or.inl rfl)).2.2.2

/-- C5 as stated fails: the line `a,""b,c"",d` is not split into the three fields `a`,
`b,c` and `d`. -/
theorem doubled_quote_line_not_three_fields :
    splitLine noFail [97, 44, 34, 34, 98, 44, 99, 34, 34, 44, 100] ≠
      some [[97], [98, 44, 99], [100]] := by
  decide

/-- C5, amended.  The line `a,""b,c"",d` is split into the four fields `a`, `b`, `c""` and
`d`: the two quotes that open the second field are an empty quoted part, so the comma
after `b` separates; the line `a,"b,c",d` is split into the three fields `a`, `b,c` and
`d`. -/
theorem doubled_quote_line_four_fields :
    splitLine noFail [97, 44, 34, 34, 98, 44, 99, 34, 34, 44, 100] =
        some [[97], [98], [99, 34, 34], [100]] ∧
      splitLine noFail [97, 44, 34, 98, 44, 99, 34, 44, 100] =
        some [[97], [98, 44, 99], [100]] := by
  decide

/-- C6 as stated fails: a line of `2 ^ 30` bytes `a` ended by `\n` is not returned.
When `maxline` is doubled from `2 ^ 30` its `int` wraps, `realloc` is asked for
`2 ^ 64 - 2 ^ 31` bytes, which the allocator refuses, and the first call returns `NULL`
with the session reset: the calls return no line, while the stream cut at its terminators
is that one line. -/
theorem long_line_not_returned :
    readLines wordHeap 2 State.init (List.replicate 1073741824 97 ++ [10]) ≠
        some (cutLines (List.replicate 1073741824 97 ++ [10])) ∧
      readLines wordHeap 2 State.init (List.replicate 1073741824 97 ++ [10]) = some [] ∧
      cutLines (List.replicate 1073741824 97 ++ [10]) = [List.replicate 1073741824 97] ∧
      (csvgetline wordHeap State.init (List.replicate 1073741824 97 ++ [10])).1 = none ∧
      (csvgetline wordHeap State.init (List.replicate 1073741824 97 ++ [10])).2.1 =
        State.init ∧
      sizeOfInt (1073741824 * 2) = 18446744071562067968 ∧
      wordHeap 18446744071562067968 = false := by
  have hlen : 1073741824 ≤ (lineOf (List.replicate 1073741824 97 ++ [10])).length := by
    rw [lineOf_replicate _ _ _ (by decide), List.length_append, List.length_replicate]
    exact Nat.le_add_right _ _
  have hov := csvgetline_overflow wordHeap (by decide) _ hlen
  have h := hov.1
  have hread : readLines wordHeap 2 State.init (List.replicate 1073741824 97 ++ [10]) =
      some [] := by
    rw [show (2 : Nat) = 1 + 1 from rfl, readLines]
    rcases hcall : csvgetline wordHeap State.init (List.replicate 1073741824 97 ++ [10]) with
      ⟨r, s1, f1⟩
    rw [hcall] at h
    simp only at h
    subst h
    rfl
  refine ⟨?_, hread, cutLines_replicate _, hov.1, hov.2, by decide, by decide⟩
  rw [hread, cutLines_replicate]
  intro hc
  exact absurd (Option.some.inj hc) (List.cons_ne_nil _ _).symm

/-- C6, amended.  For every stream without NUL whose lines are shorter than `2 ^ 30` bytes,
read from a fresh session or from any session whose buffers are allocated (`maxline` within
the range of `int`), as long as the lines of the stream and the rows counted before number
fewer than `2 ^ 32`, and under every allocator that serves the requests below `2 ^ 63`
bytes: the lines returned by successive calls of `csvgetline` up to the first `NULL` (which
comes within `length + 1` calls) are the stream cut at its terminators, `\r\n`, `\r` and
`\n` each counting once and an unterminated non-empty end being a line; no line holds a
terminator; and a line of 10,000 bytes is returned whole. -/
theorem lines_are_cut_stream (alloc : Nat → Bool) (s : State) (fin : List Nat) (n : Nat)
    (ha : Serves alloc) (hs : Inv s) (hm : s.maxline < 2147483648)
    (hnz : ∀ c ∈ fin, c ≠ 0) (hn : fin.length < n)
    (hlines : ∀ l ∈ cutLines fin, l.length < 1073741824)
    (hcalls : s.nrow + (cutLines fin).length < 4294967296) :
    readLines alloc n s fin = some (cutLines fin) ∧
      (∀ l ∈ cutLines fin, ∀ c ∈ l, c ≠ 13 ∧ c ≠ 10) ∧
      readLines alloc 10002 State.init (List.replicate 10000 97 ++ [10]) =
        some [List.replicate 10000 97] := by
  refine ⟨readLines_serves alloc ha n s fin hs hm hnz hn hlines hcalls, ?_, ?_⟩
  · exact cutFrom_no_eol (fin.length + 1) fin [] (Nat.lt_succ_self _) (by simp)
  · rw [readLines_serves alloc ha 10002 State.init _ (Or.inl rfl) (by decide), cutLines_replicate]
    · intro c hc
      rw [List.mem_append, List.mem_replicate, List.mem_singleton] at hc
      rcases hc with hc | hc
      · rw [hc.2]; decide
      · rw [hc]; decide
    · rw [List.length_append, List.length_replicate]
      decide
    · intro l hl
      rw [cutLines_replicate, List.mem_singleton] at hl
      rw [hl, List.length_replicate]
      decide
    · rw [cutLines_replicate]
      decide

/-- C6 at the stream `ab\r\ncd\r\rx`, under the allocator that refuses `2 ^ 63` bytes and
more: the lines `ab`, `cd`, the empty line and `x`. -/
theorem lines_are_cut_stream_witness :
    readLines wordHeap 10 State.init [97, 98, 13, 10, 99, 100, 13, 13, 120] =
      some [[97, 98], [99, 100], [], [120]] :=
  (lines_are_cut_stream wordHeap State.init [97, 98, 13, 10, 99, 100, 13, 13, 120] 10
    wordHeap_serves (Or.inl rfl) (by decide) (by decide) (by decide) (by decide)
    (by decide)).1

/-- C7, no more lines.  When no allocation fails, in every state and on every stream, the
read loop of `csvgetline` ends with some last byte `c` and index `i`, and `csvgetline`
returns `NULL` exactly when `c` is `EOF` and `i` is 0, which is exactly when the stream
is at its end; the empty second line of the stream `a\n\nb` is returned as a
zero-length line. -/
theorem no_more_lines_iff (s : State) (fin : List Nat) :
    (∃ s0 s1 fin1 i c, firstAlloc noFail s = some s0 ∧
        readLoop noFail (fin.length + 1) s0 fin 0 = ReadExit.done s1 fin1 i c ∧
        ((csvgetline noFail s fin).1 = none ↔ (c = none ∧ i = 0)) ∧
        ((c = none ∧ i = 0) ↔ fin = [])) ∧
      ((csvgetline noFail s fin).1 = none ↔ fin = []) ∧
      (nthCall noFail 1 State.init [97, 10, 10, 98]).1 = some [] ∧
      readLines noFail 5 State.init [97, 10, 10, 98] = some [[97], [], [98]] := by
  refine ⟨?_, csvgetline_null_iff s fin, by decide, by decide⟩
  obtain ⟨s0, h0⟩ := firstAlloc_noFail_some s
  obtain ⟨s1, h1⟩ := readLoop_noFail_done (fin.length + 1) s0 fin 0 (Nat.lt_succ_self _)
  refine ⟨s0, s1, _, _, _, h0, h1, ?_, ?_⟩
  · rw [csvgetline_null_iff, Nat.zero_add, eof_iff]
  · rw [Nat.zero_add, eof_iff]

/-- C8, lookup by key.  For every state and every name without NUL, `csvkey(name)`
returns the field at the smallest index below `min(nkey, nfield)` whose key equals the
name byte for byte, and `NULL` exactly when no index below `min(nkey, nfield)` has such
a key.  After the header `name,age` and the row `Alice,30`, `csvkey("age")` is `30` and
`csvkey("missing")`, `csvkey("ag")` and `csvkey("AGE")` are `NULL`; after the header
`a,b` and the row `x`, `csvkey("b")` is `NULL`. -/
theorem csvkey_lookup (s : State) (k : List Nat) (hk : ∀ c ∈ k, c ≠ 0) :
    fieldStr s (csvkey s k) =
        ((List.range (min s.nkey s.nfield)).find? (fun i => (keys s).getD i [] == k)).map
          (fun i => (fields s).getD i []) ∧
      (csvkey s k = none ↔ ∀ i, i < min s.nkey s.nfield → (keys s).getD i [] ≠ k) ∧
      fieldStr nameAgeState (csvkey nameAgeState [97, 103, 101]) = some [51, 48] ∧
      csvkey nameAgeState [109, 105, 115, 115, 105, 110, 103] = none ∧
      csvkey nameAgeState [97, 103] = none ∧
      csvkey nameAgeState [65, 71, 69] = none ∧
      csvkey shortRowState [98] = none := by
  refine ⟨?_, ?_, by decide, by decide, by decide, by decide, by decide⟩
  · unfold csvkey
    simp only [csvkey_max]
    rw [csvkeyLoop_spec s k hk _ 0 (by omega) (by omega), List.range_eq_range']
  · unfold csvkey
    simp only [csvkey_max]
    rw [csvkeyLoop_none s k hk _ 0 (by omega)]
    constructor
    · intro h i hi; exact h i (Nat.zero_le _) (by omega)
    · intro h i _ hi; exact h i (by omega)

/-- C8 at the header `name,age`, the row `Alice,30` and the name `name`. -/
theorem csvkey_lookup_witness :
    fieldStr nameAgeState (csvkey nameAgeState [110, 97, 109, 101]) =
      some [65, 108, 105, 99, 101] := by
  rw [(csvkey_lookup nameAgeState [110, 97, 109, 101] (by decide)).1]
  decide

/-- C9, field by index.  After a data row has been read (a call of `csvgetline` that
returns a line, in a state where a row had been read before, when no allocation fails),
`csvnfield()` is the number of fields `split` leaves for that line and `csvfield(n)`
points to the `n`-th of them for `0 <= n < csvnfield()`, and is `NULL` for every other `n`;
in every state `csvfield(n)` is `NULL` outside `0 <= n < csvnfield()`, so
`csvfield(-1)` and `csvfield(csvnfield())` are `NULL`. -/
theorem csvfield_index (s : State) (fin l : List Nat) (s1 : State) (fin1 : List Nat)
    (hs : Inv s) (hrow : s.nrow ≠ 0) (hcall : csvgetline noFail s fin = (some l, s1, fin1)) :
    (∃ fs, splitLine noFail l = some fs ∧ csvnfield s1 = fs.length ∧
        ∀ n : Int, fieldStr s1 (csvfield s1 n) =
          if 0 ≤ n ∧ n < (csvnfield s1 : Int) then some (fs.getD n.toNat []) else none) ∧
      (∀ (t : State) (n : Int), csvfield t n =
          if 0 ≤ n ∧ n < (csvnfield t : Int) then some (rd (t.field.getD []) n.toNat)
          else none) ∧
      (∀ t : State, csvfield t (-1) = none ∧ csvfield t (csvnfield t) = none) := by
  have hgen : ∀ (t : State) (n : Int), csvfield t n =
      if 0 ≤ n ∧ n < (csvnfield t : Int) then some (rd (t.field.getD []) n.toNat)
      else none := by
    intro t n
    unfold csvfield csvnfield
    by_cases h : n < 0 ∨ n ≥ (t.nfield : Int)
    · rw [if_pos h, if_neg (by omega)]
    · rw [if_neg h, if_pos (by omega)]
  refine ⟨?_, hgen, ?_⟩
  · obtain ⟨s2, h1, _, _, _, _, h6⟩ := csvgetline_spec s fin hs
    rw [hcall] at h1
    have hfin : fin ≠ [] := by
      intro h; rw [if_pos h] at h1; simp at h1
    rw [if_neg hfin] at h1
    simp only [Prod.mk.injEq, Option.some.injEq] at h1
    obtain ⟨hl, hs2, _⟩ := h1
    subst hs2
    have hf := (h6 hrow).1
    rw [← hl] at hf
    have hlnz : ∀ c ∈ l, c ≠ 0 := by rw [hl]; exact cline_nz fin
    have hcnt : csvnfield s1 = (fieldsOf l).length := by
      have := congrArg List.length hf
      rw [fields, ptrStrs_length] at this
      exact this
    refine ⟨fieldsOf l, splitLine_eq l hlnz, hcnt, ?_⟩
    intro n
    rw [hgen s1 n]
    by_cases h : 0 ≤ n ∧ n < (csvnfield s1 : Int)
    · rw [if_pos h, if_pos h]
      simp only [fieldStr, Option.map_some']
      rw [← hf, fields, ptrStrs_getD _ _ _ _ (by unfold csvnfield at h; omega)]
    · rw [if_neg h, if_neg h]; rfl
  · intro t
    rw [hgen t (-1), hgen t (csvnfield t)]
    exact ⟨if_neg (by omega), if_neg (by omega)⟩

/-- C9 at the row `Alice,30` read after the header `name,age`: `csvfield(1)` is `30`. -/
theorem csvfield_index_witness :
    fieldStr nameAgeState (csvfield nameAgeState 1) = some [51, 48] := by
  obtain ⟨fs, h1, _, h3⟩ := (csvfield_index
    (nthCall noFail 0 State.init nameAgeStream).2.1
    (nthCall noFail 0 State.init nameAgeStream).2.2
    [65, 108, 105, 99, 101, 44, 51, 48] nameAgeState [] (by decide) (by decide)
    (by decide)).1
  have hfs : fs = [[65, 108, 105, 99, 101], [51, 48]] := by
    have h2 : splitLine noFail [65, 108, 105, 99, 101, 44, 51, 48] =
        some [[65, 108, 105, 99, 101], [51, 48]] := by decide
    rw [h2] at h1
    exact (Option.some.inj h1).symm
  rw [h3 1, hfs]
  decide

/-- C10 fails after a call at the end of a stream.  On a fresh session a call of
`csvgetline` on an empty stream returns `NULL` and still counts a row: `nrow++` comes
before the `return` that tests for `EOF`, and `nrow` is 1.  The next call, on the stream
`a,b\n`, is the first that returns a line, and that line is split into the fields `a` and
`b`: no key is stored and `csvnfield()` is 2. -/
theorem eof_call_takes_header :
    (csvgetline noFail State.init []).1 = none ∧
      (csvgetline noFail State.init []).2.1.nrow = 1 ∧
      (csvgetline noFail (csvgetline noFail State.init []).2.1 [97, 44, 98, 10]).1 =
        some [97, 44, 98] ∧
      keys (csvgetline noFail (csvgetline noFail State.init []).2.1 [97, 44, 98, 10]).2.1 =
        [] ∧
      fields (csvgetline noFail (csvgetline noFail State.init []).2.1 [97, 44, 98, 10]).2.1 =
        [[97], [98]] ∧
      csvnfield (csvgetline noFail (csvgetline noFail State.init []).2.1
        [97, 44, 98, 10]).2.1 = 2 := by
  decide

/-- Header capture on one stream.  In successive calls of `csvgetline` on one stream that
start from a fresh or just closed session, under any allocation oracle, the first call that
returns a line leaves the fields `split` gives for that line as the key list, leaves
the row count at 1, and leaves `csvnfield()` at 0 and the field list empty: on one stream
no call at the end of the stream comes before a line. -/
theorem header_capture (alloc : Nat → Bool) (t : State) (fin : List Nat) (k : Nat)
    (l : List Nat) (s1 : State) (fin1 : List Nat)
    (hnull : ∀ j, j < k → (nthCall alloc j (csvclose t) fin).1 = none)
    (hline : nthCall alloc k (csvclose t) fin = (some l, s1, fin1)) :
    splitLine noFail l = some (keys s1) ∧ csvnfield s1 = 0 ∧ fields s1 = [] ∧
      s1.nrow = 1 := by
  change ∀ j, j < k → (nthCall alloc j State.init fin).1 = none at hnull
  change nthCall alloc k State.init fin = (some l, s1, fin1) at hline
  unfold nthCall at hline
  rcases afterCalls_null alloc fin k hnull with h | h
  · rw [h] at hline
    have h1 := csvgetline_transfer alloc _ _ _ _ _ hline
    obtain ⟨s2, h2, _, h4, _, h6, _⟩ :=
      csvgetline_spec State.init (afterCalls alloc k State.init fin).2 (Or.inl rfl)
    rw [h1] at h2
    by_cases hfin : (afterCalls alloc k State.init fin).2 = []
    · rw [if_pos hfin] at h2; simp at h2
    · rw [if_neg hfin] at h2
      simp only [Prod.mk.injEq, Option.some.injEq] at h2
      obtain ⟨hl, hs2, _⟩ := h2
      subst hs2
      have hk := h6 rfl
      have hnf : s1.nfield = 0 := hk.2
      refine ⟨?_, hnf, ?_, by rw [h4]; rfl⟩
      · rw [hk.1, ← hl]
        exact splitLine_eq l (by rw [hl]; exact cline_nz _)
      · unfold fields; rw [hnf]; rfl
  · have := (csvgetline_eof alloc (afterCalls alloc k State.init fin).1).1
    rw [h] at hline
    rw [hline] at this
    exact absurd this (by simp)

/-- Header capture at a stream of sixteen `a` and `b,c\n`, under an allocator that refuses
more than 16 bytes: the first call fails to grow the line and returns `NULL`, the second returns
`b,c`, which becomes the header. -/
theorem header_capture_witness :
    (nthCall smallHeap 0 State.init longStartStream).1 = none ∧
      (nthCall smallHeap 1 State.init longStartStream).1 = some [98, 44, 99] ∧
      keys (nthCall smallHeap 1 State.init longStartStream).2.1 = [[98], [99]] ∧
      csvnfield (nthCall smallHeap 1 State.init longStartStream).2.1 = 0 := by
  have h := header_capture smallHeap State.init longStartStream 1 [98, 44, 99]
    (nthCall smallHeap 1 State.init longStartStream).2.1
    (nthCall smallHeap 1 State.init longStartStream).2.2
    (by intro j hj
        have hj0 : j = 0 := by omega
        subst hj0
        decide)
    (by decide)
  have h2 : splitLine noFail [98, 44, 99] = some [[98], [99]] := by decide
  rw [h2] at h
  exact ⟨by decide, by decide, (Option.some.inj h.1).symm, h.2.1⟩

/-- C11, keys frozen after the header.  A call of `csvgetline` made when a row has been
read before (`nrow` at least 1, `line` allocated), under any allocation oracle, either
ends in `reset` (every allocation failure does) or leaves the key count, the key pointers,
the key buffer and so every key string as they were, whatever the stream holds; when no
allocation fails the keys are left as they were. -/
theorem keys_frozen (alloc : Nat → Bool) (s : State) (fin : List Nat) (hrow : s.nrow ≠ 0)
    (hline : s.line ≠ none) :
    ((csvgetline alloc s fin).2.1 = reset s ∨
      ((csvgetline alloc s fin).2.1.nkey = s.nkey ∧
        (csvgetline alloc s fin).2.1.key = s.key ∧
        (csvgetline alloc s fin).2.1.kline = s.kline ∧
        keys (csvgetline alloc s fin).2.1 = keys s)) ∧
      (csvgetline noFail s fin).2.1.nkey = s.nkey ∧
      (keys (csvgetline noFail s fin).2.1).length = (keys s).length ∧
      keys (csvgetline noFail s fin).2.1 = keys s := by
  refine ⟨?_, ?_⟩
  · rcases csvgetline_keys_frame alloc s fin hrow hline with h | ⟨_, _, h3, h4, h5, _⟩
    · left; exact h
    · right; exact ⟨h3, h4, h5, keys_congr _ _ h3 h4 h5⟩
  · obtain ⟨_, _, h3, h4, h5, _⟩ := csvgetline_keys_same s fin hrow hline
    have hk := keys_congr _ _ h3 h4 h5
    exact ⟨h3, by rw [hk], hk⟩

/-- C11 at the row `Alice,30` read after the header `name,age`: the keys are still `name`
and `age`. -/
theorem keys_frozen_witness :
    keys (csvgetline noFail (nthCall noFail 0 State.init nameAgeStream).2.1
      [65, 108, 105, 99, 101, 44, 51, 48, 10]).2.1 = [[110, 97, 109, 101], [97, 103, 101]] := by
  rw [(keys_frozen noFail (nthCall noFail 0 State.init nameAgeStream).2.1
    [65, 108, 105, 99, 101, 44, 51, 48, 10] (by decide) (by decide)).2.2.2]
  decide

/-- C12, the raw line stays intact.  For every non-empty stream without NUL, read in a
fresh or allocated session when no allocation fails, `csvgetline` returns the bytes of
the stream before its first terminator, unchanged, the `line` buffer still holds exactly
them after `split` has run, and the keys (first row) or fields (later rows) are those `split`
gives for that line; after the header `h`, the row `"a""b",c` is returned with its quotes
and comma while its fields are `a"b` and `c`. -/
theorem raw_line_intact (s : State) (fin : List Nat) (hs : Inv s) (hnz : ∀ c ∈ fin, c ≠ 0)
    (hne : fin ≠ []) :
    (csvgetline noFail s fin).1 = some (lineOf fin) ∧
      cstr ((csvgetline noFail s fin).2.1.line.getD []) 0 = lineOf fin ∧
      (s.nrow = 0 → splitLine noFail (lineOf fin) = some (keys (csvgetline noFail s fin).2.1)) ∧
      (s.nrow ≠ 0 →
        splitLine noFail (lineOf fin) = some (fields (csvgetline noFail s fin).2.1)) ∧
      (nthCall noFail 1 State.init quotedRowStream).1 =
        some [34, 97, 34, 34, 98, 34, 44, 99] ∧
      fields (nthCall noFail 1 State.init quotedRowStream).2.1 = [[97, 34, 98], [99]] := by
  have hl : ∀ c ∈ lineOf fin, c ≠ 0 := fun c hc => hnz c (lineOf_subset fin c hc)
  obtain ⟨s1, h1, _, _, h4, h5, h6⟩ := csvgetline_spec s fin hs
  rw [cline_eq fin hl] at h1 h4 h5 h6
  rw [if_neg hne] at h1
  rw [h1]
  refine ⟨rfl, h4, ?_, ?_, by decide, by decide⟩
  · intro h0; rw [(h5 h0).1]; exact splitLine_eq _ hl
  · intro h0; rw [(h6 h0).1]; exact splitLine_eq _ hl

/-- C12 at the line `"x,y",z` read as a header: it is returned with its quotes. -/
theorem raw_line_intact_witness :
    (csvgetline noFail State.init [34, 120, 44, 121, 34, 44, 122, 10]).1 =
      some [34, 120, 44, 121, 34, 44, 122] :=
  (raw_line_intact State.init [34, 120, 44, 121, 34, 44, 122, 10] (Or.inl rfl) (by decide)
    (by decide)).1

/-- C13 fails in its last part after a call at the end of a stream: the first line read
after a `csvclose` is then not the header.  After `csvclose` on the session left by
`name,age` and `Alice,30`, which gives the starting state, a call of `csvgetline` on an
empty stream returns `NULL` and counts a row; the line `x,y` read next, the first after
the close, is split into the fields `x` and `y` and no key is stored. -/
theorem close_then_eof_not_header :
    csvclose nameAgeState = State.init ∧
      (csvgetline noFail (csvclose nameAgeState) []).1 = none ∧
      (csvgetline noFail (csvclose nameAgeState) []).2.1.nrow = 1 ∧
      (csvgetline noFail (csvgetline noFail (csvclose nameAgeState) []).2.1
        [120, 44, 121, 10]).1 = some [120, 44, 121] ∧
      splitLine noFail [120, 44, 121] = some [[120], [121]] ∧
      keys (csvgetline noFail (csvgetline noFail (csvclose nameAgeState) []).2.1
        [120, 44, 121, 10]).2.1 = [] ∧
      fields (csvgetline noFail (csvgetline noFail (csvclose nameAgeState) []).2.1
        [120, 44, 121, 10]).2.1 = [[120], [121]] := by
  decide

/-- What `csvclose` does.  From every state `csvclose` gives the state the program starts
in: all pointers `NULL` and `maxline`, `maxfield`, `maxkey`, `nfield`, `nkey` and `nrow`
all 0; so it changes nothing on a session never used, doing it twice is doing it once, and
a line returned by the first call of `csvgetline` after it, when no allocation fails, is
the header again: its fields become the keys, `csvnfield()` stays 0 and the row count
is 1. -/
theorem csvclose_resets (s : State) (fin l : List Nat) (s1 : State) (fin1 : List Nat)
    (hcall : csvgetline noFail (csvclose s) fin = (some l, s1, fin1)) :
    csvclose s = State.init ∧
      csvclose s = State.mk none none none 0 none none 0 0 0 0 0 ∧
      csvclose State.init = State.init ∧
      csvclose (csvclose s) = csvclose s ∧
      splitLine noFail l = some (keys s1) ∧ csvnfield s1 = 0 ∧ s1.nrow = 1 :=
  ⟨rfl, rfl, rfl, rfl, first_line_header fin l s1 fin1 hcall⟩

/-- The session left by `name,age` and `Alice,30`: after `csvclose`, the line `Alice,30`
read first becomes the header. -/
theorem csvclose_resets_witness :
    keys (csvgetline noFail (csvclose nameAgeState)
      [65, 108, 105, 99, 101, 44, 51, 48, 10]).2.1 = [[65, 108, 105, 99, 101], [51, 48]] := by
  have h := (csvclose_resets nameAgeState [65, 108, 105, 99, 101, 44, 51, 48, 10]
    [65, 108, 105, 99, 101, 44, 51, 48]
    (csvgetline noFail (csvclose nameAgeState) [65, 108, 105, 99, 101, 44, 51, 48, 10]).2.1
    (csvgetline noFail (csvclose nameAgeState) [65, 108, 105, 99, 101, 44, 51, 48, 10]).2.2
    (by decide)).2.2.2.2.1
  have h2 : splitLine noFail [65, 108, 105, 99, 101, 44, 51, 48] =
      some [[65, 108, 105, 99, 101], [51, 48]] := by decide
  rw [h2] at h
  exact (Option.some.inj h).symm

/-- C15, unterminated quote.  For every text `s` without double quote and without NUL
(commas allowed), the line made of a double quote and `s` is split, with no error, into
exactly one field, `s`. -/
theorem unterminated_quote (s : List Nat) (hq : ∀ c ∈ s, c ≠ 34) (hnz : ∀ c ∈ s, c ≠ 0) :
    splitLine noFail (34 :: s) = some [s] := by
  have hnz2 : ∀ c ∈ 34 :: s, c ≠ 0 := by
    intro c hc
    rw [List.mem_cons] at hc
    rcases hc with hc | hc
    · omega
    · exact hnz c hc
  have hff : firstField (34 :: s) = (s, []) := by
    simp only [firstField, if_true]
    exact quotedField_open s hq
  rw [splitLine_eq _ hnz2, fieldsOf_cons, fieldsFrom_last _ _ (by rw [hff]), hff]

/-- C15 at the line `"a,b`: one field, `a,b`. -/
theorem unterminated_quote_witness :
    splitLine noFail [34, 97, 44, 98] = some [[97, 44, 98]] :=
  unterminated_quote [97, 44, 98] (by decide) (by decide)

/-- C16, text after a closing quote.  For every `s` without double quote and every `t`
without comma that does not start with a double quote (both without NUL), the line made
of a double quote, `s`, a double quote and `t` is split into exactly one field, `s`
followed by `t`; and when a comma and a text `u` follow, the first field is still `s`
followed by `t`. -/
theorem trailing_after_quote (s t u : List Nat) (hs : ∀ c ∈ s, c ≠ 34)
    (hs0 : ∀ c ∈ s, c ≠ 0) (ht : ∀ c ∈ t, c ≠ 44) (ht0 : ∀ c ∈ t, c ≠ 0)
    (hth : t.head? ≠ some 34) (hu0 : ∀ c ∈ u, c ≠ 0) :
    splitLine noFail (34 :: (s ++ 34 :: t)) = some [s ++ t] ∧
      (splitLine noFail (34 :: (s ++ 34 :: (t ++ 44 :: u)))).map List.head? =
        some (some (s ++ t)) := by
  constructor
  · have hnz : ∀ c ∈ 34 :: (s ++ 34 :: t), c ≠ 0 := by
      intro c hc
      simp only [List.mem_cons, List.mem_append] at hc
      rcases hc with hc | hc | hc | hc
      · omega
      · exact hs0 c hc
      · omega
      · exact ht0 c hc
    have hq := quotedField_trailing t [] ht hth (Or.inl rfl) s hs
    rw [List.append_nil] at hq
    have hff : firstField (34 :: (s ++ 34 :: t)) = (s ++ t, []) := by
      simp only [firstField, if_true]
      exact hq
    rw [splitLine_eq _ hnz, fieldsOf_cons, fieldsFrom_last _ _ (by rw [hff]), hff]
  · have hnz : ∀ c ∈ 34 :: (s ++ 34 :: (t ++ 44 :: u)), c ≠ 0 := by
      intro c hc
      simp only [List.mem_cons, List.mem_append] at hc
      rcases hc with hc | hc | hc | hc | hc | hc
      · omega
      · exact hs0 c hc
      · omega
      · exact ht0 c hc
      · omega
      · exact hu0 c hc
    have hq := quotedField_trailing t (44 :: u) ht hth (Or.inr ⟨u, rfl⟩) s hs
    have hff : firstField (34 :: (s ++ 34 :: (t ++ 44 :: u))) = (s ++ t, 44 :: u) := by
      simp only [firstField, if_true]
      exact hq
    rw [splitLine_eq _ hnz, fieldsOf_cons, fieldsFrom_more _ _ u (by rw [hff]), hff]
    rfl

/-- C16 at the line `"a,b"c"d,e`: the first field is `a,bc"d`. -/
theorem trailing_after_quote_witness :
    (splitLine noFail (34 :: ([97, 44, 98] ++ 34 :: ([99, 34, 100] ++ 44 :: [101])))).map
      List.head? = some (some ([97, 44, 98] ++ [99, 34, 100])) :=
  (trailing_after_quote [97, 44, 98] [99, 34, 100] [101] (by decide) (by decide) (by decide)
    (by decide) (by decide) (by decide)).2

/-- C17 as stated fails after `2 ^ 32` calls.  The session left by the header `a` and the
row `bbbbbbbb` has `nrow` at 2, `maxline` at 16 and a `kline` of 2 cells, which is not
resized once a row has been read; `2 ^ 32 - 2` further calls, here at the end of the
stream, with no `csvclose` and no allocation failure, bring `nrow` back to `0`.  In that
state the line copy `split` would use is `kline`, and it has 2 cells for a `maxline`
of 16. -/
theorem header_scratch_short_after_wrap :
    Reachable (afterCalls noFail 4294967294 grownState []).1 ∧
      (afterCalls noFail 4294967294 grownState []).1.nrow = 0 ∧
      ((afterCalls noFail 4294967294 grownState []).1.kline.getD []).length = 2 ∧
      (afterCalls noFail 4294967294 grownState []).1.maxline = 16 := by
  have hr : Reachable grownState := Reachable.call _ _ (Reachable.call _ _ Reachable.init)
  obtain ⟨_, h1, _, _, _, h5, h6⟩ :=
    eof_calls noFail grownState (by decide) (by decide) 4294967294 (by decide)
  refine ⟨reachable_afterCalls grownState [] hr _, ?_, ?_, ?_⟩
  · rw [h1 (by decide)]
    decide
  · rw [h5]
    decide
  · rw [h6]
    decide

/-- C17, amended.  In every state reached from the fresh session by `n` calls of
`csvgetline` in which no allocation fails, each on a line shorter than `2 ^ 30` bytes, with
no `csvclose` and with `n` below `2 ^ 32`: either nothing is allocated yet, or `maxline`,
`maxfield` and `maxkey` are powers of two, the buffers have these sizes (`line` and `sline`
have `maxline` cells), the string in `line` is shorter than `maxline`, and
`nfield <= maxfield` and `nkey <= maxkey`; the row count is `n` and `maxline`, `maxfield`
and `maxkey` are below `2 ^ 31`, so that no `int` has left its range.  One more call on
such a line does not lower `maxline`, `maxfield` or `maxkey`, stores a line whose last
write index (its NUL) is below `maxline`, leaves the line copy it used with `maxline` cells
(`kline` when `nrow` was 0, `sline` otherwise) and leaves `maxline` below `2 ^ 31`.  The
first allocation gives each size 1. -/
theorem capacity_invariant (n : Nat) (s : State) (fin : List Nat) (h : ReachableIn n s)
    (hn : n < 4294967296) (hl : (lineOf fin).length < 1073741824) :
    (s = State.init ∨
      ((∃ e, s.maxline = 2 ^ e) ∧ (∃ e, s.maxfield = 2 ^ e) ∧ (∃ e, s.maxkey = 2 ^ e) ∧
        (s.line.getD []).length = s.maxline ∧ (s.sline.getD []).length = s.maxline ∧
        (s.field.getD []).length = s.maxfield ∧ (s.key.getD []).length = s.maxkey ∧
        (cstr (s.line.getD []) 0).length < s.maxline ∧
        s.nfield ≤ s.maxfield ∧ s.nkey ≤ s.maxkey)) ∧
      (s.nrow = n ∧ s.maxline < 2147483648 ∧ s.maxfield < 2147483648 ∧
        s.maxkey < 2147483648) ∧
      (s.maxline ≤ (csvgetline noFail s fin).2.1.maxline ∧
        s.maxfield ≤ (csvgetline noFail s fin).2.1.maxfield ∧
        s.maxkey ≤ (csvgetline noFail s fin).2.1.maxkey ∧
        (lineOf fin).length < (csvgetline noFail s fin).2.1.maxline ∧
        ((csvgetline noFail s fin).2.1.sline.getD []).length =
          (csvgetline noFail s fin).2.1.maxline ∧
        (s.nrow = 0 → ((csvgetline noFail s fin).2.1.kline.getD []).length =
          (csvgetline noFail s fin).2.1.maxline) ∧
        (csvgetline noFail s fin).2.1.maxline < 2147483648) ∧
      (firstAlloc noFail State.init).map (fun t => (t.maxline, t.maxfield, t.maxkey)) =
        some (1, 1, 1) := by
  rcases reachableIn_caps n s h hn with ⟨h0, hi⟩ | ⟨_, hc, hr, hm, hf, hk⟩
  · subst hi
    subst h0
    refine ⟨Or.inl rfl, ⟨rfl, by decide, by decide, by decide⟩, ?_, rfl⟩
    have hb := csvgetline_maxline_lt State.init fin (by decide) hl
    rw [csvgetline_init] at hb ⊢
    obtain ⟨_, _, _, _, h5, h6, h7⟩ := csvgetline_caps _ fin caps_first
    exact ⟨Nat.zero_le _, Nat.zero_le _, Nat.zero_le _, h5, h6, fun _ => h7 rfl, hb⟩
  · obtain ⟨_, h2, h3, h4, h5, h6, h7⟩ := csvgetline_caps s fin hc
    obtain ⟨⟨a1, a2, _, _, a5, a6, _, _, _⟩, p1, p2, p3, c1, c2, c3⟩ := hc
    exact ⟨Or.inr ⟨p1, p2, p3, a1, a2, a5, a6, c3, c1, c2⟩, ⟨hr, hm, hf, hk⟩,
      ⟨h2, h3, h4, h5, h6, h7, csvgetline_maxline_lt s fin hm hl⟩, rfl⟩

/-- C17 at the session left by the two calls that read `name,age` and `Alice,30`:
`maxline` is 16, and `maxfield` and `maxkey` are 2. -/
theorem capacity_invariant_witness :
    (nameAgeState = State.init ∨
      ((∃ e, nameAgeState.maxline = 2 ^ e) ∧ (∃ e, nameAgeState.maxfield = 2 ^ e) ∧
        (∃ e, nameAgeState.maxkey = 2 ^ e) ∧
        (nameAgeState.line.getD []).length = nameAgeState.maxline ∧
        (nameAgeState.sline.getD []).length = nameAgeState.maxline ∧
        (nameAgeState.field.getD []).length = nameAgeState.maxfield ∧
        (nameAgeState.key.getD []).length = nameAgeState.maxkey ∧
        (cstr (nameAgeState.line.getD []) 0).length < nameAgeState.maxline ∧
        nameAgeState.nfield ≤ nameAgeState.maxfield ∧
        nameAgeState.nkey ≤ nameAgeState.maxkey)) ∧
      nameAgeState.nrow = 2 ∧
      nameAgeState.maxline = 16 ∧ nameAgeState.maxfield = 2 ∧ nameAgeState.maxkey = 2 :=
  ⟨(capacity_invariant 2 nameAgeState []
      (ReachableIn.call 1 _ _ (ReachableIn.call 0 _ _ ReachableIn.init (by decide))
        (by decide)) (by decide) (by decide)).1,
    (capacity_invariant 2 nameAgeState []
      (ReachableIn.call 1 _ _ (ReachableIn.call 0 _ _ ReachableIn.init (by decide))
        (by decide)) (by decide) (by decide)).2.1.1,
    by decide, by decide, by decide⟩

/-- C18, the compaction stays inside the line copy.  For every line without NUL, when no
allocation fails, the fields `split` leaves have lengths whose sum, plus the number of
fields less one, is at most the length of the line; there is at least one field when the
line is not empty and at most as many as commas plus one; every field pointer, with the
length of its string, stays inside the line copy; and in the loop of `advquoted` the
write index `i` ends at most at the read index `j` whenever it starts so. -/
theorem fields_fit_line (ln : List Nat) (hnz : ∀ c ∈ ln, c ≠ 0) :
    (∃ fs, splitLine noFail ln = some fs ∧
        (fs.map List.length).sum + (fs.length - 1) ≤ ln.length ∧
        (ln ≠ [] → 1 ≤ fs.length) ∧ fs.length ≤ ln.count 44 + 1) ∧
      (∃ n max1 l1 ap1,
        split noFail (ln ++ [0]) 1 (malloc (ln.length + 1)) (malloc 1) =
          some (n, max1, l1, ap1) ∧
        l1.length = ln.length + 1 ∧
        ∀ i, i < n → rd ap1 i + (cstr l1 (rd ap1 i)).length < l1.length) ∧
      (∀ (fuel : Nat) (buf : List Nat) (p i j : Nat), i ≤ j →
        (advquotedLoop fuel buf p i j).2.1 ≤ (advquotedLoop fuel buf p i j).2.2) := by
  refine ⟨⟨fieldsOf ln, splitLine_eq ln hnz, ?_⟩, ?_, advquotedLoop_le⟩
  · by_cases hne : ln = []
    · subst hne
      simp [fieldsOf]
    · have hfo : fieldsOf ln = fieldsFrom (ln.length + 1) ln := by
        unfold fieldsOf; rw [if_neg hne]
      obtain ⟨h1, h2, h3⟩ := sum_fieldsFrom (ln.length + 1) ln (Nat.lt_succ_self _)
      rw [hfo]
      exact ⟨by omega, fun _ => h2, h3⟩
  · obtain ⟨max1, l1, ap1, e, h1, h2, _, _, _, h6⟩ :=
      split_spec ln (ln ++ [0]) (malloc (ln.length + 1)) (malloc 1) 1 hnz (at_self _ _)
        (rd_append_zero ln []) (by simp [malloc]) (by simp [malloc]) (Nat.le_refl _)
    refine ⟨_, max1, l1, ap1, h1, by rw [h2]; simp [malloc], ?_⟩
    intro i hi
    obtain ⟨g1, g2⟩ := h6 i hi
    rw [g1, h2]
    simp only [malloc, List.length_replicate]
    omega

/-- C18 at the line `"a""b",c`: two fields of lengths 3 and 1. -/
theorem fields_fit_line_witness :
    ∃ fs, splitLine noFail [34, 97, 34, 34, 98, 34, 44, 99] = some fs ∧
      (fs.map List.length).sum + (fs.length - 1) ≤ 8 ∧
      (([34, 97, 34, 34, 98, 34, 44, 99] : List Nat) ≠ [] → 1 ≤ fs.length) ∧
      fs.length ≤ ([34, 97, 34, 34, 98, 34, 44, 99] : List Nat).count 44 + 1 :=
  (fields_fit_line [34, 97, 34, 34, 98, 34, 44, 99] (by decide)).1

/-- C19, a read at the end of the stream discards the row.  A call of `csvgetline` at the
end of the stream when a row has been read before, under any allocation oracle, returns
`NULL` and leaves `csvnfield()` at 0, so `csvfield(n)` and `csvkey(k)` are `NULL` for
every `n` and `k`.  On the stream `name,age\nAlice,30\n` the second call leaves the fields
`Alice` and `30` and the third call, at the end of the stream, leaves none. -/
theorem eof_discards_row (alloc : Nat → Bool) (s : State) (hrow : s.nrow ≠ 0) :
    (csvgetline alloc s []).1 = none ∧
      csvnfield (csvgetline alloc s []).2.1 = 0 ∧
      (∀ n : Int, csvfield (csvgetline alloc s []).2.1 n = none) ∧
      (∀ k : List Nat, csvkey (csvgetline alloc s []).2.1 k = none) ∧
      fields (nthCall noFail 1 State.init nameAgeStream).2.1 =
        [[65, 108, 105, 99, 101], [51, 48]] ∧
      (nthCall noFail 2 State.init nameAgeStream).1 = none ∧
      fields (nthCall noFail 2 State.init nameAgeStream).2.1 = [] ∧
      csvkey (nthCall noFail 2 State.init nameAgeStream).2.1 [97, 103, 101] = none := by
  have h := csvgetline_eof_row alloc s hrow
  exact ⟨(csvgetline_eof alloc s).1, h, csvfield_none_of_nfield _ h,
    csvkey_none_of_nfield _ h, by decide, by decide, by decide, by decide⟩

/-- C19 at the session left by `name,age` and `Alice,30`. -/
theorem eof_discards_row_witness :
    csvnfield nameAgeState = 2 ∧ csvnfield (csvgetline noFail nameAgeState []).2.1 = 0 :=
  ⟨by decide, (eof_discards_row noFail nameAgeState (by decide)).2.1⟩

end Csv
